import Mathlib

/-!
A shallow embedding of chprintf.c (os/hal/lib/streams).

The target is a 32-bit machine: `int`, `long`, `unsigned` and pointers are 32 bits
wide.  Machine integers are `Nat`/`Int` with explicit reduction modulo `2^32`
(signed arithmetic wraps, as the target's instructions do; the negation
`l = -l` of the signed integer cases, which overflows for the most negative
`long`, is left to the platform there).  Bytes are `Nat`s.
Memory is a total map from addresses (offsets) to bytes, so a store outside an
object is visible in the model instead of being dropped.
-/

namespace Chprintf

/-! ## Machine integers and memory -/

/-- Reduction of an integer to the value of a 32-bit signed `int`/`long`. -/
def toS32 (x : Int) : Int := (x + 2147483648) % 4294967296 - 2147483648

/-- Reduction of an integer to the value of a 32-bit `unsigned`/`unsigned long`
(also: the bit pattern of a signed 32-bit value). -/
def toU32 (x : Int) : Nat := (x % 4294967296).toNat

/-- Byte memory addressed by a (signed) offset from an object's start. -/
abbrev Mem := Int → Nat

/-- The memory after `*a = v`. -/
def store (m : Mem) (a : Int) (v : Nat) : Mem := fun x => if x = a then v else m x

/-- The memory after writing the bytes `bs` at `a, a+1, ...`. -/
def storeList (m : Mem) (a : Int) : List Nat → Mem
  | [] => m
  | b :: bs => storeList (store m a b) (a + 1) bs

/-- The `n` bytes found at `s, s+1, ...`. -/
def readBytes (m : Mem) (s : Int) : Nat → List Nat
  | 0 => []
  | n + 1 => m s :: readBytes m (s + 1) n

/-- The memory a `char *` points to: the listed bytes, then NUL bytes. -/
def strMem (bytes : List Nat) : Mem := fun a => if a < 0 then 0 else bytes.getD a.toNat 0

/-- `#define MAX_FILLER 11` (line 39). -/
def MAX_FILLER : Int := 11

/-- `#define FLOAT_PRECISION 9` (line 40). -/
def FLOAT_PRECISION : Nat := 9

/-! ## long_to_string_with_divisor, ch_ltoa (lines 42-78) -/

/-- The first `do ... while ((ll /= radix) != 0)` loop (lines 58-65).  `l` and `ll`
are the bit patterns of the two `long`s: `radix` is `unsigned`, and on a target
whose `long` is as wide as `unsigned` both `l % radix` and `l / radix` are
computed in `unsigned long`.  The first argument bounds the number of
iterations; `none` is a loop that is still running when it is used up. -/
def ltoaDigits (radix : Nat) : Nat → Mem → Int → Nat → Nat → Option (Mem × Int)
  | 0, _, _, _, _ => none
  | fuel + 1, m, q, l, ll =>
    let i := l % radix
    let i := i + 48
    let i := if i > 57 then i + (65 - 48 - 10) else i
    let q := q - 1
    let m := store m q (i % 256)
    let l := l / radix
    let ll := ll / radix
    if ll ≠ 0 then ltoaDigits radix fuel m q l ll else some (m, q)

/-- The second loop `do *p++ = *q++; while (--i);` (lines 68-70), entered with
`i = k >= 1`: the body runs `k` times. -/
def ltoaCopy : Nat → Mem → Int → Int → Mem × Int
  | 0, m, p, _ => (m, p)
  | k + 1, m, p, q => ltoaCopy k (store m p (m q)) (p + 1) (q + 1)

/-- The function `long_to_string_with_divisor` (lines 42-73).  `num` and `divisor` are
given as the bit patterns of the `long` arguments.  The result is the memory
after the call and the returned pointer; `none` when the code divides by zero
(`radix = 0`) or does not leave its first loop (`radix = 1`). -/
def long_to_string_with_divisor (m : Mem) (p : Int) (num radix divisor : Nat) :
    Option (Mem × Int) :=
  let l := num % 4294967296
  let ll := if divisor % 4294967296 = 0 then num % 4294967296 else divisor % 4294967296
  if radix = 0 then none
  else
    match ltoaDigits radix 32 m (p + MAX_FILLER) l ll with
    | none => none
    | some (m1, q) => some (ltoaCopy (p + MAX_FILLER - q).toNat m1 p q)

/-- The function `ch_ltoa` (lines 75-78). -/
def ch_ltoa (m : Mem) (p : Int) (num radix : Nat) : Option (Mem × Int) :=
  long_to_string_with_divisor m p num radix 0

/-! ## ftoa (lines 82-144) -/

/-- What the build and the absent float back-end fix: whether plain `char` is a
signed type; `qfp_float2str` (declared in `qfpio.h`), taken as the text it
writes for a float bit pattern and a control word, the pointer it returns
being taken to be the end of that text; and `negLongMin`, the bit pattern that
`l = -l` (line 268) hands to `ch_ltoa` when `l` is the most negative `long`.
That negation overflows, the language does not define its outcome and builds
differ: one that wraps leaves `0x80000000`, while the digits that come out of
gcc 12 at `-O2` are those of 8. -/
structure Platform where
  signedChar : Bool
  qfp_float2str : Nat → Nat → List Nat
  negLongMin : Nat

/-- The format control word built at lines 109-113 from `precision`
(an `unsigned long`). -/
def ftoaControlWord (precision : Nat) : Nat :=
  0 ||| ((4 &&& 0xff) <<< 8) ||| ((6 &&& 0xff) <<< 16) ||| (1 <<< 29)
    ||| ((precision &&& 0xff) <<< 0)

/-- The function `ftoa` (lines 82-144): `width` is unused, the text is whatever
`qfp_float2str` writes at `p` for the control word. -/
def ftoa (T : Platform) (m : Mem) (p : Int) (f : Nat) (_width : Int) (precision : Nat) :
    Mem × Int :=
  let out := T.qfp_float2str f (ftoaControlWord precision)
  (storeList m p out, p + out.length)

/-! ## chvprintf (lines 174-338) -/

/-- One variadic argument: an `int`, `long` or `unsigned` value (one 32-bit word,
given as the integer the caller passed), a `char *` (`none` is the null pointer;
the bytes are those found at the pointer, a NUL follows them), or the bit
pattern of the `float` that case `f` ends up with. -/
inductive Arg where
  | int (v : Int)
  | str (s : Option (List Nat))
  | flt (bits : Nat)

/-- The value of the `char` that `c = va_arg(ap, int)` leaves in `c`. -/
def toChar (signedChar : Bool) (v : Int) : Int :=
  if signedChar = true ∧ v % 256 ≥ 128 then v % 256 - 256 else v % 256

/-- The width loop (lines 210-219), also the precision loop (lines 222-232, where
`precision *= 10; precision += c;` wraps to the same value).  The format is
the list of bytes from the read pointer on; reading past its end gives `none`.
The result is the byte that ended the loop, the format after it, the arguments
left and the number read. -/
def parseNum (signedChar : Bool) : List Nat → List Arg → Int →
    Option (Nat × List Nat × List Arg × Int)
  | [], _, _ => none
  | c :: fmt, ap, width =>
    if 48 ≤ c ∧ c ≤ 57 then
      parseNum signedChar fmt ap (toS32 (width * 10 + ((c : Int) - 48)))
    else if c = 42 then
      match ap with
      | Arg.int v :: ap1 => parseNum signedChar fmt ap1 (toS32 (width * 10 + toChar signedChar v))
      | _ => none
    else some (c, fmt, ap, width)

/-- The loop `for (p = s; *p && (--precision >= 0); p++) ;` (lines 255-256) over the
bytes at `s`: the number of bytes it steps over. -/
def scanStr : List Nat → Int → Nat
  | [], _ => 0
  | b :: bs, precision =>
    if b ≠ 0 ∧ toS32 (precision - 1) ≥ 0 then scanStr bs (toS32 (precision - 1)) + 1 else 0

/-- The literal `"(null)"` of line 252. -/
def nullStr : List Nat := [40, 110, 117, 108, 108, 41]

/-- Lines 251-252, `if ((s = va_arg(ap, char *)) == 0) s = "(null)";`: the bytes at `s`
afterwards. -/
def strBytes (a : Option (List Nat)) : List Nat :=
  match a with
  | none => nullStr
  | some b => b

/-- The comparison `f < 0` (line 282) on the bit pattern of a `float`: the sign bit is
set and the value is neither a zero nor a NaN. -/
def floatIsNeg (bits : Nat) : Bool :=
  decide (bits % 4294967296 ≥ 2147483648 ∧ bits % 4294967296 ≠ 2147483648 ∧
    ¬ ((bits % 4294967296 / 8388608) % 256 = 255 ∧ bits % 8388608 ≠ 0))

/-- The negation `f = -f` (line 284): flips the sign bit. -/
def floatNeg (bits : Nat) : Nat :=
  if bits % 4294967296 ≥ 2147483648 then bits % 4294967296 - 2147483648
  else bits % 4294967296 + 2147483648

/-- The state after the `switch` (lines 244-310): the memory `s` and `p` point
into, the two pointers, the filler, the arguments left and `tmpbuf`. -/
structure Token where
  src : Mem
  s : Int
  p : Int
  filler : Nat
  ap : List Arg
  tmpbuf : Mem

/-- The integer cases after the argument fetch (lines 266-270): sign, negation,
`ch_ltoa` in base 10.  `l` is the value of the `long`.  The negation is exact
except for the most negative `long`, where it overflows and the platform's
`negLongMin` stands for what it leaves. -/
def signedCase (T : Platform) (l : Int) (filler : Nat) (ap : List Arg) (tmpbuf : Mem) :
    Option Token :=
  let r : Mem × Int × Int :=
    if l < 0 then
      (store tmpbuf 0 45, 1, if l = -2147483648 then (T.negLongMin : Int) else -l)
    else (tmpbuf, 0, l)
  match ch_ltoa r.1 r.2.1 (toU32 r.2.2) 10 with
  | none => none
  | some (m, p) => some ⟨m, 0, p, filler, ap, m⟩

/-- The label `unsigned_common` (lines 300-306), after the argument fetch. -/
def unsignedCase (l : Int) (radix : Nat) (filler : Nat) (ap : List Arg) (tmpbuf : Mem) :
    Option Token :=
  match ch_ltoa tmpbuf 0 (toU32 l) radix with
  | none => none
  | some (m, p) => some ⟨m, 0, p, filler, ap, m⟩

/-- The `switch (c)` (lines 244-310).  `tmpbuf` is at offsets `0 ..`; `p` and `s`
start at offset 0 of it (lines 197-198).  An argument of another kind than the
conversion fetches, or no argument, gives `none`. -/
def conversion (T : Platform) (c : Nat) (is_long : Bool) (filler : Nat) (width precision : Int)
    (ap : List Arg) (tmpbuf : Mem) : Option Token :=
  if c = 99 then
    -- case 'c'
    match ap with
    | Arg.int v :: ap1 =>
      let m := store tmpbuf 0 (toU32 v % 256)
      some ⟨m, 0, 1, 32, ap1, m⟩
    | _ => none
  else if c = 115 then
    -- case 's'
    match ap with
    | Arg.str a :: ap1 =>
      let bytes := strBytes a
      let precision := if precision = 0 then 32767 else precision
      some ⟨strMem bytes, 0, (scanStr bytes precision : Nat), 32, ap1, tmpbuf⟩
    | _ => none
  else if c = 68 ∨ c = 100 ∨ c = 73 ∨ c = 105 then
    -- case 'D', 'd', 'I', 'i'
    match ap with
    | Arg.int v :: ap1 =>
      let l := if is_long then toS32 v else toS32 v
      signedCase T l filler ap1 tmpbuf
    | _ => none
  else if c = 102 then
    -- case 'f'
    match ap with
    | Arg.flt bits :: ap1 =>
      let r : Mem × Int × Nat :=
        if floatIsNeg bits then (store tmpbuf 0 45, 1, floatNeg bits) else (tmpbuf, 0, bits)
      let o := ftoa T r.1 r.2.1 r.2.2 width (toU32 precision)
      some ⟨o.1, 0, o.2, filler, ap1, o.1⟩
    | _ => none
  else if c = 88 ∨ c = 120 ∨ c = 85 ∨ c = 117 ∨ c = 79 ∨ c = 111 then
    -- case 'X', 'x' (c = 16), 'U', 'u' (c = 10), 'O', 'o' (c = 8)
    let radix := if c = 88 ∨ c = 120 then 16 else if c = 85 ∨ c = 117 then 10 else 8
    match ap with
    | Arg.int v :: ap1 =>
      let l := if is_long then toS32 v else toS32 v
      unsignedCase l radix filler ap1 tmpbuf
    | _ => none
  else
    -- default
    let m := store tmpbuf 0 c
    some ⟨m, 0, 1, filler, ap, m⟩

/-- Lines 311-336: the bytes handed to `streamPut`, in order. -/
def padAndEmit (src : Mem) (s p : Int) (filler : Nat) (width : Int) (left_align : Bool) :
    List Nat :=
  let i := toS32 (p - s)
  let width := toS32 (width - i)
  let width := if width < 0 then 0 else width
  let width := if left_align = false then toS32 (-width) else width
  if width < 0 then
    if src s = 45 ∧ filler = 48 then
      [src s] ++ List.replicate (-width).toNat filler ++ readBytes src (s + 1) (i - 1).toNat
    else
      List.replicate (-width).toNat filler ++ readBytes src s i.toNat
  else
    readBytes src s i.toNat ++ List.replicate width.toNat filler

/-- The long modifier (lines 235-241): the conversion byte, `is_long` and the format
after it. -/
def longModifier (c : Nat) (fmt : List Nat) : Option (Nat × Bool × List Nat) :=
  if c = 108 ∨ c = 76 then
    match fmt with
    | [] => none
    | d :: fmt1 => if d ≠ 0 then some (d, true, fmt1) else some (c, true, fmt)
  else some (c, decide (65 ≤ c ∧ c ≤ 90), fmt)

/-- A directive after its flags (lines 209-336): width, precision, long modifier,
conversion, padding and emission. -/
def afterFlags (T : Platform) (left_align : Bool) (filler : Nat) (fmt : List Nat)
    (ap : List Arg) (tmpbuf : Mem) : Option (List Nat × List Nat × List Arg × Mem) :=
  match parseNum T.signedChar fmt ap 0 with
  | none => none
  | some (c, fmt4, ap1, width) =>
    match (if c = 46 then parseNum T.signedChar fmt4 ap1 0 else some (c, fmt4, ap1, 0)) with
    | none => none
    | some (c, fmt5, ap2, precision) =>
      match longModifier c fmt5 with
      | none => none
      | some (c, is_long, fmt6) =>
        match conversion T c is_long filler width precision ap2 tmpbuf with
        | none => none
        | some t =>
          some (padAndEmit t.src t.s t.p t.filler width left_align, fmt6, t.ap, t.tmpbuf)

/-- One directive, from the byte after `%` (lines 197-336): the bytes handed to
`streamPut`, the format after the directive, the arguments left and `tmpbuf`.
The flags `-` and `0` (lines 199-208) are looked at without being consumed
when absent. -/
def directive (T : Platform) (fmt : List Nat) (ap : List Arg) (tmpbuf : Mem) :
    Option (List Nat × List Nat × List Arg × Mem) :=
  match fmt with
  | [] => none
  | c0 :: fmt0 =>
    let left_align := decide (c0 = 45)
    let fmt1 := if c0 = 45 then fmt0 else fmt
    match fmt1 with
    | [] => none
    | c1 :: fmt2 =>
      let filler := if c1 = 48 then 48 else 32
      let fmt3 := if c1 = 48 then fmt2 else fmt1
      afterFlags T left_align filler fmt3 ap tmpbuf

/-- A run of `streamPut(chp, b); n++;` over the bytes `bs`.  The sink is a state
and a `put` that answers with a status; the status is dropped, as in the code. -/
def emit {σ : Type} (put : σ → Nat → σ × Int) (chp : σ) (n : Int) : List Nat → σ × Int
  | [] => (chp, n)
  | b :: bs => emit put (put chp b).1 (toS32 (n + 1)) bs

/-- The main loop of `chvprintf` (lines 188-337).  The first argument bounds the
number of iterations. -/
def chvprintfLoop {σ : Type} (T : Platform) (put : σ → Nat → σ × Int) :
    Nat → σ → List Nat → List Arg → Mem → Int → Option (σ × Int)
  | 0, _, _, _, _, _ => none
  | fuel + 1, chp, fmt, ap, tmpbuf, n =>
    match fmt with
    | [] => none
    | c :: fmt1 =>
      if c = 0 then some (chp, n)
      else if c ≠ 37 then
        chvprintfLoop T put fuel (put chp c).1 fmt1 ap tmpbuf (toS32 (n + 1))
      else
        match directive T fmt1 ap tmpbuf with
        | none => none
        | some (out, fmt2, ap1, tmpbuf1) =>
          let r := emit put chp n out
          chvprintfLoop T put fuel r.1 fmt2 ap1 tmpbuf1 r.2

/-- The function `chvprintf` (lines 174-338): the sink after the call and the returned
count.  `fmt` is the memory from the format pointer on, `tmpbuf` the initial
content of the local buffer.  Every iteration reads at least one byte of the
format, so `fmt.length + 1` iterations are never used up. -/
def chvprintf {σ : Type} (T : Platform) (put : σ → Nat → σ × Int) (chp : σ)
    (fmt : List Nat) (ap : List Arg) (tmpbuf : Mem) : Option (σ × Int) :=
  chvprintfLoop T put (fmt.length + 1) chp fmt ap tmpbuf 0

/-- A sink that accepts every byte and keeps them in order. -/
def listPut (chp : List Nat) (b : Nat) : List Nat × Int := (chp ++ [b], 0)

/-! ## chsnprintf (lines 402-430) -/

/-- Modelled from the spec: the `MemoryStream` object of `memstreams.h` (the memory
sink state of section 3 and 4.4): the buffer, its capacity and the write
cursor.  The buffer field holds the content of the memory at `str`. -/
structure MemoryStream where
  buffer : Mem
  size : Nat
  eos : Nat

/-- Modelled from the spec: `msObjectInit` of `memstreams.c` (section 4.4,
`init(buffer, capacity)`), with the initial cursor the caller passes. -/
def msObjectInit (buffer : Mem) (size eos : Nat) : MemoryStream := ⟨buffer, size, eos⟩

/-- Modelled from the spec: the `put` of the memory stream of `memstreams.c`
(section 4.4): a byte is stored at the cursor only while the cursor is below
the capacity; after that a put changes nothing and reports a failure. -/
def msPut (ms : MemoryStream) (b : Nat) : MemoryStream × Int :=
  if ms.eos < ms.size then
    (⟨store ms.buffer ms.eos b, ms.size, ms.eos + 1⟩, 0)
  else (ms, -2)

/-- The function `chsnprintf` (lines 402-430): the memory at `str` after the call and
the returned value. -/
def chsnprintf (T : Platform) (str : Mem) (size : Nat) (fmt : List Nat) (ap : List Arg)
    (tmpbuf : Mem) : Option (Mem × Int) :=
  let size_wo_nul := if size > 0 then size - 1 else 0
  let ms := msObjectInit str size_wo_nul 0
  match chvprintf T msPut ms fmt ap tmpbuf with
  | none => none
  | some (ms1, retval) =>
    let str1 := if ms1.eos < size then store ms1.buffer ms1.eos 0 else ms1.buffer
    some (str1, retval)

/-! ## Reference definitions for the statements -/

/-- The character of a digit value: `0`-`9`, then the uppercase letters. -/
def digitChar (d : Nat) : Nat := if d < 10 then 48 + d else 65 + (d - 10)

/-- The value of a digit character (inverse of `digitChar`). -/
def digitVal (c : Nat) : Nat := if c ≤ 57 then c - 48 else c - 55

/-- The minimal digit string of `v` in base `radix`, most significant digit first,
`"0"` for zero (section 4.2 of the specification). -/
def to_radix_digits (v radix : Nat) : List Nat :=
  if v = 0 then [48] else (Nat.digits radix v).reverse.map digitChar

/-- Reading a digit string, most significant digit first, as a number in base
`radix`. -/
def parse_back (ds : List Nat) (radix : Nat) : Nat :=
  ds.foldl (fun acc c => acc * radix + digitVal c) 0

/-- The bit pattern of the magnitude of a `long` value `v`: `v` itself, or `-v`
reduced to 32 bits when `v` is negative (`0x80000000` for the most negative
value). -/
def magnitudeBits (v : Int) : Nat := toU32 (if v < 0 then toS32 (-v) else v)

/-- The unpadded token of a signed decimal conversion: `-` when `v` is negative, then
the minimal decimal digits of `|v|`. -/
def signedDecimal (v : Int) : List Nat :=
  (if v < 0 then [45] else []) ++ to_radix_digits v.natAbs 10

/-- The unpadded token that the signed integer cases build for `v`: `-` when `v` is
negative, then the minimal decimal digits of the magnitude handed to `ch_ltoa`,
which is `|v|` except for the most negative value, where it is the bit pattern
the platform's negation leaves. -/
def signedToken (T : Platform) (v : Int) : List Nat :=
  (if v < 0 then [45] else []) ++
    to_radix_digits (if v = -2147483648 then T.negLongMin % 4294967296 else v.natAbs) 10

/-- A width or precision written inline in a format: its decimal digits. -/
def decimal (w : Nat) : List Nat := to_radix_digits w 10

/-- The length of the C string found in `bytes` (followed by a NUL): the number of
bytes before the first NUL. -/
def strlen (bytes : List Nat) : Nat := (bytes.takeWhile (fun b => decide (b ≠ 0))).length

/-- The sink state after the bytes `bs` were put one after the other. -/
def feed {σ : Type} (put : σ → Nat → σ × Int) (chp : σ) (bs : List Nat) : σ :=
  bs.foldl (fun st b => (put st b).1) chp

/-- The full output of a call: what an unbounded sink collects, and the count. -/
def chvprintfOut (T : Platform) (fmt : List Nat) (ap : List Arg) (tmpbuf : Mem) :
    Option (List Nat × Int) :=
  chvprintf T listPut [] fmt ap tmpbuf

/-- The padded token of section 4.1, step 6 of the specification: padding on the right
when left-aligned, otherwise on the left, between the sign and the digits when
the filler is `0` and the token starts with `-`. -/
def padded (tok : List Nat) (w : Nat) (filler : Nat) (la : Bool) : List Nat :=
  if la = true then tok ++ List.replicate (w - tok.length) filler
  else if w ≤ tok.length then tok
  else if tok.head? = some 45 ∧ filler = 48 then
    45 :: (List.replicate (w - tok.length) 48 ++ tok.tail)
  else List.replicate (w - tok.length) filler ++ tok

/-- The unpadded token of an `s` conversion with precision `P` as specified: the string
cut at `P` bytes, at 32767 bytes when `P` is 0. -/
def strToken (a : Option (List Nat)) (P : Nat) : List Nat :=
  (strBytes a).take (min (if P = 0 then 32767 else P) (strlen (strBytes a)))

theorem store_same (m : Mem) (a : Int) (v : Nat) : store m a v a = v := by
  simp [store]

theorem store_other (m : Mem) (a b : Int) (v : Nat) (h : b ≠ a) : store m a v b = m b := by
  simp [store, h]

theorem readBytes_length (m : Mem) (s : Int) (n : Nat) : (readBytes m s n).length = n := by
  induction n generalizing s with
  | zero => rfl
  | succ n ih => simp [readBytes, ih]

theorem readBytes_congr (m1 m2 : Mem) (s : Int) (n : Nat)
    (h : ∀ a, s ≤ a → a < s + n → m1 a = m2 a) : readBytes m1 s n = readBytes m2 s n := by
  induction n generalizing s with
  | zero => rfl
  | succ n ih =>
    simp only [readBytes]
    rw [h s (le_refl _) (by push_cast; omega), ih (s + 1) (fun a h1 h2 => h a (by omega) (by push_cast; omega))]

theorem readBytes_snoc (m : Mem) (s : Int) (n : Nat) :
    readBytes m s (n + 1) = readBytes m s n ++ [m (s + n)] := by
  induction n generalizing s with
  | zero => simp [readBytes]
  | succ n ih =>
    rw [readBytes, ih (s + 1)]
    have e : s + 1 + (n : Int) = s + ((n + 1 : Nat) : Int) := by push_cast; omega
    rw [e]
    simp only [readBytes, List.cons_append]

theorem readBytes_strMem (bytes : List Nat) (k : Nat) (h : k ≤ bytes.length) :
    readBytes (strMem bytes) 0 k = bytes.take k := by
  induction k with
  | zero => simp [readBytes]
  | succ k ih =>
    have hk : k < bytes.length := h
    rw [readBytes_snoc, ih (Nat.le_of_lt hk)]
    have hneg : ¬ ((k : Int) < 0) := by omega
    simp only [strMem, zero_add, hneg, if_false, Int.toNat_ofNat]
    rw [List.take_succ]
    simp [List.getD, List.getElem?_eq_getElem hk]

/-! ## The digit loops of long_to_string_with_divisor -/

theorem to_radix_digits_small (v radix : Nat) (h : v / radix = 0) (hr : 2 ≤ radix) :
    to_radix_digits v radix = [digitChar (v % radix)] := by
  have hlt : v < radix := by
    rcases Nat.div_eq_zero_iff (by omega : 0 < radix) |>.mp h with h1
    exact h1
  unfold to_radix_digits
  by_cases hv : v = 0
  · subst hv; simp [digitChar]
  · simp [hv, Nat.digits_of_lt radix v hv hlt, Nat.mod_eq_of_lt hlt]

theorem to_radix_digits_step (v radix : Nat) (h : v / radix ≠ 0) (hr : 2 ≤ radix) :
    to_radix_digits v radix = to_radix_digits (v / radix) radix ++ [digitChar (v % radix)] := by
  have hv : v ≠ 0 := by
    intro h0; subst h0; simp at h
  unfold to_radix_digits
  simp only [hv, h, if_false]
  rw [Nat.digits_def' (by omega) (Nat.pos_of_ne_zero hv)]
  simp

theorem ltoa_char (d : Nat) (h : d < 16) :
    (if d + 48 > 57 then d + 48 + (65 - 48 - 10) else d + 48) % 256 = digitChar d := by
  unfold digitChar
  split <;> split <;> omega

theorem ltoaDigits_last (radix fuel : Nat) (m : Mem) (q : Int) (l : Nat)
    (hr16 : radix ≤ 16) (hr : 2 ≤ radix) (h : l / radix = 0) :
    ltoaDigits radix (fuel + 1) m q l l
      = some (store m (q - 1) (digitChar (l % radix)), q - 1) := by
  have hd : l % radix < 16 := by
    have := Nat.mod_lt l (by omega : radix > 0)
    omega
  have hc := ltoa_char _ hd
  simp only [ltoaDigits, h, ne_eq, not_true_eq_false, if_false]
  rw [hc]

theorem ltoaDigits_more (radix fuel : Nat) (m : Mem) (q : Int) (l : Nat)
    (hr16 : radix ≤ 16) (hr : 2 ≤ radix) (h : l / radix ≠ 0) :
    ltoaDigits radix (fuel + 1) m q l l
      = ltoaDigits radix fuel (store m (q - 1) (digitChar (l % radix))) (q - 1)
          (l / radix) (l / radix) := by
  have hd : l % radix < 16 := by
    have := Nat.mod_lt l (by omega : radix > 0)
    omega
  have hc := ltoa_char _ hd
  simp only [ltoaDigits, h, ne_eq, not_false_eq_true, if_true]
  rw [hc]

/-- The first loop writes the minimal digit string downwards from `q` and changes
nothing else. -/
theorem ltoaDigits_spec (radix : Nat) (hr : 2 ≤ radix) (hr16 : radix ≤ 16) :
    ∀ (fuel : Nat) (m : Mem) (q : Int) (l : Nat), l < radix ^ (fuel + 1) →
      ∃ m1, ltoaDigits radix (fuel + 1) m q l l
          = some (m1, q - (to_radix_digits l radix).length) ∧
        readBytes m1 (q - (to_radix_digits l radix).length) (to_radix_digits l radix).length
          = to_radix_digits l radix ∧
        ∀ a, (a < q - (to_radix_digits l radix).length ∨ q ≤ a) → m1 a = m a := by
  intro fuel
  induction fuel with
  | zero =>
    intro m q l hl
    have hl1 : l < radix := by simpa using hl
    have hdiv : l / radix = 0 := Nat.div_eq_of_lt hl1
    rw [ltoaDigits_last radix 0 m q l hr16 hr hdiv, to_radix_digits_small l radix hdiv hr]
    refine ⟨_, rfl, ?_, ?_⟩
    · simp [readBytes, store_same]
    · intro a ha
      apply store_other
      simp only [List.length_singleton, Nat.cast_one] at ha
      omega
  | succ fuel ih =>
    intro m q l hl
    by_cases hdiv : l / radix = 0
    · rw [ltoaDigits_last radix (fuel + 1) m q l hr16 hr hdiv,
        to_radix_digits_small l radix hdiv hr]
      refine ⟨_, rfl, ?_, ?_⟩
      · simp [readBytes, store_same]
      · intro a ha
        apply store_other
        simp only [List.length_singleton, Nat.cast_one] at ha
        omega
    · have hlt : l / radix < radix ^ (fuel + 1) := by
        apply Nat.div_lt_of_lt_mul
        rw [← pow_succ']
        exact hl
      obtain ⟨m1, h1, h2, h3⟩ :=
        ih (store m (q - 1) (digitChar (l % radix))) (q - 1) (l / radix) hlt
      rw [ltoaDigits_more radix (fuel + 1) m q l hr16 hr hdiv,
        to_radix_digits_step l radix hdiv hr]
      have hlen : ((to_radix_digits (l / radix) radix ++ [digitChar (l % radix)]).length : Int)
          = (to_radix_digits (l / radix) radix).length + 1 := by
        simp
      have hq : q - ((to_radix_digits (l / radix) radix ++ [digitChar (l % radix)]).length : Int)
          = q - 1 - (to_radix_digits (l / radix) radix).length := by
        rw [hlen]; omega
      rw [hq]
      refine ⟨m1, h1, ?_, ?_⟩
      · rw [List.length_append, List.length_singleton, readBytes_snoc, h2]
        congr 2
        have e : q - 1 - ((to_radix_digits (l / radix) radix).length : Int)
            + ((to_radix_digits (l / radix) radix).length : Int) = q - 1 := by omega
        rw [e, h3 (q - 1) (Or.inr (le_refl _)), store_same]
      · intro a ha
        rw [h3 a (by omega)]
        apply store_other
        omega

/-- The second loop moves `k` bytes from `q` down to `p <= q`. -/
theorem ltoaCopy_spec : ∀ (k : Nat) (m : Mem) (p q : Int), p ≤ q →
    (ltoaCopy k m p q).2 = p + k ∧
    readBytes (ltoaCopy k m p q).1 p k = readBytes m q k ∧
    ∀ a, (a < p ∨ p + k ≤ a) → (ltoaCopy k m p q).1 a = m a := by
  intro k
  induction k with
  | zero =>
    intro m p q _
    simp [ltoaCopy, readBytes]
  | succ k ih =>
    intro m p q hpq
    obtain ⟨h1, h2, h3⟩ := ih (store m p (m q)) (p + 1) (q + 1) (by omega)
    simp only [ltoaCopy]
    refine ⟨?_, ?_, ?_⟩
    · rw [h1]; push_cast; omega
    · simp only [readBytes]
      rw [h3 p (Or.inl (by omega)), store_same, h2]
      congr 1
      apply readBytes_congr
      intro a ha _
      apply store_other
      omega
    · intro a ha
      rw [h3 a (by push_cast at ha; omega)]
      apply store_other
      push_cast at ha
      omega

theorem to_radix_digits_length_pos (v radix : Nat) (hr : 2 ≤ radix) :
    1 ≤ (to_radix_digits v radix).length := by
  unfold to_radix_digits
  by_cases hv : v = 0
  · simp [hv]
  · simp only [hv, if_false, List.length_map, List.length_reverse]
    rw [Nat.digits_len radix v (by omega) hv]
    omega

theorem to_radix_digits_length_le (v radix k : Nat) (hr : 2 ≤ radix) (hk : 1 ≤ k)
    (h : v < radix ^ k) : (to_radix_digits v radix).length ≤ k := by
  unfold to_radix_digits
  by_cases hv : v = 0
  · simp [hv]; exact hk
  · simp only [hv, if_false, List.length_map, List.length_reverse]
    rw [Nat.digits_len radix v (by omega) hv]
    exact Nat.log_lt_of_lt_pow hv h

/-- The function `ch_ltoa` in a base from 8 to 16 on a 32-bit pattern: it returns, the
bytes from `p` to the returned pointer are the minimal digit string, at most
`MAX_FILLER` of them, and no byte outside `p .. p + MAX_FILLER - 1` changes. -/
theorem ch_ltoa_spec (m : Mem) (p : Int) (num radix : Nat) (h8 : 8 ≤ radix)
    (h16 : radix ≤ 16) (hnum : num < 4294967296) :
    ∃ m1, ch_ltoa m p num radix = some (m1, p + (to_radix_digits num radix).length) ∧
      readBytes m1 p (to_radix_digits num radix).length = to_radix_digits num radix ∧
      (to_radix_digits num radix).length ≤ 11 ∧
      ∀ a, (a < p ∨ p + 11 ≤ a) → m1 a = m a := by
  have hlen : (to_radix_digits num radix).length ≤ 11 := by
    apply to_radix_digits_length_le num radix 11 (by omega) (by omega)
    calc num < 8 ^ 11 := by omega
      _ ≤ radix ^ 11 := Nat.pow_le_pow_left h8 11
  have hfuel : num < radix ^ (31 + 1) := by
    calc num < 8 ^ 32 := by omega
      _ ≤ radix ^ 32 := Nat.pow_le_pow_left h8 32
  obtain ⟨m1, h1, h2, h3⟩ := ltoaDigits_spec radix (by omega) h16 31 m (p + MAX_FILLER) num hfuel
  have hq : p ≤ p + MAX_FILLER - ((to_radix_digits num radix).length : Int) := by
    simp only [MAX_FILLER]; omega
  obtain ⟨c1, c2, c3⟩ := ltoaCopy_spec (to_radix_digits num radix).length m1 p
    (p + MAX_FILLER - ((to_radix_digits num radix).length : Int)) hq
  have hk : (p + MAX_FILLER - (p + MAX_FILLER - ((to_radix_digits num radix).length : Int))).toNat
      = (to_radix_digits num radix).length := by
    have e : p + MAX_FILLER - (p + MAX_FILLER - ((to_radix_digits num radix).length : Int))
        = ((to_radix_digits num radix).length : Int) := by omega
    rw [e, Int.toNat_ofNat]
  have hr0 : radix ≠ 0 := by omega
  refine ⟨(ltoaCopy (to_radix_digits num radix).length m1 p
    (p + MAX_FILLER - ((to_radix_digits num radix).length : Int))).1, ?_, ?_, hlen, ?_⟩
  · simp only [ch_ltoa, long_to_string_with_divisor, Nat.zero_mod, if_true,
      Nat.mod_eq_of_lt hnum, hr0, if_false]
    have h1' : ltoaDigits radix 32 m (p + MAX_FILLER) num num
        = some (m1, p + MAX_FILLER - ((to_radix_digits num radix).length : Int)) := h1
    rw [h1']
    simp only [hk]
    rw [← c1]
  · rw [c2, h2]
  · intro a ha
    rw [c3 a (by omega)]
    apply h3
    simp only [MAX_FILLER]
    omega

/-! ## Properties of the minimal digit string -/

theorem digitVal_digitChar (d : Nat) (h : d < 16) : digitVal (digitChar d) = d := by
  unfold digitVal digitChar
  split <;> split <;> omega

theorem digitChar_range (d : Nat) (h : d < 16) :
    (48 ≤ digitChar d ∧ digitChar d ≤ 57) ∨ (65 ≤ digitChar d ∧ digitChar d ≤ 70) := by
  unfold digitChar
  split <;> omega

theorem digitChar_ne_zero_char (d : Nat) (h : d ≠ 0) : digitChar d ≠ 48 := by
  unfold digitChar
  split <;> omega

theorem parse_back_digits (radix : Nat) (ds : List Nat) (h : ∀ d ∈ ds, d < 16) :
    parse_back (ds.reverse.map digitChar) radix = Nat.ofDigits radix ds := by
  induction ds with
  | nil => simp [parse_back]
  | cons d ds ih =>
    have hd : d < 16 := h d (by simp)
    have ih1 := ih (fun x hx => h x (by simp [hx]))
    unfold parse_back at ih1 ⊢
    simp only [List.reverse_cons, List.map_append, List.map_cons, List.map_nil,
      List.foldl_append, List.foldl_cons, List.foldl_nil, ih1, digitVal_digitChar d hd,
      Nat.ofDigits_cons]
    ring

theorem parse_back_to_radix_digits (v radix : Nat) (hr : 2 ≤ radix) (hr16 : radix ≤ 16) :
    parse_back (to_radix_digits v radix) radix = v := by
  unfold to_radix_digits
  by_cases hv : v = 0
  · simp [hv, parse_back, digitVal]
  · simp only [hv, if_false]
    rw [parse_back_digits, Nat.ofDigits_digits]
    intro d hd
    have := Nat.digits_lt_base (by omega : 1 < radix) hd
    omega

theorem to_radix_digits_chars (v radix : Nat) (hr : 2 ≤ radix) (hr16 : radix ≤ 16) :
    ∀ c ∈ to_radix_digits v radix, (48 ≤ c ∧ c ≤ 57) ∨ (65 ≤ c ∧ c ≤ 70) := by
  unfold to_radix_digits
  by_cases hv : v = 0
  · simp [hv]
  · simp only [hv, if_false, List.mem_map, List.mem_reverse]
    rintro c ⟨d, hd, rfl⟩
    have := Nat.digits_lt_base (by omega : 1 < radix) hd
    exact digitChar_range d (by omega)

theorem to_radix_digits_head (v radix : Nat) (hv : v ≠ 0) :
    (to_radix_digits v radix).head? ≠ some 48 := by
  unfold to_radix_digits
  simp only [hv, if_false, List.head?_map, List.head?_reverse]
  have hne : Nat.digits radix v ≠ [] := by
    simpa [Nat.digits_eq_nil_iff_eq_zero] using hv
  rw [List.getLast?_eq_getLast _ hne]
  simp only [Option.map_some', ne_eq, Option.some.injEq]
  exact digitChar_ne_zero_char _ (Nat.getLast_digit_ne_zero radix hv)

theorem digits_getD (b : Nat) (hb : 2 ≤ b) : ∀ (j n : Nat),
    (Nat.digits b n).getD j 0 = n / b ^ j % b := by
  intro j
  induction j with
  | zero =>
    intro n
    by_cases hn : n = 0
    · simp [hn]
    · rw [Nat.digits_def' (by omega) (Nat.pos_of_ne_zero hn)]
      simp
  | succ j ih =>
    intro n
    by_cases hn : n = 0
    · simp [hn]
    · rw [Nat.digits_def' (by omega) (Nat.pos_of_ne_zero hn)]
      have := ih (n / b)
      simp only [List.getD_eq_getElem?_getD, List.getElem?_cons_succ] at this ⊢
      rw [this, Nat.div_div_eq_div_mul, pow_succ']

/-- The digit at index `i` of the minimal digit string is the digit of weight
`radix ^ (length - 1 - i)`: the most significant digit comes first. -/
theorem to_radix_digits_getD (v radix i : Nat) (hr : 2 ≤ radix)
    (hi : i < (to_radix_digits v radix).length) :
    (to_radix_digits v radix).getD i 0
      = digitChar (v / radix ^ ((to_radix_digits v radix).length - 1 - i) % radix) := by
  by_cases hv : v = 0
  · subst hv
    have hl : to_radix_digits 0 radix = [48] := by simp [to_radix_digits]
    rw [hl] at hi ⊢
    have hi0 : i = 0 := by simpa using hi
    subst hi0
    simp [digitChar]
  · have hl : to_radix_digits v radix = (Nat.digits radix v).reverse.map digitChar := by
      simp [to_radix_digits, hv]
    rw [hl] at hi ⊢
    have hi1 : i < (Nat.digits radix v).length := by simpa using hi
    rw [List.getD_eq_getElem _ _ hi]
    simp only [List.getElem_map, List.getElem_reverse, List.length_map, List.length_reverse]
    congr 1
    rw [← digits_getD radix hr, List.getD_eq_getElem _ _ (by omega)]

theorem magnitudeBits_eq (v : Int) (hv : -2147483648 ≤ v ∧ v ≤ 2147483647) :
    magnitudeBits v = v.natAbs := by
  unfold magnitudeBits toU32 toS32
  split <;> omega

/-! ## C1, C2: ch_ltoa -/

/-- C1: for every value `v` of the 32-bit `long` type (the most negative one
included, whose magnitude is passed as the same bit pattern) and every radix in
{8, 10, 16}, `ch_ltoa` returns, and reading the digit string it wrote for
`|v|` back as a number in that radix gives exactly `|v|`. -/
theorem ch_ltoa_round_trip (m : Mem) (p : Int) (v : Int) (radix : Nat)
    (hv : -2147483648 ≤ v ∧ v ≤ 2147483647) (hr : radix = 8 ∨ radix = 10 ∨ radix = 16) :
    ∃ m1 p1, ch_ltoa m p (magnitudeBits v) radix = some (m1, p1) ∧
      parse_back (readBytes m1 p (p1 - p).toNat) radix = v.natAbs := by
  have h8 : 8 ≤ radix := by omega
  have h16 : radix ≤ 16 := by omega
  have hmag := magnitudeBits_eq v hv
  have hnum : magnitudeBits v < 4294967296 := by rw [hmag]; omega
  obtain ⟨m1, h1, h2, _, _⟩ := ch_ltoa_spec m p (magnitudeBits v) radix h8 h16 hnum
  refine ⟨m1, _, h1, ?_⟩
  have e : (p + ((to_radix_digits (magnitudeBits v) radix).length : Int) - p).toNat
      = (to_radix_digits (magnitudeBits v) radix).length := by
    have e1 : p + ((to_radix_digits (magnitudeBits v) radix).length : Int) - p
        = ((to_radix_digits (magnitudeBits v) radix).length : Int) := by omega
    rw [e1, Int.toNat_ofNat]
  rw [e, h2, parse_back_to_radix_digits _ _ (by omega) h16, hmag]

/-- C1, at the most negative value in base 16. -/
theorem ch_ltoa_round_trip_witness :
    (-2147483648 ≤ (-2147483648 : Int) ∧ (-2147483648 : Int) ≤ 2147483647) ∧
    ((16 : Nat) = 8 ∨ (16 : Nat) = 10 ∨ (16 : Nat) = 16) ∧
    ∃ m1 p1, ch_ltoa (fun _ => 0) 0 (magnitudeBits (-2147483648)) 16 = some (m1, p1) ∧
      parse_back (readBytes m1 0 (p1 - 0).toNat) 16 = (-2147483648 : Int).natAbs :=
  ⟨by decide, by decide,
    ch_ltoa_round_trip (fun _ => 0) 0 (-2147483648) 16 (by decide) (by decide)⟩

/-- C2: for every 32-bit magnitude and every radix in {8, 10, 16}, `ch_ltoa` returns
the start pointer advanced by the number of digits; the digits are the
minimal digit string, the digit at index `i` being the one of weight
`radix ^ (length - 1 - i)` (most significant first); the string is `"0"` for 0,
does not start with `'0'` otherwise, and has only `'0'`-`'9'` and `'A'`-`'F'`. -/
theorem ch_ltoa_minimal_digits (m : Mem) (p : Int) (num radix : Nat)
    (hnum : num < 4294967296) (hr : radix = 8 ∨ radix = 10 ∨ radix = 16) :
    ∃ m1 p1 out, ch_ltoa m p num radix = some (m1, p1) ∧
      p1 = p + out.length ∧
      out = readBytes m1 p out.length ∧
      out = to_radix_digits num radix ∧
      (∀ i, i < out.length →
        out.getD i 0 = digitChar (num / radix ^ (out.length - 1 - i) % radix)) ∧
      (num = 0 → out = [48]) ∧
      (num ≠ 0 → out.head? ≠ some 48) ∧
      (∀ c ∈ out, (48 ≤ c ∧ c ≤ 57) ∨ (65 ≤ c ∧ c ≤ 70)) := by
  have h8 : 8 ≤ radix := by omega
  have h16 : radix ≤ 16 := by omega
  obtain ⟨m1, h1, h2, _, _⟩ := ch_ltoa_spec m p num radix h8 h16 hnum
  refine ⟨m1, _, to_radix_digits num radix, h1, rfl, h2.symm, rfl, ?_, ?_, ?_, ?_⟩
  · intro i hi
    exact to_radix_digits_getD num radix i (by omega) hi
  · intro h0
    simp [to_radix_digits, h0]
  · exact to_radix_digits_head num radix
  · exact to_radix_digits_chars num radix (by omega) h16

/-- C2, at 255 in base 16: the digits are `"FF"`. -/
theorem ch_ltoa_minimal_digits_witness :
    ((255 : Nat) < 4294967296) ∧ ((16 : Nat) = 8 ∨ (16 : Nat) = 10 ∨ (16 : Nat) = 16) ∧
    (∃ m1 p1 out, ch_ltoa (fun _ => 0) 0 255 16 = some (m1, p1) ∧
      p1 = 0 + out.length ∧
      out = readBytes m1 0 out.length ∧
      out = to_radix_digits 255 16 ∧
      (∀ i, i < out.length →
        out.getD i 0 = digitChar (255 / 16 ^ (out.length - 1 - i) % 16)) ∧
      ((255 : Nat) = 0 → out = [48]) ∧
      ((255 : Nat) ≠ 0 → out.head? ≠ some 48) ∧
      (∀ c ∈ out, (48 ≤ c ∧ c ≤ 57) ∨ (65 ≤ c ∧ c ≤ 70))) ∧
    (ch_ltoa (fun _ => 0) 0 255 16).map (fun r => (readBytes r.1 0 r.2.toNat, r.2))
      = some ([70, 70], 2) :=
  ⟨by decide, by decide,
    ch_ltoa_minimal_digits (fun _ => 0) 0 255 16 (by decide) (by decide), by decide⟩

/-! ## The sink only sees a byte sequence -/

theorem toS32_toS32_add (a b : Int) : toS32 (toS32 a + b) = toS32 (a + b) := by
  unfold toS32
  omega

theorem toS32_idem (a : Int) : toS32 (toS32 a) = toS32 a := by
  unfold toS32
  omega

theorem toS32_of_range (a : Int) (h1 : -2147483648 ≤ a) (h2 : a ≤ 2147483647) :
    toS32 a = a := by
  unfold toS32
  omega

theorem feed_append {σ : Type} (put : σ → Nat → σ × Int) (chp : σ) (xs ys : List Nat) :
    feed put chp (xs ++ ys) = feed put (feed put chp xs) ys := by
  simp [feed, List.foldl_append]

theorem feed_listPut (acc bs : List Nat) : feed listPut acc bs = acc ++ bs := by
  induction bs generalizing acc with
  | nil => simp [feed]
  | cons b bs ih =>
    have h : feed listPut acc (b :: bs) = feed listPut (acc ++ [b]) bs := by
      simp [feed, listPut]
    rw [h, ih]
    simp

theorem emit_fst {σ : Type} (put : σ → Nat → σ × Int) (chp : σ) (n : Int) (bs : List Nat) :
    (emit put chp n bs).1 = feed put chp bs := by
  induction bs generalizing chp n with
  | nil => simp [emit, feed]
  | cons b bs ih =>
    simp only [emit]
    rw [ih]
    simp [feed]

theorem emit_snd {σ : Type} (put : σ → Nat → σ × Int) (chp : σ) (n : Int) (bs : List Nat) :
    (emit put chp n bs).2 = if bs = [] then n else toS32 (n + bs.length) := by
  induction bs generalizing chp n with
  | nil => simp [emit]
  | cons b bs ih =>
    simp only [emit]
    rw [ih]
    by_cases hb : bs = []
    · subst hb; simp
    · simp only [hb, if_false, List.length_cons, reduceCtorEq]
      rw [toS32_toS32_add]
      congr 1
      push_cast
      omega

/-- The run on any sink is the run on the collecting sink, with the collected bytes
fed to the sink: the sink never influences what is emitted or counted. -/
theorem chvprintfLoop_sink (T : Platform) : ∀ (fuel : Nat) (σ : Type)
    (put : σ → Nat → σ × Int) (chp : σ) (fmt : List Nat) (ap : List Arg) (tmpbuf : Mem) (n : Int),
    chvprintfLoop T put fuel chp fmt ap tmpbuf n
      = (chvprintfLoop T listPut fuel [] fmt ap tmpbuf n).map
          (fun r => (feed put chp r.1, r.2)) := by
  intro fuel
  induction fuel with
  | zero =>
    intro σ put chp fmt ap tmpbuf n
    simp [chvprintfLoop]
  | succ fuel ih =>
    intro σ put chp fmt ap tmpbuf n
    cases fmt with
    | nil => simp [chvprintfLoop]
    | cons c fmt1 =>
      by_cases h0 : c = 0
      · simp [chvprintfLoop, h0, feed]
      · by_cases h37 : c = 37
        · subst h37
          simp only [chvprintfLoop, h0, if_false, ne_eq, not_true_eq_false]
          cases hd : directive T fmt1 ap tmpbuf with
          | none => simp
          | some r =>
            obtain ⟨out, fmt2, ap1, tmpbuf1⟩ := r
            simp only []
            rw [ih σ put, ih (List Nat) listPut (emit listPut [] n out).1]
            rw [emit_fst, emit_fst, emit_snd, emit_snd, feed_listPut]
            simp only [Option.map_map, List.nil_append]
            congr 1
            funext r
            simp [feed_listPut, feed_append]
        · simp only [chvprintfLoop, h0, if_false, ne_eq, h37, not_false_eq_true, if_true]
          rw [ih σ put, ih (List Nat) listPut (listPut [] c).1]
          simp only [Option.map_map]
          congr 1
          funext r
          simp only [Function.comp_apply, listPut, feed_listPut, List.nil_append]
          simp [feed]

theorem chvprintf_sink {σ : Type} (T : Platform) (put : σ → Nat → σ × Int) (chp : σ)
    (fmt : List Nat) (ap : List Arg) (tmpbuf : Mem) :
    chvprintf T put chp fmt ap tmpbuf
      = (chvprintfOut T fmt ap tmpbuf).map (fun r => (feed put chp r.1, r.2)) := by
  unfold chvprintf chvprintfOut chvprintf
  exact chvprintfLoop_sink T _ σ put chp fmt ap tmpbuf 0

/-- A format made of one directive: the call emits the bytes of the directive. -/
theorem chvprintfOut_single (T : Platform) (body rest : List Nat) (ap ap1 : List Arg)
    (tmpbuf tmpbuf1 : Mem) (out : List Nat)
    (h : directive T body ap tmpbuf = some (out, 0 :: rest, ap1, tmpbuf1)) :
    chvprintfOut T (37 :: body) ap tmpbuf
      = some (out, if out = [] then 0 else toS32 out.length) := by
  unfold chvprintfOut chvprintf
  simp only [List.length_cons, chvprintfLoop, h]
  simp [chvprintfLoop, emit_fst, emit_snd, feed_listPut]

/-! ## Width and precision parsing -/

theorem decimal_chars (w : Nat) : ∀ c ∈ decimal w, 48 ≤ c ∧ c ≤ 57 := by
  unfold decimal to_radix_digits
  by_cases hw : w = 0
  · simp [hw]
  · simp only [hw, if_false, List.mem_map, List.mem_reverse]
    rintro c ⟨d, hd, rfl⟩
    have := Nat.digits_lt_base (by omega : 1 < 10) hd
    unfold digitChar
    split <;> omega

theorem parseNum_step_digit (n0 x : Nat) (hx : 48 ≤ x ∧ x ≤ 57) :
    toS32 (toS32 (n0 : Int) * 10 + ((x : Int) - 48))
      = toS32 (((n0 * 10 + digitVal x : Nat)) : Int) := by
  have hv : digitVal x = x - 48 := by unfold digitVal; split <;> omega
  rw [hv]
  unfold toS32
  omega

theorem parseNum_digit_chars (sc : Bool) (c : Nat) (rest : List Nat) (ap : List Arg)
    (hc : ¬ (48 ≤ c ∧ c ≤ 57)) (hc2 : c ≠ 42) :
    ∀ (cs : List Nat) (n0 : Nat), (∀ x ∈ cs, 48 ≤ x ∧ x ≤ 57) →
      parseNum sc (cs ++ c :: rest) ap (toS32 (n0 : Int))
        = some (c, rest, ap,
            toS32 ((cs.foldl (fun (a x : Nat) => a * 10 + digitVal x) n0 : Nat) : Int)) := by
  intro cs
  induction cs with
  | nil =>
    intro n0 _
    rw [List.nil_append, List.foldl_nil]
    simp only [parseNum, hc, hc2, if_false]
  | cons x cs ih =>
    intro n0 hcs
    have hx : 48 ≤ x ∧ x ≤ 57 := hcs x (List.mem_cons_self x cs)
    rw [List.cons_append, List.foldl_cons]
    simp only [parseNum, hx, and_self, if_true]
    rw [parseNum_step_digit n0 x hx]
    exact ih _ (fun y hy => hcs y (List.mem_cons_of_mem x hy))

/-- A number written inline, followed by a byte that is neither a digit nor `*`,
is read as that number reduced to an `int`. -/
theorem parseNum_decimal (sc : Bool) (w c : Nat) (rest : List Nat) (ap : List Arg)
    (hc : ¬ (48 ≤ c ∧ c ≤ 57)) (hc2 : c ≠ 42) :
    parseNum sc (decimal w ++ c :: rest) ap 0 = some (c, rest, ap, toS32 w) := by
  have h0 : (0 : Int) = toS32 ((0 : Nat) : Int) := by unfold toS32; omega
  have hp : (decimal w).foldl (fun (a x : Nat) => a * 10 + digitVal x) 0 = w :=
    parse_back_to_radix_digits w 10 (by omega) (by omega)
  have h := parseNum_digit_chars sc c rest ap hc hc2 (decimal w) 0 (decimal_chars w)
  rw [hp, ← h0] at h
  exact h

/-! ## Padding and emission -/

theorem padAndEmit_eq (src : Mem) (t w : Nat) (filler : Nat) (la : Bool)
    (ht : t < 2147483648) (hw : w < 2147483648) :
    padAndEmit src 0 (t : Int) filler (w : Int) la =
      if la = true then readBytes src 0 t ++ List.replicate (w - t) filler
      else if w ≤ t then readBytes src 0 t
      else if src 0 = 45 ∧ filler = 48 then
        src 0 :: (List.replicate (w - t) filler ++ readBytes src 1 (t - 1))
      else List.replicate (w - t) filler ++ readBytes src 0 t := by
  have hi : toS32 ((t : Int) - 0) = (t : Int) := by unfold toS32; omega
  have hwd : toS32 ((w : Int) - (t : Int)) = (w : Int) - (t : Int) := by unfold toS32; omega
  unfold padAndEmit
  simp only [hi, hwd, Int.toNat_ofNat]
  cases la with
  | true =>
    simp only [Bool.true_eq_false, if_false, if_true]
    by_cases h : (w : Int) - (t : Int) < 0
    · have e : w - t = 0 := by omega
      simp [h, e]
    · have h2 : ¬ ((w : Int) - (t : Int) < 0) := h
      have e : ((w : Int) - (t : Int)).toNat = w - t := by omega
      simp [h, e]
  | false =>
    simp only [if_true, Bool.false_eq_true, if_false]
    by_cases h : w ≤ t
    · have h1 : (if (w : Int) - (t : Int) < 0 then (0 : Int) else (w : Int) - (t : Int)) = 0 := by
        split <;> omega
      have h2 : toS32 (-(0 : Int)) = 0 := by unfold toS32; omega
      simp only [h1, h2, lt_irrefl, if_false, if_true, h, Int.toNat_zero, List.replicate_zero,
        List.append_nil]
    · have h1 : (if (w : Int) - (t : Int) < 0 then (0 : Int) else (w : Int) - (t : Int))
          = (w : Int) - (t : Int) := by
        split <;> omega
      have h2 : toS32 (-((w : Int) - (t : Int))) = -((w : Int) - (t : Int)) := by
        unfold toS32; omega
      have h3 : -((w : Int) - (t : Int)) < 0 := by omega
      have e : (-(-((w : Int) - (t : Int)))).toNat = w - t := by omega
      have e2 : ((t : Int) - 1).toNat = t - 1 := by omega
      simp only [h, h1, h2, h3, e, e2, if_true, if_false]
      by_cases hs : src 0 = 45 ∧ filler = 48
      · simp [hs]
      · simp [hs]

/-! ## The signed decimal token -/

theorem signedDecimal_length (l : Int) (hl : -2147483648 ≤ l ∧ l ≤ 2147483647) :
    1 ≤ (signedDecimal l).length ∧ (signedDecimal l).length ≤ 11 := by
  have h1 := to_radix_digits_length_pos l.natAbs 10 (by omega)
  have h2 : (to_radix_digits l.natAbs 10).length ≤ 10 :=
    to_radix_digits_length_le l.natAbs 10 10 (by omega) (by omega) (by omega)
  unfold signedDecimal
  split
  · simp only [List.length_append, List.length_singleton]; omega
  · simp only [List.nil_append]; omega

theorem signedToken_eq (T : Platform) (v : Int) (hv : v ≠ -2147483648) :
    signedToken T v = signedDecimal v := by
  unfold signedToken signedDecimal
  rw [if_neg hv]

theorem signedToken_length (T : Platform) (l : Int)
    (hl : -2147483648 ≤ l ∧ l ≤ 2147483647) :
    1 ≤ (signedToken T l).length ∧ (signedToken T l).length ≤ 11 := by
  have hm : (if l = -2147483648 then T.negLongMin % 4294967296 else l.natAbs) < 4294967296 := by
    split <;> omega
  have h1 := to_radix_digits_length_pos
    (if l = -2147483648 then T.negLongMin % 4294967296 else l.natAbs) 10 (by omega)
  have h2 : (to_radix_digits
      (if l = -2147483648 then T.negLongMin % 4294967296 else l.natAbs) 10).length ≤ 10 :=
    to_radix_digits_length_le _ 10 10 (by omega) (by omega) (by omega)
  unfold signedToken
  split
  · simp only [List.length_append, List.length_singleton]; omega
  · simp only [List.nil_append]; omega

/-- After the signed integer cases, `s` is the start of `tmpbuf`, the token between `s`
and `p` is the signed decimal token of the value, and only `tmpbuf[0 .. 11]`
changed. -/
theorem signedCase_spec (T : Platform) (l : Int) (filler : Nat) (ap : List Arg) (tmpbuf : Mem)
    (hl : -2147483648 ≤ l ∧ l ≤ 2147483647) :
    ∃ t, signedCase T l filler ap tmpbuf = some t ∧ t.s = 0 ∧
      t.p = ((signedToken T l).length : Int) ∧
      readBytes t.src 0 (signedToken T l).length = signedToken T l ∧
      t.filler = filler ∧ t.ap = ap ∧ t.tmpbuf = t.src ∧
      (∀ a, (a < 0 ∨ 12 ≤ a) → t.src a = tmpbuf a) := by
  generalize hmg : (if l = -2147483648 then T.negLongMin % 4294967296 else l.natAbs) = mg
  have hmlt : mg < 4294967296 := by
    rw [← hmg]
    split <;> omega
  by_cases h : l < 0
  · have hbits : toU32 (if l = -2147483648 then (T.negLongMin : Int) else -l) = mg := by
      rw [← hmg]
      unfold toU32
      split <;> omega
    obtain ⟨m1, h1, h2, _, h4⟩ :=
      ch_ltoa_spec (store tmpbuf 0 45) 1 mg 10 (by omega) (by omega) hmlt
    have hsd : signedToken T l = 45 :: to_radix_digits mg 10 := by
      unfold signedToken
      rw [if_pos h, hmg]
      rfl
    refine ⟨⟨m1, 0, 1 + ((to_radix_digits mg 10).length : Int), filler, ap, m1⟩,
      ?_, rfl, ?_, ?_, rfl, rfl, rfl, ?_⟩
    · unfold signedCase
      simp only [h, if_true, hbits, h1]
    · show (1 : Int) + ((to_radix_digits mg 10).length : Int) = _
      rw [hsd, List.length_cons]
      push_cast
      omega
    · show readBytes m1 0 _ = _
      rw [hsd, List.length_cons, readBytes, zero_add, h2, h4 0 (Or.inl (by omega)), store_same]
    · intro a ha
      show m1 a = tmpbuf a
      rw [h4 a (by omega)]
      apply store_other
      omega
  · have hbits : toU32 l = mg := by
      rw [← hmg]
      unfold toU32
      split <;> omega
    obtain ⟨m1, h1, h2, _, h4⟩ :=
      ch_ltoa_spec tmpbuf 0 mg 10 (by omega) (by omega) hmlt
    have hsd : signedToken T l = to_radix_digits mg 10 := by
      unfold signedToken
      rw [if_neg h, hmg]
      rfl
    refine ⟨⟨m1, 0, 0 + ((to_radix_digits mg 10).length : Int), filler, ap, m1⟩,
      ?_, rfl, ?_, ?_, rfl, rfl, rfl, ?_⟩
    · unfold signedCase
      simp only [h, if_false, hbits, h1]
    · show (0 : Int) + ((to_radix_digits mg 10).length : Int) = _
      rw [hsd]
      omega
    · show readBytes m1 0 _ = _
      rw [hsd, h2]
    · intro a ha
      show m1 a = tmpbuf a
      exact h4 a (by omega)

theorem padAndEmit_padded (src : Mem) (tok : List Nat) (w filler : Nat) (la : Bool)
    (hsrc : readBytes src 0 tok.length = tok) (ht : tok.length < 2147483648)
    (hw : w < 2147483648) (h0 : tok = [] → filler ≠ 48) :
    padAndEmit src 0 (tok.length : Int) filler (w : Int) la = padded tok w filler la := by
  rw [padAndEmit_eq src tok.length w filler la ht hw, hsrc]
  unfold padded
  cases tok with
  | nil =>
    have hf := h0 rfl
    simp [hf]
  | cons b bs =>
    have hb : src 0 = b := by
      rw [List.length_cons, readBytes] at hsrc
      exact (List.cons.inj hsrc).1
    have hbs : readBytes src 1 bs.length = bs := by
      rw [List.length_cons, readBytes, zero_add] at hsrc
      exact (List.cons.inj hsrc).2
    simp only [List.length_cons, Nat.add_sub_cancel, hb, hbs, List.head?_cons, List.tail_cons,
      Option.some.injEq]
    by_cases h1 : b = 45 ∧ filler = 48
    · simp [h1]
    · simp [h1]

theorem parseNum_width (sc : Bool) (wd : List Nat) (w c : Nat) (rest : List Nat) (ap : List Arg)
    (hc : ¬ (48 ≤ c ∧ c ≤ 57)) (hc2 : c ≠ 42) (hw : w < 2147483648)
    (hwd : (wd = [] ∧ w = 0) ∨ wd = decimal w) :
    parseNum sc (wd ++ c :: rest) ap 0 = some (c, rest, ap, (w : Int)) := by
  rcases hwd with ⟨h1, h2⟩ | h
  · subst h1 h2
    simp [parseNum, hc, hc2]
  · subst h
    rw [parseNum_decimal sc w c rest ap hc hc2, toS32_of_range _ (by omega) (by omega)]

theorem conversion_signed (T : Platform) (cv : Nat) (hcv : cv = 100 ∨ cv = 105 ∨ cv = 68 ∨ cv = 73)
    (il : Bool) (filler : Nat) (width precision : Int) (v : Int) (ap : List Arg) (tmpbuf : Mem) :
    conversion T cv il filler width precision (Arg.int v :: ap) tmpbuf
      = signedCase T (toS32 v) filler ap tmpbuf := by
  unfold conversion
  rcases hcv with h | h | h | h <;> subst h <;> simp

/-- A signed decimal directive after its flags, with an optional inline width and an
optional `l`: the output is the padded signed decimal token. -/
theorem afterFlags_signed (T : Platform) (la : Bool) (filler : Nat) (wd : List Nat) (w : Nat)
    (lng : Bool) (cv : Nat) (rest : List Nat) (v : Int) (ap : List Arg) (tmpbuf : Mem)
    (hcv : cv = 100 ∨ cv = 105) (hw : w < 2147483648)
    (hwd : (wd = [] ∧ w = 0) ∨ wd = decimal w)
    (hv : -2147483648 ≤ v ∧ v ≤ 2147483647) :
    ∃ tb, afterFlags T la filler (wd ++ ((if lng = true then [108] else []) ++ cv :: 0 :: rest))
        (Arg.int v :: ap) tmpbuf
      = some (padded (signedToken T v) w filler la, 0 :: rest, ap, tb) := by
  obtain ⟨t, ht, hs, hp, hr, hfl, hap, htb, _⟩ := signedCase_spec T v filler ap tmpbuf hv
  have hlen := signedToken_length T v hv
  have hne : signedToken T v ≠ [] := by
    intro h0
    rw [h0] at hlen
    simp at hlen
  have hpad : padAndEmit t.src t.s t.p t.filler (w : Int) la
      = padded (signedToken T v) w filler la := by
    rw [hs, hp, hfl]
    exact padAndEmit_padded t.src (signedToken T v) w filler la hr (by omega) hw
      (fun h0 => absurd h0 hne)
  have hconv : ∀ il, conversion T cv il filler (w : Int) 0 (Arg.int v :: ap) tmpbuf = some t := by
    intro il
    rw [conversion_signed T cv (by omega) il, toS32_of_range v hv.1 hv.2, ht]
  refine ⟨t.tmpbuf, ?_⟩
  cases lng with
  | false =>
    have hc : ¬ (48 ≤ cv ∧ cv ≤ 57) := by omega
    have hp1 := parseNum_width T.signedChar wd w cv (0 :: rest) (Arg.int v :: ap) hc (by omega)
      hw hwd
    have h46 : cv ≠ 46 := by omega
    have hlm : longModifier cv (0 :: rest) = some (cv, false, 0 :: rest) := by
      unfold longModifier
      rcases hcv with h | h <;> subst h <;> simp
    simp only [Bool.false_eq_true, if_false, List.nil_append]
    unfold afterFlags
    simp only [hp1, h46, if_false, hlm, hconv, hpad, hap]
  | true =>
    have hp1 := parseNum_width T.signedChar wd w 108 (cv :: 0 :: rest) (Arg.int v :: ap)
      (by omega) (by omega) hw hwd
    have hlm : longModifier 108 (cv :: 0 :: rest) = some (cv, true, 0 :: rest) := by
      unfold longModifier
      rcases hcv with h | h <;> subst h <;> simp
    simp only [if_true, List.singleton_append]
    unfold afterFlags
    have h46 : (108 : Nat) ≠ 46 := by omega
    simp only [hp1, h46, if_false, hlm, hconv, hpad, hap]

/-! ## The flags -/

theorem directive_no_flags (T : Platform) (c0 : Nat) (fmt0 : List Nat) (ap : List Arg)
    (tmpbuf : Mem) (h45 : c0 ≠ 45) (h48 : c0 ≠ 48) :
    directive T (c0 :: fmt0) ap tmpbuf = afterFlags T false 32 (c0 :: fmt0) ap tmpbuf := by
  unfold directive
  simp [h45, h48]

theorem directive_zero (T : Platform) (fmt2 : List Nat) (ap : List Arg) (tmpbuf : Mem) :
    directive T (48 :: fmt2) ap tmpbuf = afterFlags T false 48 fmt2 ap tmpbuf := by
  unfold directive
  simp

theorem directive_minus (T : Platform) (c1 : Nat) (fmt2 : List Nat) (ap : List Arg)
    (tmpbuf : Mem) (h48 : c1 ≠ 48) :
    directive T (45 :: c1 :: fmt2) ap tmpbuf = afterFlags T true 32 (c1 :: fmt2) ap tmpbuf := by
  unfold directive
  simp [h48]

theorem directive_minus_zero (T : Platform) (fmt2 : List Nat) (ap : List Arg) (tmpbuf : Mem) :
    directive T (45 :: 48 :: fmt2) ap tmpbuf = afterFlags T true 48 fmt2 ap tmpbuf := by
  unfold directive
  simp

theorem decimal_cons (w : Nat) (hw : w ≠ 0) :
    ∃ c cs, decimal w = c :: cs ∧ c ≠ 48 ∧ c ≠ 45 := by
  have hh := to_radix_digits_head w 10 hw
  have hc := decimal_chars w
  unfold decimal at hc ⊢
  cases hd : to_radix_digits w 10 with
  | nil =>
    have := to_radix_digits_length_pos w 10 (by omega)
    rw [hd] at this
    simp at this
  | cons c cs =>
    refine ⟨c, cs, rfl, ?_, ?_⟩
    · intro h48
      rw [hd, h48] at hh
      simp at hh
    · have := hc c (by rw [hd]; simp)
      omega

theorem padded_length (tok : List Nat) (w filler : Nat) (la : Bool) :
    (padded tok w filler la).length = max w tok.length := by
  unfold padded
  split
  · rw [List.length_append, List.length_replicate]; omega
  · split
    · omega
    · split
      · rename_i h _ h2
        have hne : tok ≠ [] := by
          intro h0; rw [h0] at h2; simp at h2
        have ht : tok.tail.length = tok.length - 1 := List.length_tail tok
        have hpos : 0 < tok.length := List.length_pos.mpr hne
        rw [List.length_cons, List.length_append, List.length_replicate, ht]
        omega
      · rw [List.length_append, List.length_replicate]; omega

theorem chvprintfOut_signed_of (T : Platform) (body rest : List Nat) (v : Int) (ap : List Arg)
    (tmpbuf : Mem) (w filler : Nat) (la : Bool) (hw : w < 2147483648)
    (hv : -2147483648 ≤ v ∧ v ≤ 2147483647)
    (h : ∃ tb, directive T body (Arg.int v :: ap) tmpbuf
      = some (padded (signedToken T v) w filler la, 0 :: rest, ap, tb)) :
    chvprintfOut T (37 :: body) (Arg.int v :: ap) tmpbuf
      = some (padded (signedToken T v) w filler la,
          ((max w (signedToken T v).length : Nat) : Int)) := by
  obtain ⟨tb, h⟩ := h
  have hlen := signedToken_length T v hv
  have hpl := padded_length (signedToken T v) w filler la
  have hne : padded (signedToken T v) w filler la ≠ [] := by
    intro h0
    rw [h0] at hpl
    simp only [List.length_nil] at hpl
    omega
  rw [chvprintfOut_single T body rest _ ap tmpbuf tb _ h, if_neg hne, hpl,
    toS32_of_range _ (by omega) (by omega)]

/-! ## C3: signed decimal formatting -/

/-- The formats `"%d"`, `"%i"` (and both after `l`) emit the signed decimal token of
the platform and nothing else; the count is the number of bytes emitted. -/
theorem chvprintfOut_signed_token (T : Platform) (v : Int) (ap : List Arg) (rest : List Nat)
    (tmpbuf : Mem) (hv : -2147483648 ≤ v ∧ v ≤ 2147483647) (lng : Bool) (cv : Nat)
    (hcv : cv = 100 ∨ cv = 105) :
    chvprintfOut T (37 :: ((if lng = true then [108] else []) ++ cv :: 0 :: rest))
        (Arg.int v :: ap) tmpbuf
      = some (signedToken T v, ((signedToken T v).length : Int)) := by
  have hp : padded (signedToken T v) 0 32 false = signedToken T v := by
    unfold padded
    simp
  have ha := afterFlags_signed T false 32 [] 0 lng cv rest v ap tmpbuf hcv (by omega)
    (Or.inl ⟨rfl, rfl⟩) hv
  rw [List.nil_append] at ha
  have hd : ∃ tb, directive T ((if lng = true then [108] else []) ++ cv :: 0 :: rest)
      (Arg.int v :: ap) tmpbuf
      = some (padded (signedToken T v) 0 32 false, 0 :: rest, ap, tb) := by
    obtain ⟨tb, ha⟩ := ha
    refine ⟨tb, ?_⟩
    rw [← ha]
    cases lng with
    | false =>
      simp only [Bool.false_eq_true, if_false, List.nil_append]
      exact directive_no_flags T cv _ _ _ (by omega) (by omega)
    | true =>
      simp only [if_true, List.singleton_append]
      exact directive_no_flags T 108 _ _ _ (by omega) (by omega)
  have := chvprintfOut_signed_of T _ rest v ap tmpbuf 0 32 false (by omega) hv hd
  rw [this, hp]
  simp

/-- Where the negation is exact, that is for every 32-bit signed integer `v` but the
most negative one, the formats `"%d"`, `"%i"` and `"%ld"` emit `-` exactly when
`v < 0`, then the minimal decimal digits of `|v|`, and nothing else; the count
is the number of bytes emitted. -/
theorem chvprintfOut_signed_decimal (T : Platform) (v : Int) (ap : List Arg) (rest : List Nat)
    (tmpbuf : Mem) (hv : -2147483647 ≤ v ∧ v ≤ 2147483647) :
    signedDecimal v = (if v < 0 then [45] else []) ++ to_radix_digits v.natAbs 10 ∧
    chvprintfOut T (37 :: 100 :: 0 :: rest) (Arg.int v :: ap) tmpbuf
      = some (signedDecimal v, ((signedDecimal v).length : Int)) ∧
    chvprintfOut T (37 :: 105 :: 0 :: rest) (Arg.int v :: ap) tmpbuf
      = some (signedDecimal v, ((signedDecimal v).length : Int)) ∧
    chvprintfOut T (37 :: 108 :: 100 :: 0 :: rest) (Arg.int v :: ap) tmpbuf
      = some (signedDecimal v, ((signedDecimal v).length : Int)) := by
  have he := signedToken_eq T v (by omega)
  have key := chvprintfOut_signed_token T v ap rest tmpbuf ⟨by omega, hv.2⟩
  rw [he] at key
  exact ⟨rfl, key false 100 (Or.inl rfl), key false 105 (Or.inr rfl), key true 100 (Or.inl rfl)⟩

/-- C3 fails on the code at the most negative value: `l = -l` (line 268) overflows
there, and what `"%d"`, `"%i"` and `"%ld"` emit after the `-` are the digits of
whatever magnitude the negation of the build leaves.  Where it leaves 8 (the
digits that come out of gcc 12 at `-O2`) the output is `"-8"`, count 2; it is
`"-2147483648"` only where the negation wraps. -/
theorem chvprintf_signed_decimal_most_negative :
    (∀ (T : Platform) (rest : List Nat) (ap : List Arg) (tmpbuf : Mem),
      chvprintfOut T (37 :: 100 :: 0 :: rest) (Arg.int (-2147483648) :: ap) tmpbuf
        = some (45 :: to_radix_digits (T.negLongMin % 4294967296) 10,
            (((45 :: to_radix_digits (T.negLongMin % 4294967296) 10).length : Nat) : Int))) ∧
    chvprintfOut ⟨false, fun _ _ => [], 8⟩ [37, 100, 0] [Arg.int (-2147483648)] (fun _ => 0)
      = some ([45, 56], 2) ∧
    chvprintfOut ⟨false, fun _ _ => [], 8⟩ [37, 105, 0] [Arg.int (-2147483648)] (fun _ => 0)
      = some ([45, 56], 2) ∧
    chvprintfOut ⟨false, fun _ _ => [], 8⟩ [37, 108, 100, 0] [Arg.int (-2147483648)]
        (fun _ => 0)
      = some ([45, 56], 2) ∧
    chvprintfOut ⟨false, fun _ _ => [], 2147483648⟩ [37, 100, 0] [Arg.int (-2147483648)]
        (fun _ => 0)
      = some ([45, 50, 49, 52, 55, 52, 56, 51, 54, 52, 56], 11) := by
  refine ⟨?_, by decide, by decide, by decide, by decide⟩
  intro T rest ap tmpbuf
  have h := chvprintfOut_signed_token T (-2147483648) ap rest tmpbuf (by decide) false 100
    (Or.inl rfl)
  have ht : signedToken T (-2147483648)
      = 45 :: to_radix_digits (T.negLongMin % 4294967296) 10 := by
    unfold signedToken
    simp
  rw [ht] at h
  exact h

/-! ## C4, C5: zero fill and left alignment -/

theorem signedDecimal_nonneg (v : Int) (hv : 0 ≤ v) :
    signedDecimal v = to_radix_digits v.natAbs 10 ∧ (signedDecimal v).head? ≠ some 45 := by
  have h : signedDecimal v = to_radix_digits v.natAbs 10 := by
    unfold signedDecimal
    rw [if_neg (by omega)]
    rfl
  refine ⟨h, ?_⟩
  rw [h]
  intro h45
  have hc := to_radix_digits_chars v.natAbs 10 (by omega) (by omega) 45
    (List.mem_of_mem_head? h45)
  omega

theorem signedDecimal_neg (v : Int) (hv : v < 0) :
    signedDecimal v = 45 :: to_radix_digits v.natAbs 10 := by
  unfold signedDecimal
  rw [if_pos hv]
  rfl

/-- The output and count of `"%0Wd"`, for every 32-bit signed `v` and every inline
width `W` fitting an `int`: the zero-padded signed decimal token. -/
theorem chvprintfOut_zero_fill_token (T : Platform) (v : Int) (w : Nat) (ap : List Arg)
    (rest : List Nat) (tmpbuf : Mem) (hv : -2147483648 ≤ v ∧ v ≤ 2147483647)
    (hw : w ≤ 2147483647) :
    chvprintfOut T (37 :: 48 :: (decimal w ++ 100 :: 0 :: rest)) (Arg.int v :: ap) tmpbuf
      = some (padded (signedToken T v) w 48 false,
          ((max w (signedToken T v).length : Nat) : Int)) := by
  have ha := afterFlags_signed T false 48 (decimal w) w false 100 rest v ap tmpbuf
    (Or.inl rfl) (by omega) (Or.inr rfl) hv
  simp only [Bool.false_eq_true, if_false, List.nil_append] at ha
  have hd : ∃ tb, directive T (48 :: (decimal w ++ 100 :: 0 :: rest)) (Arg.int v :: ap) tmpbuf
      = some (padded (signedToken T v) w 48 false, 0 :: rest, ap, tb) := by
    obtain ⟨tb, ha⟩ := ha
    exact ⟨tb, by rw [directive_zero, ha]⟩
  exact chvprintfOut_signed_of T _ rest v ap tmpbuf w 48 false (by omega) hv hd

/-- Where the negation is exact, that is for every 32-bit signed `v` but the most
negative one, and for every inline width `W` fitting an `int`, the format
`"%0Wd"` emits `max(W, t)` bytes, `t` being the length of the unpadded token;
for `v >= 0` they are `W - t` zeros then the digits, for `v < 0` and `W > t`
they are `-`, then `W - t` zeros, then the digits of `|v|`. -/
theorem chvprintfOut_zero_fill (T : Platform) (v : Int) (w : Nat) (ap : List Arg)
    (rest : List Nat) (tmpbuf : Mem) (hv : -2147483647 ≤ v ∧ v ≤ 2147483647)
    (hw : w ≤ 2147483647) :
    ∃ out, chvprintfOut T (37 :: 48 :: (decimal w ++ 100 :: 0 :: rest)) (Arg.int v :: ap) tmpbuf
        = some (out, ((max w (signedDecimal v).length : Nat) : Int)) ∧
      out.length = max w (signedDecimal v).length ∧
      (0 ≤ v → out = List.replicate (w - (signedDecimal v).length) 48
        ++ to_radix_digits v.natAbs 10) ∧
      (v < 0 → (signedDecimal v).length < w →
        out = 45 :: (List.replicate (w - (signedDecimal v).length) 48
          ++ to_radix_digits v.natAbs 10)) := by
  have he := signedToken_eq T v (by omega)
  have hk := chvprintfOut_zero_fill_token T v w ap rest tmpbuf ⟨by omega, hv.2⟩ hw
  rw [he] at hk
  refine ⟨padded (signedDecimal v) w 48 false, hk, padded_length _ _ _ _, ?_, ?_⟩
  · intro h0
    obtain ⟨h1, h2⟩ := signedDecimal_nonneg v h0
    rw [h1] at h2 ⊢
    unfold padded
    by_cases hle : w ≤ (to_radix_digits v.natAbs 10).length
    · have e : w - (to_radix_digits v.natAbs 10).length = 0 := by omega
      simp [hle, e]
    · simp [hle, h2]
  · intro h0 hlt
    have h1 := signedDecimal_neg v h0
    rw [h1] at hlt ⊢
    unfold padded
    have hle : ¬ w ≤ (45 :: to_radix_digits v.natAbs 10).length := by omega
    rw [if_neg (by simp), if_neg hle, if_pos (by simp)]
    rfl

/-- C4 fails on the code at the most negative value: the digits after the sign and
the zeros are those of the magnitude that the overflowing `l = -l` (line 268)
leaves, not those of `|v|`.  Where it leaves 8 (the digits that come out of
gcc 12 at `-O2`), `"%015d"` gives `-`, thirteen zeros and `8`; the `-`, four
zeros and `2147483648` of the claim come out only where the negation wraps.
At `-5` and `5` the code does what the claim says. -/
theorem chvprintf_zero_fill_most_negative :
    chvprintfOut ⟨false, fun _ _ => [], 8⟩ [37, 48, 49, 53, 100, 0] [Arg.int (-2147483648)]
        (fun _ => 0)
      = some ([45, 48, 48, 48, 48, 48, 48, 48, 48, 48, 48, 48, 48, 48, 56], 15) ∧
    chvprintfOut ⟨false, fun _ _ => [], 2147483648⟩ [37, 48, 49, 53, 100, 0]
        [Arg.int (-2147483648)] (fun _ => 0)
      = some ([45, 48, 48, 48, 48, 50, 49, 52, 55, 52, 56, 51, 54, 52, 56], 15) ∧
    to_radix_digits (-2147483648 : Int).natAbs 10 = [50, 49, 52, 55, 52, 56, 51, 54, 52, 56] ∧
    (∀ (T : Platform) (w : Nat) (rest : List Nat) (ap : List Arg) (tmpbuf : Mem),
      w ≤ 2147483647 →
      chvprintfOut T (37 :: 48 :: (decimal w ++ 100 :: 0 :: rest))
          (Arg.int (-2147483648) :: ap) tmpbuf
        = some (padded (45 :: to_radix_digits (T.negLongMin % 4294967296) 10) w 48 false,
            ((max w (45 :: to_radix_digits (T.negLongMin % 4294967296) 10).length : Nat)
              : Int))) ∧
    chvprintfOut ⟨false, fun _ _ => [], 8⟩ [37, 48, 53, 100, 0] [Arg.int (-5)] (fun _ => 0)
      = some ([45, 48, 48, 48, 53], 5) ∧
    chvprintfOut ⟨false, fun _ _ => [], 8⟩ [37, 48, 53, 100, 0] [Arg.int 5] (fun _ => 0)
      = some ([48, 48, 48, 48, 53], 5) := by
  refine ⟨by decide, by decide, by norm_num [to_radix_digits, digitChar], ?_, by decide,
    by decide⟩
  intro T w rest ap tmpbuf hw
  have h := chvprintfOut_zero_fill_token T (-2147483648) w ap rest tmpbuf (by decide) hw
  have ht : signedToken T (-2147483648)
      = 45 :: to_radix_digits (T.negLongMin % 4294967296) 10 := by
    unfold signedToken
    simp
  rw [ht] at h
  exact h

/-- C5 (amended): for every 32-bit signed `v` and every inline width `W` that fits an
`int`, the format `"%-Wd"` emits the unpadded token of `v`, which is what `"%d"`
emits for `v`, first, then exactly `max(0, W - t)` spaces, and nothing before
the token.  The token is the signed decimal text of `v` for every `v` but the
most negative one, where its digits are those the negation of the build
leaves. -/
theorem chvprintf_left_align (T : Platform) (v : Int) (w : Nat) (ap : List Arg)
    (rest : List Nat) (tmpbuf : Mem) (hv : -2147483648 ≤ v ∧ v ≤ 2147483647)
    (hw : w ≤ 2147483647) :
    chvprintfOut T (37 :: 45 :: (decimal w ++ 100 :: 0 :: rest)) (Arg.int v :: ap) tmpbuf
      = some (signedToken T v ++ List.replicate (w - (signedToken T v).length) 32,
          ((max w (signedToken T v).length : Nat) : Int)) ∧
    chvprintfOut T (37 :: 100 :: 0 :: rest) (Arg.int v :: ap) tmpbuf
      = some (signedToken T v, ((signedToken T v).length : Int)) ∧
    (v ≠ -2147483648 → signedToken T v = signedDecimal v) := by
  refine ⟨?_, chvprintfOut_signed_token T v ap rest tmpbuf hv false 100 (Or.inl rfl),
    signedToken_eq T v⟩
  by_cases h0 : w = 0
  · subst h0
    have hdec : decimal 0 = [48] := by simp [decimal, to_radix_digits]
    have ha := afterFlags_signed T true 48 [] 0 false 100 rest v ap tmpbuf
      (Or.inl rfl) (by omega) (Or.inl ⟨rfl, rfl⟩) hv
    simp only [Bool.false_eq_true, if_false, List.nil_append] at ha
    have hd : ∃ tb, directive T (45 :: (decimal 0 ++ 100 :: 0 :: rest)) (Arg.int v :: ap) tmpbuf
        = some (padded (signedToken T v) 0 48 true, 0 :: rest, ap, tb) := by
      obtain ⟨tb, ha⟩ := ha
      refine ⟨tb, ?_⟩
      rw [hdec, List.singleton_append, directive_minus_zero, ha]
    rw [chvprintfOut_signed_of T _ rest v ap tmpbuf 0 48 true (by omega) hv hd]
    simp [padded]
  · obtain ⟨c, cs, hc, h48, _⟩ := decimal_cons w h0
    have ha := afterFlags_signed T true 32 (decimal w) w false 100 rest v ap tmpbuf
      (Or.inl rfl) (by omega) (Or.inr rfl) hv
    simp only [Bool.false_eq_true, if_false, List.nil_append] at ha
    have hd : ∃ tb, directive T (45 :: (decimal w ++ 100 :: 0 :: rest)) (Arg.int v :: ap) tmpbuf
        = some (padded (signedToken T v) w 32 true, 0 :: rest, ap, tb) := by
      obtain ⟨tb, ha⟩ := ha
      refine ⟨tb, ?_⟩
      rw [← ha, hc, List.cons_append, directive_minus T c _ _ _ h48]
    rw [chvprintfOut_signed_of T _ rest v ap tmpbuf w 32 true (by omega) hv hd]
    simp [padded]

/-- C5 (amended), at `5` with `%-5d`: `"5"` and four spaces; at the most negative
value with `%-15d`, where the negation leaves 8: the token `"-8"` and thirteen
spaces. -/
theorem chvprintf_left_align_witness :
    (-2147483648 ≤ (5 : Int) ∧ (5 : Int) ≤ 2147483647) ∧ (5 : Nat) ≤ 2147483647 ∧
    (chvprintfOut ⟨false, fun _ _ => [], 2147483648⟩ (37 :: 45 :: (decimal 5 ++ 100 :: 0 :: []))
        (Arg.int 5 :: []) (fun _ => 0)
      = some (signedToken ⟨false, fun _ _ => [], 2147483648⟩ 5
          ++ List.replicate (5 - (signedToken ⟨false, fun _ _ => [], 2147483648⟩ 5).length) 32,
          ((max 5 (signedToken ⟨false, fun _ _ => [], 2147483648⟩ 5).length : Nat) : Int)) ∧
      chvprintfOut ⟨false, fun _ _ => [], 2147483648⟩ (37 :: 100 :: 0 :: []) (Arg.int 5 :: [])
          (fun _ => 0)
        = some (signedToken ⟨false, fun _ _ => [], 2147483648⟩ 5,
            ((signedToken ⟨false, fun _ _ => [], 2147483648⟩ 5).length : Int)) ∧
      ((5 : Int) ≠ -2147483648 →
        signedToken ⟨false, fun _ _ => [], 2147483648⟩ 5 = signedDecimal 5)) ∧
    chvprintfOut ⟨false, fun _ _ => [], 2147483648⟩ [37, 45, 53, 100, 0] [Arg.int 5]
        (fun _ => 0)
      = some ([53, 32, 32, 32, 32], 5) ∧
    chvprintfOut ⟨false, fun _ _ => [], 8⟩ [37, 45, 49, 53, 100, 0] [Arg.int (-2147483648)]
        (fun _ => 0)
      = some ([45, 56, 32, 32, 32, 32, 32, 32, 32, 32, 32, 32, 32, 32, 32], 15) :=
  ⟨by decide, by decide,
    chvprintf_left_align ⟨false, fun _ _ => [], 2147483648⟩ 5 5 [] [] (fun _ => 0) (by decide)
      (by decide),
    by decide, by decide⟩

/-- C5 as stated fails for a width that does not fit an `int`: with the inline width
4294967301 the format `"%-4294967301d"` on 5 emits `"5"` and four spaces, five
bytes in all, not the token followed by `4294967301 - t` spaces. -/
theorem chvprintf_left_align_wide_counterexample :
    decimal 4294967301 = [52, 50, 57, 52, 57, 54, 55, 51, 48, 49] ∧
    chvprintfOut ⟨false, fun _ _ => [], 2147483648⟩
        (37 :: 45 :: ([52, 50, 57, 52, 57, 54, 55, 51, 48, 49] ++ 100 :: 0 :: []))
        (Arg.int 5 :: []) (fun _ => 0)
      = some ([53, 32, 32, 32, 32], 5) ∧
    ¬ ∃ tok : List Nat,
      [53, 32, 32, 32, 32] = tok ++ List.replicate (4294967301 - tok.length) 32 := by
  refine ⟨by norm_num [decimal, to_radix_digits, digitChar], by decide, ?_⟩
  rintro ⟨tok, h⟩
  have hl := congrArg List.length h
  rw [List.length_append, List.length_replicate] at hl
  simp only [List.length_cons, List.length_nil] at hl
  omega

/-! ## Strings -/

theorem strlen_nil : strlen [] = 0 := rfl

theorem strlen_cons_zero (bs : List Nat) : strlen (0 :: bs) = 0 := by
  simp [strlen]

theorem strlen_cons_ne (b : Nat) (bs : List Nat) (hb : b ≠ 0) :
    strlen (b :: bs) = strlen bs + 1 := by
  simp [strlen, hb]

theorem strlen_le (bs : List Nat) : strlen bs ≤ bs.length := by
  unfold strlen
  exact (List.takeWhile_sublist _).length_le

/-- The scan of case `s` stops at the NUL or after `precision` bytes. -/
theorem scanStr_eq : ∀ (bytes : List Nat) (P : Nat), P ≤ 2147483647 →
    scanStr bytes (P : Int) = min P (strlen bytes) := by
  intro bytes
  induction bytes with
  | nil => intro P _; simp [scanStr, strlen_nil]
  | cons b bs ih =>
    intro P hP
    by_cases hb : b = 0
    · subst hb
      simp [scanStr, strlen_cons_zero]
    · rw [strlen_cons_ne b bs hb]
      cases P with
      | zero =>
        have e : toS32 (((0 : Nat) : Int) - 1) = -1 := by unfold toS32; omega
        simp only [scanStr, e]
        simp
      | succ k =>
        have e : toS32 (((k + 1 : Nat) : Int) - 1) = (k : Int) := by
          unfold toS32; push_cast; omega
        have hk : (0 : Int) ≤ (k : Int) := by omega
        simp only [scanStr, e, ne_eq, hb, not_false_eq_true, true_and, ge_iff_le, hk, if_true]
        rw [ih k (by omega)]
        omega

theorem conversion_str (T : Platform) (il : Bool) (filler : Nat) (width : Int) (P : Nat)
    (a : Option (List Nat)) (ap : List Arg) (tmpbuf : Mem) (hP : P ≤ 2147483647) :
    conversion T 115 il filler width (P : Int) (Arg.str a :: ap) tmpbuf
      = some ⟨strMem (strBytes a), 0, ((strToken a P).length : Int), 32, ap, tmpbuf⟩ ∧
    readBytes (strMem (strBytes a)) 0 (strToken a P).length = strToken a P := by
  have hk : (strToken a P).length = min (if P = 0 then 32767 else P) (strlen (strBytes a)) := by
    unfold strToken
    rw [List.length_take]
    have := strlen_le (strBytes a)
    omega
  have hle : (strToken a P).length ≤ (strBytes a).length := by
    rw [hk]
    have := strlen_le (strBytes a)
    omega
  constructor
  · unfold conversion
    have h99 : (115 : Nat) ≠ 99 := by omega
    simp only [h99, if_false, if_true]
    by_cases h0 : P = 0
    · subst h0
      have e := scanStr_eq (strBytes a) 32767 (by omega)
      simp only [Nat.cast_zero, if_true] at hk ⊢
      rw [hk]
      have e2 : ((32767 : Nat) : Int) = 32767 := rfl
      rw [e2] at e
      rw [e]
    · have hne : ¬ ((P : Int) = 0) := by omega
      have e := scanStr_eq (strBytes a) P hP
      simp only [hne, if_false, h0] at hk ⊢
      rw [hk, e]
  · have h := readBytes_strMem (strBytes a) (strToken a P).length hle
    rw [h, hk]
    unfold strToken
    rfl

theorem strToken_length_le (a : Option (List Nat)) (P : Nat) (hP : P ≤ 2147483647) :
    (strToken a P).length ≤ 2147483647 := by
  unfold strToken
  rw [List.length_take]
  split <;> omega

/-- An `s` directive after its flags, with an optional inline width and an optional
inline precision: the output is the padded, cut string, padded with spaces. -/
theorem afterFlags_str (T : Platform) (la : Bool) (filler : Nat) (wd : List Nat) (w : Nat)
    (pd : List Nat) (P : Nat) (rest : List Nat) (a : Option (List Nat)) (ap : List Arg)
    (tmpbuf : Mem) (hw : w < 2147483648) (hP : P ≤ 2147483647)
    (hwd : (wd = [] ∧ w = 0) ∨ wd = decimal w)
    (hpd : (pd = [] ∧ P = 0) ∨ pd = 46 :: decimal P) :
    afterFlags T la filler (wd ++ (pd ++ 115 :: 0 :: rest)) (Arg.str a :: ap) tmpbuf
      = some (padded (strToken a P) w 32 la, 0 :: rest, ap, tmpbuf) := by
  obtain ⟨hconv, hread⟩ := conversion_str T false filler (w : Int) P a ap tmpbuf hP
  have hlen := strToken_length_le a P hP
  have hpad : padAndEmit (strMem (strBytes a)) 0 ((strToken a P).length : Int) 32 (w : Int) la
      = padded (strToken a P) w 32 la :=
    padAndEmit_padded _ (strToken a P) w 32 la hread (by omega) hw (fun _ => by omega)
  have hlm : longModifier 115 (0 :: rest) = some (115, false, 0 :: rest) := by
    unfold longModifier
    simp
  rcases hpd with ⟨h1, h2⟩ | h
  · subst h1 h2
    have hp1 := parseNum_width T.signedChar wd w 115 (0 :: rest) (Arg.str a :: ap)
      (by omega) (by omega) hw hwd
    have h46 : (115 : Nat) ≠ 46 := by omega
    rw [List.nil_append]
    unfold afterFlags
    simp only [hp1, h46, if_false, hlm]
    have hc0 : conversion T 115 false filler (w : Int) 0 (Arg.str a :: ap) tmpbuf
        = some ⟨strMem (strBytes a), 0, ((strToken a 0).length : Int), 32, ap, tmpbuf⟩ := hconv
    simp only [hc0, hpad]
  · subst h
    have hp1 := parseNum_width T.signedChar wd w 46 (decimal P ++ 115 :: 0 :: rest)
      (Arg.str a :: ap) (by omega) (by omega) hw hwd
    have hp2 := parseNum_width T.signedChar (decimal P) P 115 (0 :: rest) (Arg.str a :: ap)
      (by omega) (by omega) (by omega) (Or.inr rfl)
    rw [List.cons_append]
    unfold afterFlags
    simp only [hp1, if_true, hp2, hlm, hconv, hpad]

theorem chvprintfOut_single_len (T : Platform) (body rest : List Nat) (ap ap1 : List Arg)
    (tmpbuf tmpbuf1 : Mem) (out : List Nat) (hlen : out.length ≤ 2147483647)
    (h : directive T body ap tmpbuf = some (out, 0 :: rest, ap1, tmpbuf1)) :
    chvprintfOut T (37 :: body) ap tmpbuf = some (out, (out.length : Int)) := by
  rw [chvprintfOut_single T body rest ap ap1 tmpbuf tmpbuf1 out h]
  by_cases h0 : out = []
  · subst h0; simp
  · rw [if_neg h0, toS32_of_range _ (by omega) (by omega)]

/-! ## C6, C7: string precision, null strings -/

theorem padded_zero_width (tok : List Nat) (filler : Nat) :
    padded tok 0 filler false = tok := by
  unfold padded
  simp

/-- The output of `"%s"` and `"%.Ps"` (no flags, no width). -/
theorem chvprintfOut_str (T : Platform) (pd : List Nat) (P : Nat) (rest : List Nat)
    (a : Option (List Nat)) (ap : List Arg) (tmpbuf : Mem) (hP : P ≤ 2147483647)
    (hpd : (pd = [] ∧ P = 0) ∨ pd = 46 :: decimal P) :
    chvprintfOut T (37 :: (pd ++ 115 :: 0 :: rest)) (Arg.str a :: ap) tmpbuf
      = some (strToken a P, ((strToken a P).length : Int)) := by
  have ha := afterFlags_str T false 32 [] 0 pd P rest a ap tmpbuf (by omega) hP
    (Or.inl ⟨rfl, rfl⟩) hpd
  rw [List.nil_append, padded_zero_width] at ha
  have hd : directive T (pd ++ 115 :: 0 :: rest) (Arg.str a :: ap) tmpbuf
      = some (strToken a P, 0 :: rest, ap, tmpbuf) := by
    rw [← ha]
    rcases hpd with ⟨h1, _⟩ | h
    · subst h1
      exact directive_no_flags T 115 _ _ _ (by omega) (by omega)
    · subst h
      exact directive_no_flags T 46 _ _ _ (by omega) (by omega)
  exact chvprintfOut_single_len T _ rest _ ap tmpbuf tmpbuf _ (strToken_length_le a P hP) hd

theorem strToken_some (s : List Nat) (P : Nat) :
    strToken (some s) P = s.take (min (if P = 0 then 32767 else P) (strlen s)) := rfl

theorem take_min_strlen_length (s : List Nat) (k : Nat) :
    (s.take (min k (strlen s))).length = min k (strlen s) := by
  rw [List.length_take]
  have := strlen_le s
  omega

/-- C6 (amended): for every non-null string `s` and every inline precision `N` with
`1 <= N` that fits an `int`, `"%.Ns"` emits exactly the first `min(N, length(s))`
bytes of `s`; with the precision absent or 0 it emits the first
`min(32767, length(s))` bytes. -/
theorem chvprintf_string_precision (T : Platform) (s : List Nat) (N : Nat) (ap : List Arg)
    (rest : List Nat) (tmpbuf : Mem) (h1 : 1 ≤ N) (hN : N ≤ 2147483647) :
    chvprintfOut T (37 :: 46 :: (decimal N ++ 115 :: 0 :: rest)) (Arg.str (some s) :: ap) tmpbuf
      = some (s.take (min N (strlen s)), ((min N (strlen s) : Nat) : Int)) ∧
    chvprintfOut T (37 :: 115 :: 0 :: rest) (Arg.str (some s) :: ap) tmpbuf
      = some (s.take (min 32767 (strlen s)), ((min 32767 (strlen s) : Nat) : Int)) ∧
    chvprintfOut T (37 :: 46 :: (decimal 0 ++ 115 :: 0 :: rest)) (Arg.str (some s) :: ap) tmpbuf
      = some (s.take (min 32767 (strlen s)), ((min 32767 (strlen s) : Nat) : Int)) := by
  have hN0 : N ≠ 0 := by omega
  have e1 := chvprintfOut_str T (46 :: decimal N) N rest (some s) ap tmpbuf hN (Or.inr rfl)
  have e2 := chvprintfOut_str T [] 0 rest (some s) ap tmpbuf (by omega) (Or.inl ⟨rfl, rfl⟩)
  have e3 := chvprintfOut_str T (46 :: decimal 0) 0 rest (some s) ap tmpbuf (by omega)
    (Or.inr rfl)
  rw [strToken_some, take_min_strlen_length] at e1 e2 e3
  simp only [hN0, if_false, if_true, List.cons_append, List.nil_append] at e1 e2 e3
  exact ⟨e1, e2, e3⟩

/-- C6 (amended), at `"hello"` with `%.3s`: `"hel"`. -/
theorem chvprintf_string_precision_witness :
    (1 ≤ (3 : Nat)) ∧ ((3 : Nat) ≤ 2147483647) ∧
    (chvprintfOut ⟨false, fun _ _ => [], 2147483648⟩ (37 :: 46 :: (decimal 3 ++ 115 :: 0 :: []))
        (Arg.str (some [104, 101, 108, 108, 111]) :: []) (fun _ => 0)
      = some ([104, 101, 108, 108, 111].take (min 3 (strlen [104, 101, 108, 108, 111])),
          ((min 3 (strlen [104, 101, 108, 108, 111]) : Nat) : Int)) ∧
    chvprintfOut ⟨false, fun _ _ => [], 2147483648⟩ (37 :: 115 :: 0 :: [])
        (Arg.str (some [104, 101, 108, 108, 111]) :: []) (fun _ => 0)
      = some ([104, 101, 108, 108, 111].take (min 32767 (strlen [104, 101, 108, 108, 111])),
          ((min 32767 (strlen [104, 101, 108, 108, 111]) : Nat) : Int)) ∧
    chvprintfOut ⟨false, fun _ _ => [], 2147483648⟩ (37 :: 46 :: (decimal 0 ++ 115 :: 0 :: []))
        (Arg.str (some [104, 101, 108, 108, 111]) :: []) (fun _ => 0)
      = some ([104, 101, 108, 108, 111].take (min 32767 (strlen [104, 101, 108, 108, 111])),
          ((min 32767 (strlen [104, 101, 108, 108, 111]) : Nat) : Int))) ∧
    chvprintfOut ⟨false, fun _ _ => [], 2147483648⟩ [37, 46, 51, 115, 0]
        [Arg.str (some [104, 101, 108, 108, 111])] (fun _ => 0)
      = some ([104, 101, 108], 3) :=
  ⟨by decide, by decide,
    chvprintf_string_precision ⟨false, fun _ _ => [], 2147483648⟩ [104, 101, 108, 108, 111] 3 [] []
      (fun _ => 0) (by decide) (by decide),
    by decide⟩

/-- C6 as stated fails for a precision that does not fit an `int`: `"%.4294967299s"` on
`"hello"` emits `"hel"`, not the first `min(4294967299, 5) = 5` bytes. -/
theorem chvprintf_string_precision_wide_counterexample :
    decimal 4294967299 = [52, 50, 57, 52, 57, 54, 55, 50, 57, 57] ∧
    strlen [104, 101, 108, 108, 111] = 5 ∧
    chvprintfOut ⟨false, fun _ _ => [], 2147483648⟩
        (37 :: 46 :: ([52, 50, 57, 52, 57, 54, 55, 50, 57, 57] ++ 115 :: 0 :: []))
        (Arg.str (some [104, 101, 108, 108, 111]) :: []) (fun _ => 0)
      = some ([104, 101, 108], 3) ∧
    [104, 101, 108] ≠ [104, 101, 108, 108, 111].take (min 4294967299 5) := by
  refine ⟨by norm_num [decimal, to_radix_digits, digitChar], by decide, by decide, by decide⟩

theorem feed_cons {σ : Type} (put : σ → Nat → σ × Int) (chp : σ) (b : Nat) (bs : List Nat) :
    feed put chp (b :: bs) = feed put (put chp b).1 bs := rfl

theorem feed_msPut_full (bs : List Nat) (ms : MemoryStream) (h : ms.size ≤ ms.eos) :
    feed msPut ms bs = ms := by
  induction bs with
  | nil => rfl
  | cons b bs ih =>
    rw [feed_cons]
    have e : (msPut ms b).1 = ms := by
      unfold msPut
      rw [if_neg (by omega)]
    rw [e, ih]

/-- The memory stream keeps the first bytes that fit and drops the others. -/
theorem feed_msPut_spec : ∀ (bs : List Nat) (ms : MemoryStream), ms.eos ≤ ms.size →
    (feed msPut ms bs).size = ms.size ∧
    (feed msPut ms bs).eos = min (ms.eos + bs.length) ms.size ∧
    (∀ k, k < bs.length → ms.eos + k < ms.size →
      (feed msPut ms bs).buffer ((ms.eos + k : Nat) : Int) = bs.getD k 0) ∧
    (∀ a : Int, (a < (ms.eos : Int) ∨ (ms.size : Int) ≤ a) →
      (feed msPut ms bs).buffer a = ms.buffer a) := by
  intro bs
  induction bs with
  | nil =>
    intro ms h
    refine ⟨rfl, ?_, ?_, ?_⟩
    · show ms.eos = _
      simp only [List.length_nil, Nat.add_zero]
      omega
    · intro k hk; simp at hk
    · intro a _; rfl
  | cons b bs ih =>
    intro ms h
    rw [feed_cons]
    by_cases hfull : ms.eos < ms.size
    · have e : (msPut ms b).1 = ⟨store ms.buffer ms.eos b, ms.size, ms.eos + 1⟩ := by
        unfold msPut
        rw [if_pos hfull]
      rw [e]
      obtain ⟨i1, i2, i3, i4⟩ := ih ⟨store ms.buffer ms.eos b, ms.size, ms.eos + 1⟩
        (by show ms.eos + 1 ≤ ms.size; omega)
      refine ⟨i1, ?_, ?_, ?_⟩
      · rw [i2]
        show min (ms.eos + 1 + bs.length) ms.size = min (ms.eos + (bs.length + 1)) ms.size
        congr 1
        omega
      · intro k hk hlt
        cases k with
        | zero =>
          rw [i4 _ (Or.inl (by show ((ms.eos + 0 : Nat) : Int) < ((ms.eos + 1 : Nat) : Int); omega))]
          show store ms.buffer (ms.eos : Int) b ((ms.eos + 0 : Nat) : Int) = _
          rw [Nat.add_zero, store_same]
          rfl
        | succ j =>
          have hj : j < bs.length := by simpa using hk
          have := i3 j hj (by show ms.eos + 1 + j < ms.size; omega)
          have e2 : ms.eos + (j + 1) = ms.eos + 1 + j := by omega
          rw [e2]
          exact this
      · intro a ha
        rw [i4 a (by
          show a < ((ms.eos + 1 : Nat) : Int) ∨ (ms.size : Int) ≤ a
          rcases ha with ha | ha
          · left; omega
          · right; exact ha)]
        show store ms.buffer (ms.eos : Int) b a = _
        apply store_other
        omega
    · have e : (msPut ms b).1 = ms := by
        unfold msPut
        rw [if_neg hfull]
      have heq : ms.eos = ms.size := by omega
      rw [e, feed_msPut_full bs ms (by omega)]
      refine ⟨rfl, ?_, ?_, ?_⟩
      · simp only [List.length_cons]; omega
      · intro k _ hlt; omega
      · intro a _; rfl

theorem chsnprintf_eq (T : Platform) (str : Mem) (size : Nat) (fmt : List Nat) (ap : List Arg)
    (tmpbuf : Mem) :
    chsnprintf T str size fmt ap tmpbuf
      = (chvprintfOut T fmt ap tmpbuf).map (fun r =>
          (if (feed msPut (msObjectInit str (if size > 0 then size - 1 else 0) 0) r.1).eos < size
            then store (feed msPut (msObjectInit str (if size > 0 then size - 1 else 0) 0) r.1).buffer
              (feed msPut (msObjectInit str (if size > 0 then size - 1 else 0) 0) r.1).eos 0
            else (feed msPut (msObjectInit str (if size > 0 then size - 1 else 0) 0) r.1).buffer,
           r.2)) := by
  unfold chsnprintf
  simp only []
  rw [chvprintf_sink]
  cases chvprintfOut T fmt ap tmpbuf with
  | none => rfl
  | some r => rfl

/-- C8: for every `size >= 1`, when the full output of the format is `out` (of length
`L`), `chsnprintf` returns and leaves the first `min(L, size - 1)` bytes of `out`
in `str`, a NUL at index `min(L, size - 1)`, which is below `size`, and every
byte of `str` at an index `>= size` (or below 0) as it was. -/
theorem chsnprintf_truncates (T : Platform) (str : Mem) (size : Nat) (fmt : List Nat)
    (ap : List Arg) (tmpbuf : Mem) (out : List Nat) (n : Int) (hsize : 1 ≤ size)
    (hout : chvprintfOut T fmt ap tmpbuf = some (out, n)) :
    ∃ str1, chsnprintf T str size fmt ap tmpbuf = some (str1, n) ∧
      (∀ k, k < min out.length (size - 1) → str1 (k : Int) = out.getD k 0) ∧
      str1 ((min out.length (size - 1) : Nat) : Int) = 0 ∧
      min out.length (size - 1) < size ∧
      (∀ a : Int, (a < 0 ∨ (size : Int) ≤ a) → str1 a = str a) := by
  have hsz : (if size > 0 then size - 1 else 0) = size - 1 := by
    rw [if_pos (by omega)]
  obtain ⟨f1, f2, f3, f4⟩ := feed_msPut_spec out (msObjectInit str (size - 1) 0)
    (by show 0 ≤ size - 1; omega)
  have f2' : (feed msPut (msObjectInit str (size - 1) 0) out).eos = min out.length (size - 1) := by
    rw [f2]
    show min (0 + out.length) (size - 1) = _
    rw [Nat.zero_add]
  have hlt : (feed msPut (msObjectInit str (size - 1) 0) out).eos < size := by
    rw [f2']; omega
  refine ⟨store (feed msPut (msObjectInit str (size - 1) 0) out).buffer
      (feed msPut (msObjectInit str (size - 1) 0) out).eos 0, ?_, ?_, ?_, ?_, ?_⟩
  · rw [chsnprintf_eq, hout, hsz]
    simp only [Option.map_some', hlt, if_true]
  · intro k hk
    rw [store_other _ _ _ _ (by rw [f2']; omega)]
    have := f3 k (by omega) (by show 0 + k < size - 1; omega)
    have e : ((0 + k : Nat) : Int) = (k : Int) := by rw [Nat.zero_add]
    have e0 : ((msObjectInit str (size - 1) 0).eos + k : Nat) = 0 + k := rfl
    rw [e0, e] at this
    exact this
  · rw [f2', store_same]
  · omega
  · intro a ha
    rw [store_other _ _ _ _ (by rw [f2']; omega)]
    rw [f4 a (by
      show a < ((0 : Nat) : Int) ∨ ((size - 1 : Nat) : Int) ≤ a
      rcases ha with ha | ha
      · left; omega
      · right; omega)]
    rfl

/-- C8, at `"hello"` in a buffer of 4 bytes: `"hel"`, a NUL, count 5. -/
theorem chsnprintf_truncates_witness :
    (1 ≤ (4 : Nat)) ∧
    chvprintfOut ⟨false, fun _ _ => [], 2147483648⟩ [104, 101, 108, 108, 111, 0] [] (fun _ => 0)
      = some ([104, 101, 108, 108, 111], 5) ∧
    (∃ str1, chsnprintf ⟨false, fun _ _ => [], 2147483648⟩ (fun _ => 7) 4 [104, 101, 108, 108, 111, 0] []
        (fun _ => 0) = some (str1, 5) ∧
      (∀ k, k < min [104, 101, 108, 108, 111].length (4 - 1) →
        str1 (k : Int) = [104, 101, 108, 108, 111].getD k 0) ∧
      str1 ((min [104, 101, 108, 108, 111].length (4 - 1) : Nat) : Int) = 0 ∧
      min [104, 101, 108, 108, 111].length (4 - 1) < 4 ∧
      (∀ a : Int, (a < 0 ∨ ((4 : Nat) : Int) ≤ a) → str1 a = (fun _ => 7) a)) ∧
    (chsnprintf ⟨false, fun _ _ => [], 2147483648⟩ (fun _ => 7) 4 [104, 101, 108, 108, 111, 0] []
        (fun _ => 0)).map (fun r => ([r.1 0, r.1 1, r.1 2, r.1 3, r.1 4, r.1 5], r.2))
      = some ([104, 101, 108, 0, 7, 7], 5) :=
  ⟨by decide, by decide,
    chsnprintf_truncates ⟨false, fun _ _ => [], 2147483648⟩ (fun _ => 7) 4 [104, 101, 108, 108, 111, 0] []
      (fun _ => 0) [104, 101, 108, 108, 111] 5 (by decide) (by decide),
    by decide⟩

/-- C9: for every buffer size (0 and sizes smaller than the output included), format
and arguments, `chsnprintf` returns exactly the count that `chvprintf` returns for
the same format and arguments on any sink (and fails to return exactly when it
does): the count of the full output, not the number of bytes stored. -/
theorem chsnprintf_return_value {σ : Type} (T : Platform) (put : σ → Nat → σ × Int) (chp : σ)
    (str : Mem) (size : Nat) (fmt : List Nat) (ap : List Arg) (tmpbuf : Mem) :
    (chsnprintf T str size fmt ap tmpbuf).map (fun r => r.2)
      = (chvprintf T put chp fmt ap tmpbuf).map (fun r => r.2) := by
  rw [chsnprintf_eq, chvprintf_sink]
  cases chvprintfOut T fmt ap tmpbuf with
  | none => rfl
  | some r => rfl

/-- C10: with `size == 0`, for every format and arguments the memory at `str` after
`chsnprintf` is exactly the memory before (no byte, no NUL is written), and the
returned value is still the count of the full output. -/
theorem chsnprintf_zero_size (T : Platform) (str : Mem) (fmt : List Nat) (ap : List Arg)
    (tmpbuf : Mem) :
    chsnprintf T str 0 fmt ap tmpbuf
      = (chvprintfOut T fmt ap tmpbuf).map (fun r => (str, r.2)) := by
  rw [chsnprintf_eq]
  cases chvprintfOut T fmt ap tmpbuf with
  | none => rfl
  | some r =>
    have e : feed msPut (msObjectInit str (if 0 > 0 then 0 - 1 else 0) 0) r.1
        = msObjectInit str 0 0 :=
      feed_msPut_full r.1 (msObjectInit str 0 0) (Nat.le_refl 0)
    simp only [Option.map_some', e]
    have h0 : ¬ ((msObjectInit str 0 0).eos < 0) := Nat.not_lt_zero _
    rw [if_neg h0]
    rfl

/-! ## C11: the byte counter -/

theorem chvprintfLoop_count (T : Platform) : ∀ (fuel : Nat) (acc fmt : List Nat) (ap : List Arg)
    (tmpbuf : Mem) (n : Int) (out : List Nat) (n1 : Int),
    chvprintfLoop T listPut fuel acc fmt ap tmpbuf n = some (out, n1) →
    ∃ d, out = acc ++ d ∧ n1 = if d = [] then n else toS32 (n + d.length) := by
  intro fuel
  induction fuel with
  | zero =>
    intro acc fmt ap tmpbuf n out n1 h
    simp [chvprintfLoop] at h
  | succ fuel ih =>
    intro acc fmt ap tmpbuf n out n1 h
    cases fmt with
    | nil => simp [chvprintfLoop] at h
    | cons c fmt1 =>
      by_cases h0 : c = 0
      · simp only [chvprintfLoop, h0, if_true, Option.some.injEq, Prod.mk.injEq] at h
        exact ⟨[], by rw [List.append_nil]; exact h.1.symm, by rw [if_pos rfl]; exact h.2.symm⟩
      · by_cases h37 : c = 37
        · subst h37
          simp only [chvprintfLoop, h0, if_false, ne_eq, not_true_eq_false] at h
          cases hd : directive T fmt1 ap tmpbuf with
          | none => rw [hd] at h; simp at h
          | some r =>
            obtain ⟨o, fmt2, ap1, tmpbuf1⟩ := r
            rw [hd] at h
            simp only [emit_fst, emit_snd, feed_listPut] at h
            obtain ⟨d, hd1, hd2⟩ := ih _ _ _ _ _ _ _ h
            refine ⟨o ++ d, by rw [hd1, List.append_assoc], ?_⟩
            rw [hd2]
            by_cases ho : o = []
            · subst ho
              simp only [if_true, List.nil_append]
            · by_cases hdd : d = []
              · subst hdd
                simp only [ho, if_false, if_true, List.append_nil]
              · have hod : o ++ d ≠ [] := by simp [ho]
                simp only [ho, hdd, hod, if_false, List.length_append]
                rw [toS32_toS32_add]
                congr 1
                push_cast
                omega
        · simp only [chvprintfLoop, h0, if_false, ne_eq, h37, not_false_eq_true, if_true] at h
          obtain ⟨d, hd1, hd2⟩ := ih _ _ _ _ _ _ _ h
          refine ⟨c :: d, ?_, ?_⟩
          · rw [hd1]
            simp [listPut]
          · rw [hd2]
            have hcd : c :: d ≠ [] := by simp
            by_cases hdd : d = []
            · subst hdd
              simp only [if_true, hcd, if_false, List.length_singleton]
              rfl
            · simp only [hdd, hcd, if_false, List.length_cons]
              rw [toS32_toS32_add]
              congr 1
              push_cast
              omega

/-- The count returned with the full output is its length reduced to an `int`. -/
theorem chvprintfOut_count (T : Platform) (fmt : List Nat) (ap : List Arg) (tmpbuf : Mem)
    (out : List Nat) (n : Int) (h : chvprintfOut T fmt ap tmpbuf = some (out, n)) :
    n = toS32 (out.length : Int) := by
  obtain ⟨d, hd1, hd2⟩ := chvprintfLoop_count T _ [] fmt ap tmpbuf 0 out n h
  rw [List.nil_append] at hd1
  subst hd1
  rw [hd2]
  by_cases h0 : out = []
  · subst h0
    simp only [if_true, List.length_nil]
    unfold toS32
    omega
  · rw [if_neg h0, Int.zero_add]

theorem chvprintfLoop_literal {σ : Type} (T : Platform) (put : σ → Nat → σ × Int) (fuel : Nat)
    (chp : σ) (c : Nat) (fmt : List Nat) (ap : List Arg) (tmpbuf : Mem) (n : Int)
    (h0 : c ≠ 0) (h37 : c ≠ 37) :
    chvprintfLoop T put (fuel + 1) chp (c :: fmt) ap tmpbuf n
      = chvprintfLoop T put fuel (put chp c).1 fmt ap tmpbuf (toS32 (n + 1)) := by
  simp only [chvprintfLoop, h0, if_false, ne_eq, h37, not_false_eq_true, if_true]

theorem chvprintfLoop_directive {σ : Type} (T : Platform) (put : σ → Nat → σ × Int)
    (fuel : Nat) (chp : σ) (body fmt2 : List Nat) (ap ap1 : List Arg) (tmpbuf tmpbuf1 : Mem)
    (out : List Nat) (n : Int)
    (h : directive T body ap tmpbuf = some (out, fmt2, ap1, tmpbuf1)) :
    chvprintfLoop T put (fuel + 1) chp (37 :: body) ap tmpbuf n
      = chvprintfLoop T put fuel (emit put chp n out).1 fmt2 ap1 tmpbuf1
          (emit put chp n out).2 := by
  simp only [chvprintfLoop, h]
  simp

theorem chvprintfLoop_end {σ : Type} (T : Platform) (put : σ → Nat → σ × Int) (fuel : Nat)
    (chp : σ) (fmt : List Nat) (ap : List Arg) (tmpbuf : Mem) (n : Int) :
    chvprintfLoop T put (fuel + 1) chp (0 :: fmt) ap tmpbuf n = some (chp, n) := by
  simp only [chvprintfLoop, if_true]

/-- C11 (amended): when the full output `out` of a call has at most 2147483647
bytes, the call on any sink, whatever its `put` answers, hands exactly the bytes
of `out` to the sink in order and returns their number. -/
theorem chvprintf_byte_count {σ : Type} (T : Platform) (put : σ → Nat → σ × Int) (chp : σ)
    (fmt : List Nat) (ap : List Arg) (tmpbuf : Mem) (out : List Nat) (n : Int)
    (h : chvprintfOut T fmt ap tmpbuf = some (out, n)) (hlen : out.length ≤ 2147483647) :
    chvprintf T put chp fmt ap tmpbuf = some (feed put chp out, (out.length : Int)) ∧
    n = (out.length : Int) := by
  have hn := chvprintfOut_count T fmt ap tmpbuf out n h
  have hr : toS32 (out.length : Int) = (out.length : Int) := by
    apply toS32_of_range
    · omega
    · exact_mod_cast hlen
  rw [hr] at hn
  refine ⟨?_, hn⟩
  rw [chvprintf_sink, h, hn]
  rfl

/-- C11 (amended), at the format `"a%d"` with the argument 5 on a sink that answers
every put with -1: the bytes `"a5"` are handed over and 2 is returned. -/
theorem chvprintf_byte_count_witness :
    chvprintfOut ⟨false, fun _ _ => [], 2147483648⟩ [97, 37, 100, 0] [Arg.int 5] (fun _ => 0)
      = some ([97, 53], 2) ∧
    ([97, 53] : List Nat).length ≤ 2147483647 ∧
    chvprintf ⟨false, fun _ _ => [], 2147483648⟩ (fun (s : List Nat) (b : Nat) => (b :: s, (-1 : Int)))
        [] [97, 37, 100, 0] [Arg.int 5] (fun _ => 0)
      = some (feed (fun (s : List Nat) (b : Nat) => (b :: s, (-1 : Int))) [] [97, 53],
          (([97, 53] : List Nat).length : Int)) ∧
    (2 : Int) = (([97, 53] : List Nat).length : Int) :=
  ⟨by decide, by decide,
    chvprintf_byte_count ⟨false, fun _ _ => [], 2147483648⟩
      (fun (s : List Nat) (b : Nat) => (b :: s, (-1 : Int))) [] [97, 37, 100, 0] [Arg.int 5]
      (fun _ => 0) [97, 53] 2 (by decide) (by decide)⟩

/-- C11 as stated fails once the output exceeds an `int`: the format
`"x%2147483647d"` on 5 hands 2147483648 bytes to the sink and the returned
count is -2147483648. -/
theorem chvprintf_byte_count_wrap_counterexample :
    decimal 2147483647 = [50, 49, 52, 55, 52, 56, 51, 54, 52, 55] ∧
    ∃ out : List Nat,
      chvprintfOut ⟨false, fun _ _ => [], 2147483648⟩
          (120 :: 37 :: ([50, 49, 52, 55, 52, 56, 51, 54, 52, 55] ++ 100 :: 0 :: []))
          (Arg.int 5 :: []) (fun _ => 0)
        = some (out, -2147483648) ∧
      out.length = 2147483648 := by
  have hdec : decimal 2147483647 = [50, 49, 52, 55, 52, 56, 51, 54, 52, 55] := by
    norm_num [decimal, to_radix_digits, digitChar]
  refine ⟨hdec, ?_⟩
  obtain ⟨tb, hd⟩ := afterFlags_signed ⟨false, fun _ _ => [], 2147483648⟩ false 32 (decimal 2147483647)
    2147483647 false 100 [] 5 [] (fun _ => 0) (Or.inl rfl) (by decide) (Or.inr rfl)
    (by decide)
  rw [hdec, signedToken_eq _ 5 (by decide)] at hd
  have hdir : directive ⟨false, fun _ _ => [], 2147483648⟩
      ([50, 49, 52, 55, 52, 56, 51, 54, 52, 55] ++ 100 :: 0 :: []) (Arg.int 5 :: [])
      (fun _ => 0)
      = some (padded (signedDecimal 5) 2147483647 32 false, 0 :: [], [], tb) := by
    rw [← hd]
    exact directive_no_flags _ 50 _ _ _ (by decide) (by decide)
  have hpl := padded_length (signedDecimal 5) 2147483647 32 false
  have hsl : (signedDecimal 5).length ≤ 11 := (signedDecimal_length 5 (by decide)).2
  have hl : (padded (signedDecimal 5) 2147483647 32 false).length = 2147483647 := by
    rw [hpl]
    omega
  have hne : padded (signedDecimal 5) 2147483647 32 false ≠ [] := by
    intro h0
    rw [h0] at hl
    simp at hl
  refine ⟨120 :: padded (signedDecimal 5) 2147483647 32 false, ?_, ?_⟩
  · unfold chvprintfOut chvprintf
    simp only [List.length_cons, List.length_append, List.length_nil]
    rw [chvprintfLoop_literal _ _ _ _ 120 _ _ _ _ (by decide) (by decide),
      chvprintfLoop_directive _ _ _ _ _ _ _ _ _ _ _ _ hdir, chvprintfLoop_end,
      emit_fst, emit_snd, feed_listPut, if_neg hne, hl, toS32_toS32_add]
    have e : toS32 (0 + 1 + ((2147483647 : Nat) : Int)) = -2147483648 := by decide
    rw [e]
    rfl
  · rw [List.length_cons, hl]

/-! ## C12: conversion characters of the default case -/

theorem padAndEmit_one (src : Mem) (filler : Nat) :
    padAndEmit src 0 1 filler 0 false = [src 0] := by
  have h := padAndEmit_eq src 1 0 filler false (by decide) (by decide)
  simp only [Nat.cast_one, Nat.cast_zero] at h
  rw [h]
  simp [readBytes]

theorem directive_default (T : Platform) (c : Nat) (rest : List Nat) (ap : List Arg)
    (tmpbuf : Mem)
    (hc : c ∉ [99, 115, 100, 68, 105, 73, 117, 85, 120, 88, 111, 79, 102, 108, 76, 46, 42, 45])
    (hd : ¬ (48 ≤ c ∧ c ≤ 57)) :
    directive T (c :: rest) ap tmpbuf = some ([c], rest, ap, store tmpbuf 0 c) := by
  simp only [List.mem_cons, List.mem_singleton, List.not_mem_nil, or_false, not_or] at hc
  obtain ⟨h99, h115, h100, h68, h105, h73, h117, h85, h120, h88, h111, h79, h102, h108, h76,
    h46, h42, h45⟩ := hc
  have h48 : c ≠ 48 := by omega
  rw [directive_no_flags T c rest ap tmpbuf h45 h48]
  unfold afterFlags
  simp only [parseNum, hd, h42, h46, if_false, longModifier, h108, h76, or_self, conversion,
    h99, h115, h100, h68, h105, h73, h117, h85, h120, h88, h111, h79, h102]
  rw [padAndEmit_one, store_same]

/-- C12 (amended): for every conversion character `c` that is none of `c s d D i I u
U x X o O f`, nor `l`, `L`, `.`, `*`, `-`, a digit or NUL, the directive `%c` hands
the one byte `c` to the sink and consumes no argument, and the loop goes on with
the rest of the format as after a literal byte. -/
theorem chvprintf_unknown_conversion {σ : Type} (T : Platform) (put : σ → Nat → σ × Int)
    (c : Nat) (rest : List Nat) (ap : List Arg) (tmpbuf : Mem) (fuel : Nat) (chp : σ) (n : Int)
    (hc : c ∉ [99, 115, 100, 68, 105, 73, 117, 85, 120, 88, 111, 79, 102, 108, 76, 46, 42, 45,
      0])
    (hd : ¬ (48 ≤ c ∧ c ≤ 57)) :
    directive T (c :: rest) ap tmpbuf = some ([c], rest, ap, store tmpbuf 0 c) ∧
    chvprintfLoop T put (fuel + 1) chp (37 :: c :: rest) ap tmpbuf n
      = chvprintfLoop T put fuel (put chp c).1 rest ap (store tmpbuf 0 c) (toS32 (n + 1)) := by
  have hc1 : c ∉ [99, 115, 100, 68, 105, 73, 117, 85, 120, 88, 111, 79, 102, 108, 76, 46,
      42, 45] := by
    intro hm
    apply hc
    simp only [List.mem_cons, List.mem_singleton, List.not_mem_nil, or_false] at hm ⊢
    omega
  have h := directive_default T c rest ap tmpbuf hc1 hd
  refine ⟨h, ?_⟩
  rw [chvprintfLoop_directive T put fuel chp (c :: rest) rest ap ap tmpbuf _ [c] n h]
  rfl

/-- C12 (amended), at `%%`: a single `%` is emitted, no argument is consumed, and
`"%%a"` gives `"%a"`. -/
theorem chvprintf_unknown_conversion_witness :
    (37 : Nat) ∉ [99, 115, 100, 68, 105, 73, 117, 85, 120, 88, 111, 79, 102, 108, 76, 46, 42,
      45, 0] ∧
    ¬ (48 ≤ (37 : Nat) ∧ (37 : Nat) ≤ 57) ∧
    (directive ⟨false, fun _ _ => [], 2147483648⟩ (37 :: [97, 0]) [Arg.int 7] (fun _ => 0)
        = some ([37], [97, 0], [Arg.int 7], store (fun _ => 0) 0 37) ∧
      chvprintfLoop ⟨false, fun _ _ => [], 2147483648⟩ listPut (3 + 1) [] (37 :: 37 :: [97, 0])
          [Arg.int 7] (fun _ => 0) 0
        = chvprintfLoop ⟨false, fun _ _ => [], 2147483648⟩ listPut 3 (listPut [] 37).1 [97, 0]
          [Arg.int 7] (store (fun _ => 0) 0 37) (toS32 (0 + 1))) ∧
    chvprintfOut ⟨false, fun _ _ => [], 2147483648⟩ [37, 37, 97, 0] [Arg.int 7] (fun _ => 0)
      = some ([37, 97], 2) :=
  ⟨by decide, by decide,
    chvprintf_unknown_conversion ⟨false, fun _ _ => [], 2147483648⟩ listPut 37 [97, 0] [Arg.int 7]
      (fun _ => 0) 3 [] 0 (by decide) (by decide),
    by decide⟩

/-- C12 as stated fails for the character `-`, which is none of the excluded ones:
it is taken as the left-align flag, so `"%-a"` emits `"a"`, not `"-a"`. -/
theorem chvprintf_unknown_conversion_minus_counterexample :
    (45 : Nat) ∉ [99, 115, 100, 68, 105, 73, 117, 85, 120, 88, 111, 79, 102, 108, 76, 46, 42,
      0] ∧
    ¬ (48 ≤ (45 : Nat) ∧ (45 : Nat) ≤ 57) ∧
    chvprintfOut ⟨false, fun _ _ => [], 2147483648⟩ [37, 45, 97, 0] [] (fun _ => 0) = some ([97], 1) ∧
    chvprintfOut ⟨false, fun _ _ => [], 2147483648⟩ [37, 45, 97, 0] [] (fun _ => 0)
      ≠ some ([45, 97], 2) :=
  ⟨by decide, by decide, by decide, by decide⟩

/-! ## Every iteration consumes format bytes -/

theorem parseNum_length (sc : Bool) : ∀ (fmt : List Nat) (ap : List Arg) (w : Int) (c : Nat)
    (fmt1 : List Nat) (ap1 : List Arg) (w1 : Int),
    parseNum sc fmt ap w = some (c, fmt1, ap1, w1) → fmt1.length < fmt.length := by
  intro fmt
  induction fmt with
  | nil => intro ap w c fmt1 ap1 w1 h; simp [parseNum] at h
  | cons b bs ih =>
    intro ap w c fmt1 ap1 w1 h
    by_cases hd : 48 ≤ b ∧ b ≤ 57
    · simp only [parseNum, hd, and_self, if_true] at h
      have := ih _ _ _ _ _ _ h
      rw [List.length_cons]
      omega
    · by_cases h42 : b = 42
      · cases ap with
        | nil => simp [parseNum, h42] at h
        | cons a ap2 =>
          cases a with
          | int v =>
            simp only [parseNum, hd, if_false, h42, if_true] at h
            have := ih _ _ _ _ _ _ h
            rw [List.length_cons]
            omega
          | str s => simp [parseNum, h42] at h
          | flt s => simp [parseNum, h42] at h
      · simp only [parseNum, hd, if_false, h42, Option.some.injEq, Prod.mk.injEq] at h
        rw [← h.2.1, List.length_cons]
        omega

theorem longModifier_length (c : Nat) (fmt : List Nat) (c1 : Nat) (il : Bool) (fmt1 : List Nat)
    (h : longModifier c fmt = some (c1, il, fmt1)) : fmt1.length ≤ fmt.length := by
  unfold longModifier at h
  split at h
  · cases fmt with
    | nil => simp at h
    | cons d fmt2 =>
      simp only at h
      split at h
      · simp only [Option.some.injEq, Prod.mk.injEq] at h
        rw [← h.2.2, List.length_cons]
        omega
      · simp only [Option.some.injEq, Prod.mk.injEq] at h
        rw [← h.2.2]
  · simp only [Option.some.injEq, Prod.mk.injEq] at h
    rw [← h.2.2]

theorem afterFlags_length (T : Platform) (la : Bool) (filler : Nat) (fmt : List Nat)
    (ap : List Arg) (tmpbuf : Mem) (out fmt1 : List Nat) (ap1 : List Arg) (tmpbuf1 : Mem)
    (h : afterFlags T la filler fmt ap tmpbuf = some (out, fmt1, ap1, tmpbuf1)) :
    fmt1.length < fmt.length := by
  unfold afterFlags at h
  cases h1 : parseNum T.signedChar fmt ap 0 with
  | none => rw [h1] at h; simp at h
  | some r1 =>
    obtain ⟨c, fmt4, ap2, width⟩ := r1
    rw [h1] at h
    simp only at h
    have l1 := parseNum_length _ _ _ _ _ _ _ _ h1
    cases h2 : (if c = 46 then parseNum T.signedChar fmt4 ap2 0 else some (c, fmt4, ap2, 0)) with
    | none => rw [h2] at h; simp at h
    | some r2 =>
      obtain ⟨c2, fmt5, ap3, precision⟩ := r2
      rw [h2] at h
      simp only at h
      have l2 : fmt5.length ≤ fmt4.length := by
        split at h2
        · exact Nat.le_of_lt (parseNum_length _ _ _ _ _ _ _ _ h2)
        · simp only [Option.some.injEq, Prod.mk.injEq] at h2
          rw [← h2.2.1]
      cases h3 : longModifier c2 fmt5 with
      | none => rw [h3] at h; simp at h
      | some r3 =>
        obtain ⟨c3, il, fmt6⟩ := r3
        rw [h3] at h
        simp only at h
        have l3 := longModifier_length _ _ _ _ _ h3
        cases h4 : conversion T c3 il filler width precision ap3 tmpbuf with
        | none => rw [h4] at h; simp at h
        | some t =>
          rw [h4] at h
          simp only [Option.some.injEq, Prod.mk.injEq] at h
          rw [← h.2.1]
          omega

theorem directive_length (T : Platform) (fmt : List Nat) (ap : List Arg) (tmpbuf : Mem)
    (out fmt1 : List Nat) (ap1 : List Arg) (tmpbuf1 : Mem)
    (h : directive T fmt ap tmpbuf = some (out, fmt1, ap1, tmpbuf1)) :
    fmt1.length < fmt.length := by
  unfold directive at h
  cases fmt with
  | nil => simp at h
  | cons c0 fmt0 =>
    simp only at h
    by_cases h45 : c0 = 45
    · simp only [h45, if_true] at h
      cases fmt0 with
      | nil => simp at h
      | cons c1 fmt2 =>
        simp only at h
        have := afterFlags_length _ _ _ _ _ _ _ _ _ _ h
        by_cases h48 : c1 = 48
        · simp only [h48, if_true] at this
          simp only [List.length_cons]
          omega
        · simp only [h48, if_false, List.length_cons] at this
          simp only [List.length_cons]
          omega
    · simp only [h45, if_false] at h
      have := afterFlags_length _ _ _ _ _ _ _ _ _ _ h
      by_cases h48 : c0 = 48
      · simp only [h48, if_true] at this
        simp only [List.length_cons]
        omega
      · simp only [h48, if_false, List.length_cons] at this
        simp only [List.length_cons]
        omega

/-- More iterations than the format has bytes are never needed: the result of the
loop does not depend on the bound beyond that. -/
theorem chvprintfLoop_fuel {σ : Type} (T : Platform) (put : σ → Nat → σ × Int) :
    ∀ (f1 f2 : Nat) (chp : σ) (fmt : List Nat) (ap : List Arg) (tmpbuf : Mem) (n : Int),
    fmt.length < f1 → fmt.length < f2 →
    chvprintfLoop T put f1 chp fmt ap tmpbuf n = chvprintfLoop T put f2 chp fmt ap tmpbuf n := by
  intro f1
  induction f1 with
  | zero => intro f2 chp fmt ap tmpbuf n h1; omega
  | succ f1 ih =>
    intro f2 chp fmt ap tmpbuf n h1 h2
    cases f2 with
    | zero => omega
    | succ f2 =>
      cases fmt with
      | nil => simp [chvprintfLoop]
      | cons c fmt1 =>
        rw [List.length_cons] at h1 h2
        by_cases h0 : c = 0
        · subst h0
          rw [chvprintfLoop_end, chvprintfLoop_end]
        · by_cases h37 : c = 37
          · subst h37
            cases hd : directive T fmt1 ap tmpbuf with
            | none => simp [chvprintfLoop, hd]
            | some r =>
              obtain ⟨out, fmt2, ap1, tmpbuf1⟩ := r
              have hl := directive_length _ _ _ _ _ _ _ _ hd
              rw [chvprintfLoop_directive T put f1 chp fmt1 fmt2 ap ap1 tmpbuf tmpbuf1 out n hd,
                chvprintfLoop_directive T put f2 chp fmt1 fmt2 ap ap1 tmpbuf tmpbuf1 out n hd]
              exact ih _ _ _ _ _ _ (by omega) (by omega)
          · rw [chvprintfLoop_literal _ _ _ _ _ _ _ _ _ h0 h37,
              chvprintfLoop_literal _ _ _ _ _ _ _ _ _ h0 h37]
            exact ih _ _ _ _ _ _ (by omega) (by omega)

/-- Two formats that start with directives of the same effect and go on alike give
the same call. -/
theorem chvprintf_directive_congr {σ : Type} (T : Platform) (put : σ → Nat → σ × Int) (chp : σ)
    (body1 body2 : List Nat) (ap1 ap2 : List Arg) (tmpbuf1 tmpbuf2 : Mem)
    (r : List Nat × List Nat × List Arg × Mem)
    (h1 : directive T body1 ap1 tmpbuf1 = some r)
    (h2 : directive T body2 ap2 tmpbuf2 = some r) :
    chvprintf T put chp (37 :: body1) ap1 tmpbuf1
      = chvprintf T put chp (37 :: body2) ap2 tmpbuf2 := by
  obtain ⟨out, fmt2, ap3, tmpbuf3⟩ := r
  unfold chvprintf
  have l1 := directive_length _ _ _ _ _ _ _ _ h1
  have l2 := directive_length _ _ _ _ _ _ _ _ h2
  rw [List.length_cons, List.length_cons,
    chvprintfLoop_directive T put _ chp body1 fmt2 ap1 ap3 tmpbuf1 tmpbuf3 out 0 h1,
    chvprintfLoop_directive T put _ chp body2 fmt2 ap2 ap3 tmpbuf2 tmpbuf3 out 0 h2]
  exact chvprintfLoop_fuel T put _ _ _ _ _ _ _ (by omega) (by omega)

/-! ## C13: the zero flag with the conversions `c` and `s` -/

theorem toS32_range (a : Int) : -2147483648 ≤ toS32 a ∧ toS32 a ≤ 2147483647 := by
  unfold toS32
  omega

/-- With the filler `' '` and no left alignment the padding is a run of spaces in
front of the token, whatever the width. -/
theorem padAndEmit_space (src : Mem) (s p w : Int) :
    ∃ k, padAndEmit src s p 32 w false
      = List.replicate k 32 ++ readBytes src s (toS32 (p - s)).toNat := by
  unfold padAndEmit
  have h48 : ¬ (src s = 45 ∧ (32 : Nat) = 48) := by omega
  simp only [if_true, h48, if_false]
  generalize toS32 (p - s) = i
  have hr := toS32_range (w - i)
  generalize toS32 (w - i) = w1 at hr
  by_cases hw1 : w1 < 0
  · simp only [hw1, if_true]
    have e : toS32 (-(0 : Int)) = 0 := by unfold toS32; omega
    rw [e]
    simp only [lt_irrefl, if_false]
    exact ⟨0, by simp⟩
  · simp only [hw1, if_false]
    rw [toS32_of_range (-w1) (by omega) (by omega)]
    by_cases h2 : -w1 < 0
    · simp only [h2, if_true]
      exact ⟨_, rfl⟩
    · simp only [h2, if_false]
      refine ⟨0, ?_⟩
      have h4 : (-w1).toNat = 0 := by omega
      rw [h4]
      simp

theorem afterFlags_char_str (T : Platform) (la : Bool) (filler : Nat) (fmt : List Nat)
    (ap ap1 : List Arg) (tmpbuf : Mem) (cv : Nat) (rest : List Nat) (w : Int)
    (hcv : cv = 99 ∨ cv = 115)
    (hp : parseNum T.signedChar fmt ap 0 = some (cv, rest, ap1, w)) :
    afterFlags T la filler fmt ap tmpbuf
      = match conversion T cv false 32 w 0 ap1 tmpbuf with
        | none => none
        | some t => some (padAndEmit t.src t.s t.p 32 w la, rest, t.ap, t.tmpbuf) := by
  unfold afterFlags
  rw [hp]
  rcases hcv with h | h
  · subst h
    simp only [show ¬ ((99 : Nat) = 46) by decide, if_false, longModifier,
      show ¬ ((99 : Nat) = 108 ∨ (99 : Nat) = 76) by decide,
      show decide (65 ≤ 99 ∧ 99 ≤ 90) = false by decide, conversion, if_true]
    cases ap1 with
    | nil => rfl
    | cons a ap2 => cases a <;> rfl
  · subst h
    simp only [show ¬ ((115 : Nat) = 46) by decide, if_false, longModifier,
      show ¬ ((115 : Nat) = 108 ∨ (115 : Nat) = 76) by decide,
      show decide (65 ≤ 115 ∧ 115 ≤ 90) = false by decide, conversion, if_true,
      show ¬ ((115 : Nat) = 99) by decide]
    cases ap1 with
    | nil => rfl
    | cons a ap2 => cases a <;> rfl

theorem directive_zero_char_str (T : Platform) (W cv : Nat) (rest : List Nat) (ap : List Arg)
    (tmpbuf : Mem) (hcv : cv = 99 ∨ cv = 115) :
    directive T (48 :: (decimal W ++ cv :: rest)) ap tmpbuf
      = directive T (decimal W ++ cv :: rest) ap tmpbuf ∧
    directive T (decimal W ++ cv :: rest) ap tmpbuf
      = match conversion T cv false 32 (toS32 W) 0 ap tmpbuf with
        | none => none
        | some t => some (padAndEmit t.src t.s t.p 32 (toS32 W) false, rest, t.ap,
            t.tmpbuf) := by
  have hd : ¬ (48 ≤ cv ∧ cv ≤ 57) := by omega
  have h42 : cv ≠ 42 := by omega
  have hp := parseNum_decimal T.signedChar W cv rest ap hd h42
  have hl : directive T (48 :: (decimal W ++ cv :: rest)) ap tmpbuf
      = match conversion T cv false 32 (toS32 W) 0 ap tmpbuf with
        | none => none
        | some t => some (padAndEmit t.src t.s t.p 32 (toS32 W) false, rest, t.ap,
            t.tmpbuf) := by
    rw [directive_zero]
    exact afterFlags_char_str T false 48 _ ap ap tmpbuf cv rest _ hcv hp
  have hr : directive T (decimal W ++ cv :: rest) ap tmpbuf
      = match conversion T cv false 32 (toS32 W) 0 ap tmpbuf with
        | none => none
        | some t => some (padAndEmit t.src t.s t.p 32 (toS32 W) false, rest, t.ap,
            t.tmpbuf) := by
    by_cases hW : W = 0
    · subst hW
      have e : decimal 0 = [48] := by norm_num [decimal, to_radix_digits, digitChar]
      rw [e] at hp ⊢
      have hp2 : parseNum T.signedChar (cv :: rest) ap 0
          = some (cv, rest, ap, toS32 ((0 : Nat) : Int)) := by
        have e0 : toS32 ((0 : Nat) : Int) = 0 := by unfold toS32; omega
        rw [e0]
        simp only [parseNum, hd, h42, if_false]
      show directive T (48 :: cv :: rest) ap tmpbuf = _
      rw [directive_zero]
      exact afterFlags_char_str T false 48 _ ap ap tmpbuf cv rest _ hcv hp2
    · obtain ⟨c, cs, hc, hc48, hc45⟩ := decimal_cons W hW
      have hdn : directive T (decimal W ++ cv :: rest) ap tmpbuf
          = afterFlags T false 32 (decimal W ++ cv :: rest) ap tmpbuf := by
        rw [hc]
        exact directive_no_flags T c _ ap tmpbuf hc45 hc48
      rw [hdn]
      exact afterFlags_char_str T false 32 _ ap ap tmpbuf cv rest _ hcv hp
  exact ⟨hl.trans hr.symm, hr⟩

theorem chvprintf_directive_eq {σ : Type} (T : Platform) (put : σ → Nat → σ × Int) (chp : σ)
    (body1 body2 : List Nat) (ap1 ap2 : List Arg) (tmpbuf1 tmpbuf2 : Mem)
    (h : directive T body1 ap1 tmpbuf1 = directive T body2 ap2 tmpbuf2) :
    chvprintf T put chp (37 :: body1) ap1 tmpbuf1
      = chvprintf T put chp (37 :: body2) ap2 tmpbuf2 := by
  cases h2 : directive T body2 ap2 tmpbuf2 with
  | none =>
    rw [h2] at h
    unfold chvprintf
    simp [chvprintfLoop, h, h2]
  | some r =>
    rw [h2] at h
    exact chvprintf_directive_congr T put chp _ _ _ _ _ _ r h h2

theorem directive_char (T : Platform) (W : Nat) (rest : List Nat) (v : Int) (ap : List Arg)
    (tmpbuf : Mem) :
    ∃ k, directive T (decimal W ++ 99 :: rest) (Arg.int v :: ap) tmpbuf
        = some (List.replicate k 32 ++ [toU32 v % 256], rest, ap,
            store tmpbuf 0 (toU32 v % 256)) ∧
      (W ≤ 2147483647 → k = W - 1) := by
  have h := (directive_zero_char_str T W 99 rest (Arg.int v :: ap) tmpbuf (Or.inl rfl)).2
  have hc : conversion T 99 false 32 (toS32 W) 0 (Arg.int v :: ap) tmpbuf
      = some ⟨store tmpbuf 0 (toU32 v % 256), 0, 1, 32, ap, store tmpbuf 0 (toU32 v % 256)⟩ := by
    unfold conversion
    simp
  rw [hc] at h
  simp only at h
  obtain ⟨k, hk⟩ := padAndEmit_space (store tmpbuf 0 (toU32 v % 256)) 0 1 (toS32 W)
  have e1 : (toS32 ((1 : Int) - 0)).toNat = 1 := by decide
  rw [e1] at hk
  have e2 : readBytes (store tmpbuf 0 (toU32 v % 256)) 0 1 = [toU32 v % 256] := by
    simp [readBytes, store_same]
  rw [e2] at hk
  refine ⟨k, by rw [h, hk], ?_⟩
  intro hW
  have hp := padAndEmit_padded (store tmpbuf 0 (toU32 v % 256)) [toU32 v % 256] W 32 false e2
    (by simp) (by omega) (by simp)
  rw [toS32_of_range _ (by omega) (by exact_mod_cast hW)] at hk
  simp only [List.length_singleton, Nat.cast_one] at hp
  rw [hp] at hk
  have hl := congrArg List.length hk
  rw [padded_length, List.length_append, List.length_replicate] at hl
  simp only [List.length_singleton] at hl
  omega

theorem directive_str (T : Platform) (W : Nat) (rest : List Nat) (a : Option (List Nat))
    (ap : List Arg) (tmpbuf : Mem) :
    ∃ k, directive T (decimal W ++ 115 :: rest) (Arg.str a :: ap) tmpbuf
        = some (List.replicate k 32 ++ strToken a 0, rest, ap, tmpbuf) ∧
      (W ≤ 2147483647 → k = W - (strToken a 0).length) := by
  have h := (directive_zero_char_str T W 115 rest (Arg.str a :: ap) tmpbuf (Or.inr rfl)).2
  obtain ⟨hc, hread⟩ := conversion_str T false 32 (toS32 W) 0 a ap tmpbuf (by omega)
  rw [Nat.cast_zero] at hc
  rw [hc] at h
  simp only at h
  obtain ⟨k, hk⟩ := padAndEmit_space (strMem (strBytes a)) 0 ((strToken a 0).length : Int)
    (toS32 W)
  have hlen := strToken_length_le a 0 (by omega)
  have e1 : (toS32 (((strToken a 0).length : Int) - 0)).toNat = (strToken a 0).length := by
    rw [toS32_of_range _ (by omega) (by omega)]
    omega
  rw [e1, hread] at hk
  refine ⟨k, by rw [h, hk], ?_⟩
  intro hW
  have hp := padAndEmit_padded (strMem (strBytes a)) (strToken a 0) W 32 false hread
    (by omega) (by omega) (fun _ => by omega)
  rw [toS32_of_range _ (by omega) (by exact_mod_cast hW)] at hk
  rw [hp] at hk
  have hl := congrArg List.length hk
  rw [padded_length, List.length_append, List.length_replicate] at hl
  omega

/-- C13: for every width `W`, `%0Wc` and `%0Ws` have the effect of `%Wc` and `%Ws`
(same bytes emitted, same arguments consumed, same call result on every sink);
`c` emits the low byte of its integer argument and `s` the string, each behind a
run of spaces only, `W - 1` resp. `W - len` of them when `W` fits an `int`. -/
theorem chvprintf_zero_fill_char_str {σ : Type} (T : Platform) (put : σ → Nat → σ × Int)
    (chp : σ) (W cv : Nat) (rest : List Nat) (ap : List Arg) (tmpbuf : Mem)
    (hcv : cv = 99 ∨ cv = 115) :
    directive T (48 :: (decimal W ++ cv :: rest)) ap tmpbuf
      = directive T (decimal W ++ cv :: rest) ap tmpbuf ∧
    chvprintf T put chp (37 :: 48 :: (decimal W ++ cv :: rest)) ap tmpbuf
      = chvprintf T put chp (37 :: (decimal W ++ cv :: rest)) ap tmpbuf ∧
    (∀ v : Int, ∃ k, directive T (48 :: (decimal W ++ 99 :: rest)) (Arg.int v :: ap) tmpbuf
        = some (List.replicate k 32 ++ [toU32 v % 256], rest, ap,
            store tmpbuf 0 (toU32 v % 256)) ∧
      (W ≤ 2147483647 → k = W - 1)) ∧
    (∀ a : Option (List Nat), ∃ k,
      directive T (48 :: (decimal W ++ 115 :: rest)) (Arg.str a :: ap) tmpbuf
        = some (List.replicate k 32 ++ strToken a 0, rest, ap, tmpbuf) ∧
      (W ≤ 2147483647 → k = W - (strToken a 0).length)) := by
  have h1 := (directive_zero_char_str T W cv rest ap tmpbuf hcv).1
  refine ⟨h1, chvprintf_directive_eq T put chp _ _ _ _ _ _ h1, ?_, ?_⟩
  · intro v
    obtain ⟨k, hk, hk2⟩ := directive_char T W rest v ap tmpbuf
    refine ⟨k, ?_, hk2⟩
    rw [(directive_zero_char_str T W 99 rest _ tmpbuf (Or.inl rfl)).1, hk]
  · intro a
    obtain ⟨k, hk, hk2⟩ := directive_str T W rest a ap tmpbuf
    refine ⟨k, ?_, hk2⟩
    rw [(directive_zero_char_str T W 115 rest _ tmpbuf (Or.inr rfl)).1, hk]

/-- C13 at `"%03c"` with the argument 321: two spaces and the byte 65, as `"%3c"`. -/
theorem chvprintf_zero_fill_char_str_witness :
    ((99 : Nat) = 99 ∨ (99 : Nat) = 115) ∧
    (directive ⟨false, fun _ _ => [], 2147483648⟩ (48 :: (decimal 3 ++ 99 :: [0])) [Arg.int 321]
        (fun _ => 0)
      = directive ⟨false, fun _ _ => [], 2147483648⟩ (decimal 3 ++ 99 :: [0]) [Arg.int 321] (fun _ => 0) ∧
    chvprintf ⟨false, fun _ _ => [], 2147483648⟩ listPut [] (37 :: 48 :: (decimal 3 ++ 99 :: [0]))
        [Arg.int 321] (fun _ => 0)
      = chvprintf ⟨false, fun _ _ => [], 2147483648⟩ listPut [] (37 :: (decimal 3 ++ 99 :: [0]))
        [Arg.int 321] (fun _ => 0) ∧
    (∀ v : Int, ∃ k, directive ⟨false, fun _ _ => [], 2147483648⟩ (48 :: (decimal 3 ++ 99 :: [0]))
          (Arg.int v :: [Arg.int 321]) (fun _ => 0)
        = some (List.replicate k 32 ++ [toU32 v % 256], [0], [Arg.int 321],
            store (fun _ => 0) 0 (toU32 v % 256)) ∧
      (3 ≤ 2147483647 → k = 3 - 1)) ∧
    (∀ a : Option (List Nat), ∃ k,
      directive ⟨false, fun _ _ => [], 2147483648⟩ (48 :: (decimal 3 ++ 115 :: [0]))
          (Arg.str a :: [Arg.int 321]) (fun _ => 0)
        = some (List.replicate k 32 ++ strToken a 0, [0], [Arg.int 321], fun _ => 0) ∧
      (3 ≤ 2147483647 → k = 3 - (strToken a 0).length))) ∧
    chvprintfOut ⟨false, fun _ _ => [], 2147483648⟩ [37, 48, 51, 99, 0] [Arg.int 321] (fun _ => 0)
      = some ([32, 32, 65], 3) ∧
    chvprintfOut ⟨false, fun _ _ => [], 2147483648⟩ [37, 51, 99, 0] [Arg.int 321] (fun _ => 0)
      = some ([32, 32, 65], 3) :=
  ⟨by decide,
    chvprintf_zero_fill_char_str ⟨false, fun _ _ => [], 2147483648⟩ listPut [] 3 99 [0] [Arg.int 321]
      (fun _ => 0) (Or.inl rfl),
    by decide, by decide⟩

/-! ## C14, C15: width and precision taken from the arguments -/

theorem toChar_small (sc : Bool) (w : Nat) (hw : w ≤ 127) : toChar sc (w : Int) = (w : Int) := by
  unfold toChar
  have h : ¬ ((w : Int) % 256 ≥ 128) := by omega
  simp only [h, and_false, if_false]
  omega

theorem parseNum_star (sc : Bool) (w c : Nat) (rest : List Nat) (ap : List Arg)
    (hw : w ≤ 127) (hc : ¬ (48 ≤ c ∧ c ≤ 57)) (hc2 : c ≠ 42) :
    parseNum sc (42 :: c :: rest) (Arg.int (w : Int) :: ap) 0 = some (c, rest, ap, (w : Int)) := by
  have e : toS32 ((0 : Int) * 10 + toChar sc (w : Int)) = (w : Int) := by
    rw [toChar_small sc w hw, Int.zero_mul, Int.zero_add]
    exact toS32_of_range _ (by omega) (by omega)
  simp only [parseNum, show ¬ (48 ≤ (42 : Nat) ∧ (42 : Nat) ≤ 57) by decide, if_false, if_true,
    e, hc, hc2]

theorem chvprintfOut_inline_width (T : Platform) (w : Nat) (v : Int) (rest : List Nat)
    (ap : List Arg) (tmpbuf : Mem) (hw0 : w ≠ 0) (hw : w < 2147483648)
    (hv : -2147483647 ≤ v ∧ v ≤ 2147483647) :
    chvprintfOut T (37 :: (decimal w ++ 100 :: 0 :: rest)) (Arg.int v :: ap) tmpbuf
      = some (padded (signedDecimal v) w 32 false,
          ((max w (signedDecimal v).length : Nat) : Int)) := by
  have hv2 : -2147483648 ≤ v ∧ v ≤ 2147483647 := ⟨by omega, hv.2⟩
  rw [← signedToken_eq T v (by omega)]
  apply chvprintfOut_signed_of T _ rest v ap tmpbuf w 32 false hw hv2
  obtain ⟨tb, hd⟩ := afterFlags_signed T false 32 (decimal w) w false 100 rest v ap tmpbuf
    (Or.inl rfl) hw (Or.inr rfl) hv2
  refine ⟨tb, ?_⟩
  rw [← hd]
  obtain ⟨c, cs, hc, hc48, hc45⟩ := decimal_cons w hw0
  rw [hc]
  exact directive_no_flags T c _ _ tmpbuf hc45 hc48

/-- C14 fails on the code at `w = 256`: the `*` argument goes through the `char`
variable `c` (line 215), so `"%*d"` applied to (256, 5) is formatted with width 0
and gives `"5"`, count 1, with signed as with unsigned `char`, while `"%256d"`
applied to 5 gives 255 spaces and `"5"`, count 256.  With a signed `char` the
same happens from `w = 128` on. -/
theorem chvprintf_star_width_char :
    chvprintfOut ⟨false, fun _ _ => [], 2147483648⟩ [37, 42, 100, 0] [Arg.int 256, Arg.int 5] (fun _ => 0)
      = some ([53], 1) ∧
    chvprintfOut ⟨true, fun _ _ => [], 2147483648⟩ [37, 42, 100, 0] [Arg.int 256, Arg.int 5] (fun _ => 0)
      = some ([53], 1) ∧
    chvprintfOut ⟨false, fun _ _ => [], 2147483648⟩ [37, 50, 53, 54, 100, 0] [Arg.int 5] (fun _ => 0)
      = some (List.replicate 255 32 ++ [53], 256) ∧
    chvprintfOut ⟨true, fun _ _ => [], 2147483648⟩ [37, 42, 100, 0] [Arg.int 128, Arg.int 5] (fun _ => 0)
      = some ([53], 1) := by
  refine ⟨by decide, by decide, ?_, by decide⟩
  have h := chvprintfOut_inline_width ⟨false, fun _ _ => [], 2147483648⟩ 256 5 [] [] (fun _ => 0)
    (by decide) (by decide) (by decide)
  have hdec : decimal 256 = [50, 53, 54] := by norm_num [decimal, to_radix_digits, digitChar]
  have hsd : signedDecimal 5 = [53] := by
    norm_num [signedDecimal, to_radix_digits, digitChar]
  rw [hdec, hsd] at h
  rw [show ([37, 50, 53, 54, 100, 0] : List Nat) = 37 :: ([50, 53, 54] ++ 100 :: 0 :: []) from rfl,
    h]
  have hp : padded [53] 256 32 false = List.replicate 255 32 ++ [53] := by
    unfold padded
    rw [if_neg (by decide), if_neg (by decide), if_neg (by decide)]
    rfl
  have hm : (((max 256 ([53] : List Nat).length : Nat)) : Int) = 256 := by decide
  rw [hp, hm]

theorem afterFlags_str_dot (T : Platform) (la : Bool) (filler : Nat) (fmt fmt4 rest : List Nat)
    (w P : Nat) (a : Option (List Nat)) (ap ap1 ap2 : List Arg) (tmpbuf : Mem)
    (hw : w < 2147483648) (hP : P ≤ 2147483647)
    (hp1 : parseNum T.signedChar fmt ap 0 = some (46, fmt4, ap1, (w : Int)))
    (hp2 : parseNum T.signedChar fmt4 ap1 0 = some (115, rest, Arg.str a :: ap2, (P : Int))) :
    afterFlags T la filler fmt ap tmpbuf
      = some (padded (strToken a P) w 32 la, rest, ap2, tmpbuf) := by
  obtain ⟨hconv, hread⟩ := conversion_str T false filler (w : Int) P a ap2 tmpbuf hP
  have hlen := strToken_length_le a P hP
  have hpad : padAndEmit (strMem (strBytes a)) 0 ((strToken a P).length : Int) 32 (w : Int) la
      = padded (strToken a P) w 32 la :=
    padAndEmit_padded _ (strToken a P) w 32 la hread (by omega) hw (fun _ => by omega)
  have hlm : longModifier 115 rest = some (115, false, rest) := by
    unfold longModifier
    simp
  unfold afterFlags
  simp only [hp1, if_true, hp2, hlm, hconv, hpad]

/-- C15: for `0 <= w, p <= 127` the directive `%*.*s` on the arguments
`[w, p, s, rest...]` emits what the directive with `w` and `p` written inline
emits on `[s, rest...]`, the string cut at `p` bytes (at 32767 when `p` is 0) and
padded to `w`; each leaves exactly `rest` for the following directives, and the
two calls give the same result on every sink. -/
theorem chvprintf_star_arguments_order {σ : Type} (T : Platform) (put : σ → Nat → σ × Int)
    (chp : σ) (w p : Nat) (a : Option (List Nat)) (apr : List Arg) (rest : List Nat)
    (tmpbuf : Mem) (hw : w ≤ 127) (hp : p ≤ 127) :
    directive T (42 :: 46 :: 42 :: 115 :: rest)
        (Arg.int (w : Int) :: Arg.int (p : Int) :: Arg.str a :: apr) tmpbuf
      = some (padded (strToken a p) w 32 false, rest, apr, tmpbuf) ∧
    directive T (decimal w ++ 46 :: (decimal p ++ 115 :: rest)) (Arg.str a :: apr) tmpbuf
      = some (padded (strToken a p) w 32 false, rest, apr, tmpbuf) ∧
    chvprintf T put chp (37 :: 42 :: 46 :: 42 :: 115 :: rest)
        (Arg.int (w : Int) :: Arg.int (p : Int) :: Arg.str a :: apr) tmpbuf
      = chvprintf T put chp (37 :: (decimal w ++ 46 :: (decimal p ++ 115 :: rest)))
        (Arg.str a :: apr) tmpbuf := by
  have h115d : ¬ (48 ≤ (115 : Nat) ∧ (115 : Nat) ≤ 57) := by decide
  have h46d : ¬ (48 ≤ (46 : Nat) ∧ (46 : Nat) ≤ 57) := by decide
  have h1 : directive T (42 :: 46 :: 42 :: 115 :: rest)
        (Arg.int (w : Int) :: Arg.int (p : Int) :: Arg.str a :: apr) tmpbuf
      = some (padded (strToken a p) w 32 false, rest, apr, tmpbuf) := by
    rw [directive_no_flags T 42 _ _ _ (by decide) (by decide)]
    exact afterFlags_str_dot T false 32 _ _ rest w p a _ _ apr tmpbuf (by omega) (by omega)
      (parseNum_star T.signedChar w 46 _ _ hw h46d (by decide))
      (parseNum_star T.signedChar p 115 _ _ hp h115d (by decide))
  have hp2 := parseNum_width T.signedChar (decimal p) p 115 rest (Arg.str a :: apr) h115d
    (by decide) (by omega) (Or.inr rfl)
  have h2 : directive T (decimal w ++ 46 :: (decimal p ++ 115 :: rest)) (Arg.str a :: apr)
        tmpbuf
      = some (padded (strToken a p) w 32 false, rest, apr, tmpbuf) := by
    by_cases hw0 : w = 0
    · subst hw0
      have e : decimal 0 = [48] := by norm_num [decimal, to_radix_digits, digitChar]
      rw [e]
      show directive T (48 :: 46 :: (decimal p ++ 115 :: rest)) (Arg.str a :: apr) tmpbuf = _
      rw [directive_zero]
      exact afterFlags_str_dot T false 48 _ _ rest 0 p a _ _ apr tmpbuf (by omega) (by omega)
        (parseNum_width T.signedChar [] 0 46 _ _ h46d (by decide) (by omega)
          (Or.inl ⟨rfl, rfl⟩))
        hp2
    · obtain ⟨c, cs, hc, hc48, hc45⟩ := decimal_cons w hw0
      have hdn : directive T (decimal w ++ 46 :: (decimal p ++ 115 :: rest)) (Arg.str a :: apr)
          tmpbuf
          = afterFlags T false 32 (decimal w ++ 46 :: (decimal p ++ 115 :: rest))
            (Arg.str a :: apr) tmpbuf := by
        rw [hc]
        exact directive_no_flags T c _ _ tmpbuf hc45 hc48
      rw [hdn]
      exact afterFlags_str_dot T false 32 _ _ rest w p a _ _ apr tmpbuf (by omega) (by omega)
        (parseNum_width T.signedChar (decimal w) w 46 _ _ h46d (by decide) (by omega)
          (Or.inr rfl))
        hp2
  exact ⟨h1, h2, chvprintf_directive_congr T put chp _ _ _ _ _ _ _ h1 h2⟩

/-- C15 at `"%*.*s|%d"` with the arguments `[5, 2, "hello", 7]`: the output is
`"   he|7"`, as for `"%5.2s|%d"` on `["hello", 7]`. -/
theorem chvprintf_star_arguments_order_witness :
    (5 : Nat) ≤ 127 ∧ (2 : Nat) ≤ 127 ∧
    (directive ⟨false, fun _ _ => [], 2147483648⟩ (42 :: 46 :: 42 :: 115 :: [124, 37, 100, 0])
        (Arg.int ((5 : Nat) : Int) :: Arg.int ((2 : Nat) : Int)
          :: Arg.str (some [104, 101, 108, 108, 111]) :: [Arg.int 7]) (fun _ => 0)
      = some (padded (strToken (some [104, 101, 108, 108, 111]) 2) 5 32 false,
          [124, 37, 100, 0], [Arg.int 7], fun _ => 0) ∧
    directive ⟨false, fun _ _ => [], 2147483648⟩ (decimal 5 ++ 46 :: (decimal 2 ++ 115 :: [124, 37, 100, 0]))
        (Arg.str (some [104, 101, 108, 108, 111]) :: [Arg.int 7]) (fun _ => 0)
      = some (padded (strToken (some [104, 101, 108, 108, 111]) 2) 5 32 false,
          [124, 37, 100, 0], [Arg.int 7], fun _ => 0) ∧
    chvprintf ⟨false, fun _ _ => [], 2147483648⟩ listPut []
        (37 :: 42 :: 46 :: 42 :: 115 :: [124, 37, 100, 0])
        (Arg.int ((5 : Nat) : Int) :: Arg.int ((2 : Nat) : Int)
          :: Arg.str (some [104, 101, 108, 108, 111]) :: [Arg.int 7]) (fun _ => 0)
      = chvprintf ⟨false, fun _ _ => [], 2147483648⟩ listPut []
        (37 :: (decimal 5 ++ 46 :: (decimal 2 ++ 115 :: [124, 37, 100, 0])))
        (Arg.str (some [104, 101, 108, 108, 111]) :: [Arg.int 7]) (fun _ => 0)) ∧
    chvprintfOut ⟨false, fun _ _ => [], 2147483648⟩ [37, 42, 46, 42, 115, 124, 37, 100, 0]
        [Arg.int 5, Arg.int 2, Arg.str (some [104, 101, 108, 108, 111]), Arg.int 7]
        (fun _ => 0)
      = some ([32, 32, 32, 104, 101, 124, 55], 7) ∧
    chvprintfOut ⟨false, fun _ _ => [], 2147483648⟩ [37, 53, 46, 50, 115, 124, 37, 100, 0]
        [Arg.str (some [104, 101, 108, 108, 111]), Arg.int 7] (fun _ => 0)
      = some ([32, 32, 32, 104, 101, 124, 55], 7) :=
  ⟨by decide, by decide,
    chvprintf_star_arguments_order ⟨false, fun _ _ => [], 2147483648⟩ listPut [] 5 2
      (some [104, 101, 108, 108, 111]) [Arg.int 7] [124, 37, 100, 0] (fun _ => 0)
      (by decide) (by decide),
    by decide, by decide⟩

/-! ## C16, C17: the control word of `ftoa` -/

theorem storeList_below (bs : List Nat) : ∀ (m : Mem) (p a : Int), a < p →
    storeList m p bs a = m a := by
  induction bs with
  | nil => intro m p a _; rfl
  | cons b bs ih =>
    intro m p a h
    rw [storeList, ih _ _ _ (by omega), store_other _ _ _ _ (by omega)]

theorem readBytes_storeList (bs : List Nat) : ∀ (m : Mem) (p : Int),
    readBytes (storeList m p bs) p bs.length = bs := by
  induction bs with
  | nil => intro m p; rfl
  | cons b bs ih =>
    intro m p
    rw [storeList, List.length_cons, readBytes, ih, storeList_below _ _ _ _ (by omega),
      store_same]

/-- The control word is `0x20060400` with the low byte of `precision` in its low 8
bits. -/
theorem ftoaControlWord_eq (precision : Nat) :
    ftoaControlWord precision = 537265152 + precision % 256 := by
  have h : ∀ r, r < 256 → 537265152 ||| r = 537265152 + r := by
    intro r hr
    have h1 := Nat.mul_add_lt_is_or (show r < 2 ^ 8 from hr) 2098692
    have h2 : 2 ^ 8 * 2098692 = 537265152 := by norm_num
    rw [h2] at h1
    exact h1.symm
  unfold ftoaControlWord
  have e : precision &&& 0xff = precision % 256 := Nat.and_pow_two_sub_one_eq_mod precision 8
  rw [e, Nat.shiftLeft_zero]
  exact h _ (Nat.mod_lt _ (by decide))

theorem toU32_natCast (P : Nat) (hP : P ≤ 2147483647) : toU32 (P : Int) = P := by
  unfold toU32
  omega

/-- Case `f` (lines 273-287): the token is the sign and the text of `qfp_float2str`
for the magnitude and the control word of the given precision. -/
theorem conversion_float (T : Platform) (il : Bool) (filler : Nat) (width : Int) (P : Nat)
    (bits : Nat) (ap : List Arg) (tmpbuf : Mem) (hP : P ≤ 2147483647) :
    ∃ m, conversion T 102 il filler width (P : Int) (Arg.flt bits :: ap) tmpbuf
        = some ⟨m, 0,
            ((((if floatIsNeg bits = true then [45] else []) ++
              T.qfp_float2str (if floatIsNeg bits = true then floatNeg bits else bits)
                (ftoaControlWord P)).length : Nat) : Int), filler, ap, m⟩ ∧
      readBytes m 0 ((if floatIsNeg bits = true then [45] else []) ++
          T.qfp_float2str (if floatIsNeg bits = true then floatNeg bits else bits)
            (ftoaControlWord P)).length
        = (if floatIsNeg bits = true then [45] else []) ++
          T.qfp_float2str (if floatIsNeg bits = true then floatNeg bits else bits)
            (ftoaControlWord P) := by
  unfold conversion
  simp only [show ¬ ((102 : Nat) = 99) by decide, show ¬ ((102 : Nat) = 115) by decide,
    show ¬ ((102 : Nat) = 68 ∨ (102 : Nat) = 100 ∨ (102 : Nat) = 73 ∨ (102 : Nat) = 105)
      by decide, if_false, if_true, toU32_natCast P hP, ftoa]
  cases hneg : floatIsNeg bits with
  | true =>
    simp only [if_true, List.singleton_append, List.length_cons]
    refine ⟨storeList (store tmpbuf 0 45) 1
      (T.qfp_float2str (floatNeg bits) (ftoaControlWord P)), ?_, ?_⟩
    · congr 2
      push_cast
      omega
    · rw [readBytes, storeList_below _ _ _ _ (by omega), store_same]
      have e : (0 : Int) + 1 = 1 := by omega
      rw [e, readBytes_storeList]
  | false =>
    simp only [Bool.false_eq_true, if_false, List.nil_append]
    refine ⟨storeList tmpbuf 0 (T.qfp_float2str bits (ftoaControlWord P)), ?_, ?_⟩
    · congr 2
      omega
    · exact readBytes_storeList _ _ _

theorem directive_float (T : Platform) (pd : List Nat) (P : Nat) (rest : List Nat) (bits : Nat)
    (ap : List Arg) (tmpbuf : Mem) (hP : P ≤ 2147483647)
    (hpd : (pd = [] ∧ P = 0) ∨ pd = 46 :: decimal P)
    (hlen : (T.qfp_float2str (if floatIsNeg bits = true then floatNeg bits else bits)
      (ftoaControlWord P)).length < 2147483647) :
    ∃ tb, directive T (pd ++ 102 :: rest) (Arg.flt bits :: ap) tmpbuf
      = some ((if floatIsNeg bits = true then [45] else []) ++
          T.qfp_float2str (if floatIsNeg bits = true then floatNeg bits else bits)
            (ftoaControlWord P), rest, ap, tb) := by
  obtain ⟨m, hconv, hread⟩ := conversion_float T false 32 0 P bits ap tmpbuf hP
  have htl : ((if floatIsNeg bits = true then [45] else []) ++
      T.qfp_float2str (if floatIsNeg bits = true then floatNeg bits else bits)
        (ftoaControlWord P)).length < 2147483648 := by
    rw [List.length_append]
    have h1 : (if floatIsNeg bits = true then [45] else ([] : List Nat)).length ≤ 1 := by
      split <;> simp
    omega
  generalize (if floatIsNeg bits = true then [45] else []) ++
      T.qfp_float2str (if floatIsNeg bits = true then floatNeg bits else bits)
        (ftoaControlWord P) = tok at hconv hread htl ⊢
  have hpad : padAndEmit m 0 (tok.length : Int) 32 ((0 : Nat) : Int) false = tok := by
    rw [padAndEmit_padded m tok 0 32 false hread htl (by omega) (fun _ => by omega),
      padded_zero_width]
  rw [Nat.cast_zero] at hpad
  have hlm : longModifier 102 rest = some (102, false, rest) := by
    unfold longModifier
    simp
  have h102d : ¬ (48 ≤ (102 : Nat) ∧ (102 : Nat) ≤ 57) := by decide
  refine ⟨m, ?_⟩
  rcases hpd with ⟨h1, h2⟩ | h
  · subst h1 h2
    rw [List.nil_append, directive_no_flags T 102 _ _ _ (by decide) (by decide)]
    have hp1 : parseNum T.signedChar (102 :: rest) (Arg.flt bits :: ap) 0
        = some (102, rest, Arg.flt bits :: ap, 0) := by
      simp only [parseNum, h102d, if_false, show ¬ ((102 : Nat) = 42) by decide]
    rw [Nat.cast_zero] at hconv
    unfold afterFlags
    simp only [hp1, show ¬ ((102 : Nat) = 46) by decide, if_false, hlm, hconv, hpad]
  · subst h
    rw [List.cons_append, directive_no_flags T 46 _ _ _ (by decide) (by decide)]
    have hp1 : parseNum T.signedChar (46 :: (decimal P ++ 102 :: rest)) (Arg.flt bits :: ap) 0
        = some (46, decimal P ++ 102 :: rest, Arg.flt bits :: ap, 0) := by
      simp only [parseNum, show ¬ (48 ≤ (46 : Nat) ∧ (46 : Nat) ≤ 57) by decide, if_false,
        show ¬ ((46 : Nat) = 42) by decide]
    have hp2 := parseNum_width T.signedChar (decimal P) P 102 rest (Arg.flt bits :: ap) h102d
      (by decide) (by omega) (Or.inr rfl)
    unfold afterFlags
    simp only [hp1, if_true, hp2, hlm, hconv, hpad]

/-- C16 (amended): a `%f` directive with no precision or with an inline precision `P`
(at most 2147483647) hands `qfp_float2str` the control word built from `P`, 0 when
none is given, and the low 8 bits of that word are `P` modulo 256: nothing puts
9 there by default and nothing clamps `P`. -/
theorem chvprintf_float_precision_field (T : Platform) (pd : List Nat) (P : Nat)
    (rest : List Nat) (bits : Nat) (ap : List Arg) (tmpbuf : Mem) (hP : P ≤ 2147483647)
    (hpd : (pd = [] ∧ P = 0) ∨ pd = 46 :: decimal P)
    (hlen : (T.qfp_float2str (if floatIsNeg bits = true then floatNeg bits else bits)
      (ftoaControlWord P)).length < 2147483647) :
    (∃ tb, directive T (pd ++ 102 :: rest) (Arg.flt bits :: ap) tmpbuf
      = some ((if floatIsNeg bits = true then [45] else []) ++
          T.qfp_float2str (if floatIsNeg bits = true then floatNeg bits else bits)
            (ftoaControlWord P), rest, ap, tb)) ∧
    ftoaControlWord P % 256 = P % 256 := by
  refine ⟨directive_float T pd P rest bits ap tmpbuf hP hpd hlen, ?_⟩
  rw [ftoaControlWord_eq]
  omega

/-- C16 (amended), at `"%f"` on 3.5 with a back-end that writes the low byte of its
control word: the byte written is 0. -/
theorem chvprintf_float_precision_field_witness :
    (0 : Nat) ≤ 2147483647 ∧
    ((([] : List Nat) = [] ∧ (0 : Nat) = 0) ∨ ([] : List Nat) = 46 :: decimal 0) ∧
    ((∃ tb, directive ⟨false, fun _ fmt => [fmt % 256], 2147483648⟩ ([] ++ 102 :: [0])
        (Arg.flt 1080033280 :: []) (fun _ => 0)
      = some ((if floatIsNeg 1080033280 = true then [45] else []) ++
          (fun (_ : Nat) (fmt : Nat) => [fmt % 256])
            (if floatIsNeg 1080033280 = true then floatNeg 1080033280 else 1080033280)
            (ftoaControlWord 0), [0], [], tb)) ∧
      ftoaControlWord 0 % 256 = 0 % 256) ∧
    chvprintfOut ⟨false, fun _ fmt => [fmt % 256], 2147483648⟩ [37, 102, 0] [Arg.flt 1080033280]
        (fun _ => 0)
      = some ([0], 1) :=
  ⟨by decide, Or.inl ⟨rfl, rfl⟩,
    chvprintf_float_precision_field ⟨false, fun _ fmt => [fmt % 256], 2147483648⟩ [] 0 [0] 1080033280 []
      (fun _ => 0) (by decide) (Or.inl ⟨rfl, rfl⟩) (by decide),
    by decide⟩

/-- C16 as stated fails: with a back-end that writes the low byte of its control
word, `"%f"` on 3.5 writes the byte 0, not 9, and the explicit precisions 200 and
300 give the bytes 200 and 44, which no clamp to a maximum produces. -/
theorem chvprintf_float_default_precision_counterexample :
    ftoaControlWord 0 % 256 = 0 ∧
    chvprintfOut ⟨false, fun _ fmt => [fmt % 256], 2147483648⟩ [37, 102, 0] [Arg.flt 1080033280]
        (fun _ => 0)
      = some ([0], 1) ∧
    chvprintfOut ⟨false, fun _ fmt => [fmt % 256], 2147483648⟩ [37, 46, 50, 48, 48, 102, 0]
        [Arg.flt 1080033280] (fun _ => 0)
      = some ([200], 1) ∧
    chvprintfOut ⟨false, fun _ fmt => [fmt % 256], 2147483648⟩ [37, 46, 51, 48, 48, 102, 0]
        [Arg.flt 1080033280] (fun _ => 0)
      = some ([44], 1) :=
  ⟨by decide, by decide, by decide, by decide⟩

/-- C17 (amended): for every call of `ftoa`, so for every `%f` directive, the control
word handed to `qfp_float2str` has bit 28 (`SUPPRESS_TRAILING_ZEROES`) clear and
bit 29 (`FIXED_POINT_OUTPUT`) set: it is `0x20060400` plus the low byte of the
precision. -/
theorem ftoa_control_word_bits (T : Platform) (m : Mem) (p : Int) (f : Nat) (width : Int)
    (precision : Nat) :
    ftoa T m p f width precision
      = (storeList m p (T.qfp_float2str f (ftoaControlWord precision)),
          p + (T.qfp_float2str f (ftoaControlWord precision)).length) ∧
    ftoaControlWord precision = 537265152 + precision % 256 ∧
    ftoaControlWord precision / 2 ^ 28 % 2 = 0 ∧
    ftoaControlWord precision / 2 ^ 29 % 2 = 1 := by
  have h := ftoaControlWord_eq precision
  refine ⟨rfl, h, ?_, ?_⟩
  · rw [h]
    omega
  · rw [h]
    omega

/-- C17 as stated fails: with a back-end that writes bit 28 of its control word as a
digit, `"%f"` and `"%.9f"` on 3.5 write `"0"`: the bit is clear. -/
theorem ftoa_suppress_trailing_zeroes_counterexample :
    ftoaControlWord 0 / 2 ^ 28 % 2 = 0 ∧
    chvprintfOut ⟨false, fun _ fmt => [48 + fmt / 2 ^ 28 % 2], 2147483648⟩ [37, 102, 0]
        [Arg.flt 1080033280] (fun _ => 0)
      = some ([48], 1) ∧
    chvprintfOut ⟨false, fun _ fmt => [48 + fmt / 2 ^ 28 % 2], 2147483648⟩ [37, 46, 57, 102, 0]
        [Arg.flt 1080033280] (fun _ => 0)
      = some ([48], 1) :=
  ⟨by decide, by decide, by decide⟩

/-! ## C18: the uppercase conversion letters -/

/-- The width and precision loops go through a run of digits and `*` and hand on
whatever byte ends it, with the format after it. -/
theorem parseNum_through (sc : Bool) : ∀ (nm : List Nat) (ap : List Arg) (acc : Int),
    (∀ b ∈ nm, (48 ≤ b ∧ b ≤ 57) ∨ b = 42) →
    ∃ r : Option (List Arg × Int), ∀ (c : Nat) (rest : List Nat),
      ¬ (48 ≤ c ∧ c ≤ 57) → c ≠ 42 →
      parseNum sc (nm ++ c :: rest) ap acc = r.map (fun x => (c, rest, x.1, x.2)) := by
  intro nm
  induction nm with
  | nil =>
    intro ap acc _
    refine ⟨some (ap, acc), ?_⟩
    intro c rest hc hc2
    simp only [List.nil_append, parseNum, hc, hc2, if_false, Option.map_some']
  | cons b bs ih =>
    intro ap acc h
    have hbs : ∀ x ∈ bs, (48 ≤ x ∧ x ≤ 57) ∨ x = 42 :=
      fun x hx => h x (List.mem_cons_of_mem _ hx)
    by_cases hd : 48 ≤ b ∧ b ≤ 57
    · obtain ⟨r, hr⟩ := ih ap (toS32 (acc * 10 + ((b : Int) - 48))) hbs
      refine ⟨r, ?_⟩
      intro c rest hc hc2
      rw [← hr c rest hc hc2, List.cons_append]
      simp only [parseNum, hd, and_self, if_true]
    · have h42 : b = 42 := by
        rcases h b (List.mem_cons_self _ _) with h1 | h1
        · exact absurd h1 hd
        · exact h1
      subst h42
      cases ap with
      | nil =>
        refine ⟨none, ?_⟩
        intro c rest _ _
        simp [parseNum]
      | cons a ap1 =>
        cases a with
        | int v =>
          obtain ⟨r, hr⟩ := ih ap1 (toS32 (acc * 10 + toChar sc v)) hbs
          refine ⟨r, ?_⟩
          intro c rest hc hc2
          rw [← hr c rest hc hc2, List.cons_append]
          simp only [parseNum, hd, if_false, if_true]
        | str s =>
          refine ⟨none, ?_⟩
          intro c rest _ _
          simp [parseNum]
        | flt s =>
          refine ⟨none, ?_⟩
          intro c rest _ _
          simp [parseNum]

theorem conversion_upper (T : Platform) (U : Nat) (hU : U ∈ [68, 73, 85, 88, 79])
    (filler : Nat) (width precision : Int) (ap : List Arg) (tmpbuf : Mem) :
    conversion T U true filler width precision ap tmpbuf
      = conversion T (U + 32) true filler width precision ap tmpbuf := by
  simp only [List.mem_cons, List.mem_singleton, List.not_mem_nil, or_false] at hU
  rcases hU with h | h | h | h | h <;> subst h <;> rfl

/-- After the width and the precision, the long modifier and the conversion. -/
theorem afterFlags_tail_upper (U : Nat) (hU : U ∈ [68, 73, 85, 88, 79])
    (rest : List Nat) :
    longModifier U rest = some (U, true, rest) ∧
    longModifier 108 ((U + 32) :: rest) = some (U + 32, true, rest) ∧
    U ≠ 46 ∧ ¬ (48 ≤ U ∧ U ≤ 57) ∧ U ≠ 42 ∧ U ≠ 45 ∧ U ≠ 48 := by
  simp only [List.mem_cons, List.mem_singleton, List.not_mem_nil, or_false] at hU
  rcases hU with h | h | h | h | h <;> subst h <;>
    exact ⟨by simp [longModifier], by simp [longModifier], by decide, by decide, by decide,
      by decide, by decide⟩

theorem afterFlags_upper (T : Platform) (la : Bool) (filler : Nat) (nm1 pd : List Nat) (U : Nat)
    (rest : List Nat) (ap : List Arg) (tmpbuf : Mem) (hU : U ∈ [68, 73, 85, 88, 79])
    (hnm : ∀ b ∈ nm1, (48 ≤ b ∧ b ≤ 57) ∨ b = 42)
    (hpd : pd = [] ∨ ∃ nm2, pd = 46 :: nm2 ∧ ∀ b ∈ nm2, (48 ≤ b ∧ b ≤ 57) ∨ b = 42) :
    afterFlags T la filler (nm1 ++ (pd ++ U :: rest)) ap tmpbuf
      = afterFlags T la filler (nm1 ++ (pd ++ 108 :: (U + 32) :: rest)) ap tmpbuf := by
  obtain ⟨hl1, hl2, hu46, hud, hu42, _, _⟩ := afterFlags_tail_upper U hU rest
  have hcv := conversion_upper T U hU
  have h108d : ¬ (48 ≤ (108 : Nat) ∧ (108 : Nat) ≤ 57) := by decide
  have h46d : ¬ (48 ≤ (46 : Nat) ∧ (46 : Nat) ≤ 57) := by decide
  obtain ⟨r1, hr1⟩ := parseNum_through T.signedChar nm1 ap 0 hnm
  rcases hpd with h | ⟨nm2, h, hnm2⟩
  · subst h
    simp only [List.nil_append]
    unfold afterFlags
    rw [hr1 U rest hud hu42, hr1 108 _ h108d (by decide)]
    cases r1 with
    | none => rfl
    | some x =>
      simp only [Option.map_some', hu46, show ¬ ((108 : Nat) = 46) by decide, if_false, hl1,
        hl2, hcv]
  · subst h
    simp only [List.cons_append]
    unfold afterFlags
    rw [hr1 46 _ h46d (by decide), hr1 46 _ h46d (by decide)]
    cases r1 with
    | none => rfl
    | some x =>
      obtain ⟨r2, hr2⟩ := parseNum_through T.signedChar nm2 x.1 0 hnm2
      simp only [Option.map_some', if_true]
      rw [hr2 U rest hud hu42, hr2 108 _ h108d (by decide)]
      cases r2 with
      | none => rfl
      | some y =>
        simp only [Option.map_some', hl1, hl2, hcv]

theorem directive_upper (T : Platform) (minus : Bool) (nm1 pd : List Nat) (U : Nat)
    (rest : List Nat) (ap : List Arg) (tmpbuf : Mem) (hU : U ∈ [68, 73, 85, 88, 79])
    (hnm : ∀ b ∈ nm1, (48 ≤ b ∧ b ≤ 57) ∨ b = 42)
    (hpd : pd = [] ∨ ∃ nm2, pd = 46 :: nm2 ∧ ∀ b ∈ nm2, (48 ≤ b ∧ b ≤ 57) ∨ b = 42) :
    directive T ((if minus = true then [45] else []) ++ (nm1 ++ (pd ++ U :: rest))) ap tmpbuf
      = directive T ((if minus = true then [45] else []) ++
          (nm1 ++ (pd ++ 108 :: (U + 32) :: rest))) ap tmpbuf := by
  obtain ⟨_, _, hu46, hud, hu42, hu45, hu48⟩ := afterFlags_tail_upper U hU rest
  have key : ∀ (la : Bool) (filler : Nat) (n1 : List Nat),
      (∀ b ∈ n1, (48 ≤ b ∧ b ≤ 57) ∨ b = 42) →
      afterFlags T la filler (n1 ++ (pd ++ U :: rest)) ap tmpbuf
        = afterFlags T la filler (n1 ++ (pd ++ 108 :: (U + 32) :: rest)) ap tmpbuf :=
    fun la filler n1 h1 => afterFlags_upper T la filler n1 pd U rest ap tmpbuf hU h1 hpd
  -- the first byte after the flag `-`, if any, decides on the flag `0`
  have hx : ∃ (c1 c2 : Nat) (x1 x2 : List Nat),
      nm1 ++ (pd ++ U :: rest) = c1 :: x1 ∧
      nm1 ++ (pd ++ 108 :: (U + 32) :: rest) = c2 :: x2 ∧
      c1 ≠ 45 ∧ c2 ≠ 45 ∧
      (∀ (la : Bool) (filler : Nat),
        afterFlags T la filler (c1 :: x1) ap tmpbuf
          = afterFlags T la filler (c2 :: x2) ap tmpbuf) ∧
      ((c1 = 48 ∧ c2 = 48 ∧ ∀ (la : Bool) (filler : Nat),
          afterFlags T la filler x1 ap tmpbuf = afterFlags T la filler x2 ap tmpbuf) ∨
        (c1 ≠ 48 ∧ c2 ≠ 48)) := by
    cases nm1 with
    | nil =>
      rcases hpd with h | ⟨nm2, h, _⟩
      · subst h
        exact ⟨U, 108, rest, (U + 32) :: rest, rfl, rfl, hu45, by decide,
          fun la filler => key la filler [] hnm, Or.inr ⟨hu48, by decide⟩⟩
      · subst h
        exact ⟨46, 46, _, _, rfl, rfl, by decide, by decide,
          fun la filler => key la filler [] hnm, Or.inr ⟨by decide, by decide⟩⟩
    | cons b bs =>
      have hb := hnm b (List.mem_cons_self _ _)
      have hbs : ∀ x ∈ bs, (48 ≤ x ∧ x ≤ 57) ∨ x = 42 :=
        fun x hx => hnm x (List.mem_cons_of_mem _ hx)
      refine ⟨b, b, _, _, rfl, rfl, by omega, by omega,
        fun la filler => key la filler (b :: bs) hnm, ?_⟩
      by_cases h48 : b = 48
      · exact Or.inl ⟨h48, h48, fun la filler => key la filler bs hbs⟩
      · exact Or.inr ⟨h48, h48⟩
  obtain ⟨c1, c2, x1, x2, e1, e2, h45a, h45b, k0, hz⟩ := hx
  rw [e1, e2]
  cases minus with
  | false =>
    simp only [Bool.false_eq_true, if_false, List.nil_append]
    rcases hz with ⟨ha, hb, hk⟩ | ⟨ha, hb⟩
    · subst ha hb
      rw [directive_zero, directive_zero]
      exact hk false 48
    · rw [directive_no_flags T c1 x1 ap tmpbuf h45a ha,
        directive_no_flags T c2 x2 ap tmpbuf h45b hb]
      exact k0 false 32
  | true =>
    simp only [if_true, List.singleton_append]
    rcases hz with ⟨ha, hb, hk⟩ | ⟨ha, hb⟩
    · subst ha hb
      rw [directive_minus_zero, directive_minus_zero]
      exact hk true 48
    · rw [directive_minus T c1 x1 ap tmpbuf ha, directive_minus T c2 x2 ap tmpbuf hb]
      exact k0 true 32

/-- C18: for `U` one of `D I U X O`, after every prefix made of an optional `-`, a
run of digits and `*` (so the flag `0` and a width) and an optional `.` with a run
of digits and `*`, the directive with `U` has the effect of the one with `l` and
the lowercase letter `U + 32`: same bytes emitted, same format and arguments
left; a format starting with one gives on every sink the call result of the
format starting with the other. -/
theorem chvprintf_uppercase_long {σ : Type} (T : Platform) (put : σ → Nat → σ × Int) (chp : σ)
    (minus : Bool) (nm1 pd : List Nat) (U : Nat) (rest : List Nat) (ap : List Arg) (tmpbuf : Mem)
    (hU : U ∈ [68, 73, 85, 88, 79])
    (hnm : ∀ b ∈ nm1, (48 ≤ b ∧ b ≤ 57) ∨ b = 42)
    (hpd : pd = [] ∨ ∃ nm2, pd = 46 :: nm2 ∧ ∀ b ∈ nm2, (48 ≤ b ∧ b ≤ 57) ∨ b = 42) :
    directive T ((if minus = true then [45] else []) ++ (nm1 ++ (pd ++ U :: rest))) ap tmpbuf
      = directive T ((if minus = true then [45] else []) ++
          (nm1 ++ (pd ++ 108 :: (U + 32) :: rest))) ap tmpbuf ∧
    chvprintf T put chp
        (37 :: ((if minus = true then [45] else []) ++ (nm1 ++ (pd ++ U :: rest)))) ap tmpbuf
      = chvprintf T put chp
        (37 :: ((if minus = true then [45] else []) ++
          (nm1 ++ (pd ++ 108 :: (U + 32) :: rest)))) ap tmpbuf := by
  have h := directive_upper T minus nm1 pd U rest ap tmpbuf hU hnm hpd
  exact ⟨h, chvprintf_directive_eq T put chp _ _ _ _ _ _ h⟩

/-- C18 at `"%-06X|"` and `"%-06lx|"` on 255: both give `"FF0000|"`. -/
theorem chvprintf_uppercase_long_witness :
    (88 : Nat) ∈ [68, 73, 85, 88, 79] ∧
    (∀ b ∈ ([48, 54] : List Nat), (48 ≤ b ∧ b ≤ 57) ∨ b = 42) ∧
    (([] : List Nat) = [] ∨
      ∃ nm2, ([] : List Nat) = 46 :: nm2 ∧ ∀ b ∈ nm2, (48 ≤ b ∧ b ≤ 57) ∨ b = 42) ∧
    (directive ⟨false, fun _ _ => [], 2147483648⟩
        ((if true = true then [45] else []) ++ ([48, 54] ++ ([] ++ 88 :: [124, 0])))
        [Arg.int 255] (fun _ => 0)
      = directive ⟨false, fun _ _ => [], 2147483648⟩
        ((if true = true then [45] else []) ++ ([48, 54] ++ ([] ++ 108 :: (88 + 32) :: [124, 0])))
        [Arg.int 255] (fun _ => 0) ∧
    chvprintf ⟨false, fun _ _ => [], 2147483648⟩ listPut []
        (37 :: ((if true = true then [45] else []) ++ ([48, 54] ++ ([] ++ 88 :: [124, 0]))))
        [Arg.int 255] (fun _ => 0)
      = chvprintf ⟨false, fun _ _ => [], 2147483648⟩ listPut []
        (37 :: ((if true = true then [45] else []) ++
          ([48, 54] ++ ([] ++ 108 :: (88 + 32) :: [124, 0]))))
        [Arg.int 255] (fun _ => 0)) ∧
    chvprintfOut ⟨false, fun _ _ => [], 2147483648⟩ [37, 45, 48, 54, 88, 124, 0] [Arg.int 255] (fun _ => 0)
      = some ([70, 70, 48, 48, 48, 48, 124], 7) ∧
    chvprintfOut ⟨false, fun _ _ => [], 2147483648⟩ [37, 45, 48, 54, 108, 120, 124, 0] [Arg.int 255]
        (fun _ => 0)
      = some ([70, 70, 48, 48, 48, 48, 124], 7) :=
  ⟨by decide, by decide, Or.inl rfl,
    chvprintf_uppercase_long ⟨false, fun _ _ => [], 2147483648⟩ listPut [] true [48, 54] [] 88 [124, 0]
      [Arg.int 255] (fun _ => 0) (by decide) (by decide) (Or.inl rfl),
    by decide, by decide⟩

/-! ## C19: the scratch buffer and the integer conversions -/

theorem toU32_lt (x : Int) : toU32 x < 4294967296 := by
  unfold toU32
  omega

theorem conversion_unsigned (T : Platform) (cv : Nat)
    (hcv : cv ∈ [88, 120, 85, 117, 79, 111]) (il : Bool) (filler : Nat)
    (width precision : Int) (v : Int) (ap : List Arg) (tmpbuf : Mem) :
    conversion T cv il filler width precision (Arg.int v :: ap) tmpbuf
      = unsignedCase (toS32 v)
          (if cv = 88 ∨ cv = 120 then 16 else if cv = 85 ∨ cv = 117 then 10 else 8)
          filler ap tmpbuf := by
  simp only [List.mem_cons, List.mem_singleton, List.not_mem_nil, or_false] at hcv
  rcases hcv with h | h | h | h | h | h <;> subst h <;> cases il <;> rfl

/-- C19: for every 32-bit value and every radix in {8, 10, 16}, the first loop of
`long_to_string_with_divisor` (divisor 0) ends with its cursor `q` in
`[p, p + MAX_FILLER)` and has written nothing outside `[q, p + MAX_FILLER)`; the
call returns at most 11 digits and leaves every byte outside `[p, p + 11)` as
it was.  In `chvprintf`, each integer conversion on any `int` argument returns a
token of at most 12 bytes and leaves `tmpbuf` unchanged outside the offsets
`0 .. 11`, which are below the capacity `2*MAX_FILLER + 1 = 23`. -/
theorem ltoa_scratch_buffer_bound (T : Platform) (m : Mem) (p : Int) (num radix : Nat)
    (hnum : num < 4294967296) (hr : radix = 8 ∨ radix = 10 ∨ radix = 16) :
    (∃ m1 q, ltoaDigits radix 32 m (p + MAX_FILLER) num num = some (m1, q) ∧
      p ≤ q ∧ q < p + MAX_FILLER ∧
      ∀ a, (a < q ∨ p + MAX_FILLER ≤ a) → m1 a = m a) ∧
    (∃ m2 p1, long_to_string_with_divisor m p num radix 0 = some (m2, p1) ∧
      p1 - p = ((to_radix_digits num radix).length : Int) ∧
      (to_radix_digits num radix).length ≤ 11 ∧
      ∀ a, (a < p ∨ p + MAX_FILLER ≤ a) → m2 a = m a) ∧
    (∀ (cv : Nat) (il : Bool) (filler : Nat) (width precision v : Int) (ap : List Arg)
      (tmpbuf : Mem), cv ∈ [68, 100, 73, 105, 88, 120, 85, 117, 79, 111] →
      ∃ t, conversion T cv il filler width precision (Arg.int v :: ap) tmpbuf = some t ∧
        t.s = 0 ∧ 0 ≤ t.p ∧ t.p ≤ 12 ∧
        ∀ a, (a < 0 ∨ 12 ≤ a) → t.tmpbuf a = tmpbuf a) ∧
    (12 : Int) ≤ 2 * MAX_FILLER + 1 ∧ 2 * MAX_FILLER + 1 = 23 := by
  have h8 : 8 ≤ radix := by omega
  have h16 : radix ≤ 16 := by omega
  have hMF : MAX_FILLER = 11 := rfl
  have hlen : (to_radix_digits num radix).length ≤ 11 := by
    apply to_radix_digits_length_le num radix 11 (by omega) (by omega)
    calc num < 8 ^ 11 := by omega
      _ ≤ radix ^ 11 := Nat.pow_le_pow_left h8 11
  have hpos := to_radix_digits_length_pos num radix (by omega)
  have hfuel : num < radix ^ (31 + 1) := by
    calc num < 8 ^ 32 := by omega
      _ ≤ radix ^ 32 := Nat.pow_le_pow_left h8 32
  refine ⟨?_, ?_, ?_, by rw [hMF]; decide, by rw [hMF]; decide⟩
  · obtain ⟨m1, h1, _, h3⟩ :=
      ltoaDigits_spec radix (by omega) h16 31 m (p + MAX_FILLER) num hfuel
    refine ⟨m1, _, h1, ?_, ?_, h3⟩
    · rw [hMF]; omega
    · rw [hMF]; omega
  · obtain ⟨m2, h1, _, _, h4⟩ := ch_ltoa_spec m p num radix h8 h16 hnum
    refine ⟨m2, _, h1, by omega, hlen, ?_⟩
    intro a ha
    rw [hMF] at ha
    exact h4 a ha
  · intro cv il filler width precision v ap tmpbuf hcv
    have hrange := toS32_range v
    by_cases hs : cv = 100 ∨ cv = 105 ∨ cv = 68 ∨ cv = 73
    · obtain ⟨t, ht, hts, htp, _, _, _, htb, hfr⟩ :=
        signedCase_spec T (toS32 v) filler ap tmpbuf hrange
      have hl := signedToken_length T (toS32 v) hrange
      refine ⟨t, ?_, hts, by omega, by omega, ?_⟩
      · rw [conversion_signed T cv hs]
        exact ht
      · intro a ha
        rw [htb]
        exact hfr a ha
    · have hu : cv ∈ [88, 120, 85, 117, 79, 111] := by
        simp only [List.mem_cons, List.mem_singleton, List.not_mem_nil, or_false] at hcv ⊢
        omega
      rw [conversion_unsigned T cv hu]
      generalize hrdx : (if cv = 88 ∨ cv = 120 then 16 else if cv = 85 ∨ cv = 117 then 10
        else 8) = rdx
      have hr8 : 8 ≤ rdx ∧ rdx ≤ 16 := by
        rw [← hrdx]
        split
        · omega
        · split <;> omega
      obtain ⟨m1, h1, _, h3, h4⟩ :=
        ch_ltoa_spec tmpbuf 0 (toU32 (toS32 v)) rdx hr8.1 hr8.2 (toU32_lt _)
      unfold unsignedCase
      rw [h1]
      refine ⟨_, rfl, rfl, ?_, ?_, ?_⟩
      · show (0 : Int) ≤ 0 + _
        omega
      · show (0 : Int) + _ ≤ 12
        omega
      · intro a ha
        exact h4 a (by omega)

/-- C19 at the value `0xFFFFFFFF` in base 8, whose 11 digits fill the frame. -/
theorem ltoa_scratch_buffer_bound_witness :
    (4294967295 : Nat) < 4294967296 ∧ ((8 : Nat) = 8 ∨ (8 : Nat) = 10 ∨ (8 : Nat) = 16) ∧
    ((∃ m1 q, ltoaDigits 8 32 (fun _ => 0) (1 + MAX_FILLER) 4294967295 4294967295
          = some (m1, q) ∧
        1 ≤ q ∧ q < 1 + MAX_FILLER ∧
        ∀ a, (a < q ∨ 1 + MAX_FILLER ≤ a) → m1 a = (fun _ => 0) a) ∧
      (∃ m2 p1, long_to_string_with_divisor (fun _ => 0) 1 4294967295 8 0 = some (m2, p1) ∧
        p1 - 1 = ((to_radix_digits 4294967295 8).length : Int) ∧
        (to_radix_digits 4294967295 8).length ≤ 11 ∧
        ∀ a, (a < 1 ∨ 1 + MAX_FILLER ≤ a) → m2 a = (fun _ => 0) a) ∧
      (∀ (cv : Nat) (il : Bool) (filler : Nat) (width precision v : Int) (ap : List Arg)
        (tmpbuf : Mem), cv ∈ [68, 100, 73, 105, 88, 120, 85, 117, 79, 111] →
        ∃ t, conversion ⟨false, fun _ _ => [], 2147483648⟩ cv il filler width precision (Arg.int v :: ap)
            tmpbuf = some t ∧
          t.s = 0 ∧ 0 ≤ t.p ∧ t.p ≤ 12 ∧
          ∀ a, (a < 0 ∨ 12 ≤ a) → t.tmpbuf a = tmpbuf a) ∧
      (12 : Int) ≤ 2 * MAX_FILLER + 1 ∧ 2 * MAX_FILLER + 1 = 23) ∧
    chvprintfOut ⟨false, fun _ _ => [], 2147483648⟩ [37, 111, 0] [Arg.int (-1)] (fun _ => 0)
      = some ([51, 55, 55, 55, 55, 55, 55, 55, 55, 55, 55], 11) :=
  ⟨by decide, by decide,
    ltoa_scratch_buffer_bound ⟨false, fun _ _ => [], 2147483648⟩ (fun _ => 0) 1 4294967295 8 (by decide)
      (by decide),
    by decide⟩

/-! ## C20: formats that end inside a directive -/

/-- C20 fails on the code: a NUL right after `%` (also after a flag, a width or a
`.`) is taken as the conversion character, is emitted by the default case, and
the loop goes on with the bytes that follow the terminator.  With the memory
`"%"`, NUL, `"A"`, NUL the call emits NUL and `A`; likewise for `"%-"`, `"%5"`
and `"%5."`; when the memory ends after the terminator the read leaves it.  Only
the `l` modifier tests the byte before consuming it (line 237): `"%l"` stops at
the terminator. -/
theorem chvprintf_reads_past_terminator :
    (∀ (T : Platform) (rest : List Nat) (ap : List Arg) (tmpbuf : Mem),
      directive T (0 :: rest) ap tmpbuf = some ([0], rest, ap, store tmpbuf 0 0)) ∧
    chvprintfOut ⟨false, fun _ _ => [], 2147483648⟩ [37, 0, 65, 0] [] (fun _ => 0) = some ([0, 65], 2) ∧
    chvprintfOut ⟨false, fun _ _ => [], 2147483648⟩ [37, 0, 66, 0] [] (fun _ => 0) = some ([0, 66], 2) ∧
    chvprintfOut ⟨false, fun _ _ => [], 2147483648⟩ [37, 45, 0, 65, 0] [] (fun _ => 0)
      = some ([0, 65], 2) ∧
    chvprintfOut ⟨false, fun _ _ => [], 2147483648⟩ [37, 53, 0, 65, 0] [] (fun _ => 0)
      = some ([32, 32, 32, 32, 0, 65], 6) ∧
    chvprintfOut ⟨false, fun _ _ => [], 2147483648⟩ [37, 53, 46, 0, 65, 0] [] (fun _ => 0)
      = some ([32, 32, 32, 32, 0, 65], 6) ∧
    chvprintfOut ⟨false, fun _ _ => [], 2147483648⟩ [37, 0] [] (fun _ => 0) = none ∧
    chvprintfOut ⟨false, fun _ _ => [], 2147483648⟩ [37, 108, 0, 65, 0] [] (fun _ => 0)
      = some ([108], 1) :=
  ⟨fun T rest ap tmpbuf => directive_default T 0 rest ap tmpbuf (by decide) (by decide),
    by decide, by decide, by decide, by decide, by decide, by decide, by decide⟩

end Chprintf
